import Mathlib

/-!
# Multi-threaded cache proxy: request codec and response cache

A shallow embedding of the request parser of `Proxy_Parse.cpp`, of the
byte-bounded cache, the error pages, the handler thread and the accept loop of
`Proxy_Server_without_cache.c`, and of the count-bounded cache and the upstream
fetch of `Proxy_server_with_cache.c`.

* A `std::string` and the contents of a C string are lists of characters, one
  character per byte.
* A C `int` is an integer. In `cache_add_element` and in the forwarding loop of
  `handle_request` the result of every `int` operation is reduced to 32 bits by
  `to_int`; the other functions are embedded with exact integers, and their
  statements concern executions in which no 32-bit value overflows.
* Of the mutex `cache_lock` of `Proxy_Server_without_cache.c` the embedding
  keeps whether the calling thread holds it: `cache_add_element` calls `cache_remove_lru_element` while it holds
  the lock, and such a call does not return.
* A function that returns `-1` on failure and `0` on success returns `none`
  and `some` of the object it has filled.
* A run of the handler thread is the list of its calls on the semaphore and on
  the sockets; what it meets outside its own code (the bytes of the client,
  the allocator, the clock, the parsing library) is a parameter of the run.
* The entries of the count-bounded cache live in a heap, a map from addresses
  to entries; a pointer is an address or `NULL`, and a function that follows a
  pointer returns `none` when the pointer is not the address of an entry.
-/

namespace ProxyParse

/-- A byte string. -/
abbrev Str := List Char

/-- The line terminator. -/
def CRLF : Str := ['\r', '\n']

/-- The header block terminator. -/
def CRLFCRLF : Str := ['\r', '\n', '\r', '\n']

/-- Scan for `std::string::find`: `s` is the text from index `i` on. -/
def findAux (pat : Str) : Str → Nat → Option Nat
  | [], i => if pat = [] then some i else none
  | c :: cs, i => if pat.isPrefixOf (c :: cs) then some i else findAux pat cs (i + 1)

/-- The call `s.find(pat, pos)`; `none` is `string::npos`. -/
def find (s pat : Str) (pos : Nat) : Option Nat :=
  if pos > s.length then none else findAux pat (s.drop pos) pos

/-- The call `s.substr(pos, n)`. -/
def substr (s : Str) (pos n : Nat) : Str := (s.drop pos).take n

/-- The call `s.substr(pos)`. -/
def substrFrom (s : Str) (pos : Nat) : Str := s.drop pos

/-- The whitespace of the classic locale, which stream extraction skips. -/
def isspace (c : Char) : Bool :=
  c = ' ' || c = '\t' || c = '\n' || c = '\x0b' || c = '\x0c' || c = '\r'

/-- One extraction `iss >> token`: skip whitespace, then read up to the next
whitespace; fails when nothing is left. Returns the token and the rest of the
stream. -/
def read_token (s : Str) : Option (Str × Str) :=
  match s.dropWhile isspace with
  | [] => none
  | c :: cs =>
    some ((c :: cs).takeWhile (fun x => !isspace x), (c :: cs).dropWhile (fun x => !isspace x))

/-- The value of a string of decimal digits. -/
def decimalValue (ds : Str) : Nat :=
  ds.foldl (fun acc c => 10 * acc + (c.toNat - 48)) 0

def INT_MAX : Int := 2147483647

def INT_MIN : Int := -2147483648

/-- The call `std::stoi(s)`: leading whitespace, an optional sign, then the
longest run of decimal digits; `none` when it throws (no digit, or a value
outside `int`). -/
def stoi (s : Str) : Option Int :=
  let s1 := s.dropWhile isspace
  let signed : Bool × Str :=
    match s1 with
    | '-' :: r => (true, r)
    | '+' :: r => (false, r)
    | _ => (false, s1)
  let ds := signed.2.takeWhile Char.isDigit
  match ds with
  | [] => none
  | _ :: _ =>
    let v : Int := if signed.1 then - (decimalValue ds : Int) else (decimalValue ds : Int)
    if INT_MIN ≤ v ∧ v ≤ INT_MAX then some v else none

/-- Class `ParsedHeader`. -/
structure ParsedHeader where
  key : Str
  value : Str
  deriving DecidableEq, Repr

/-- Method `ParsedHeader::lineLen`. -/
def ParsedHeader.lineLen (h : ParsedHeader) : Nat :=
  h.key.length + 2 + h.value.length + 2

/-- Class `ParsedRequest`. -/
structure ParsedRequest where
  buf : Str := []
  method : Str := []
  protocol : Str := []
  host : Str := []
  port : Str := []
  path : Str := []
  version : Str := []
  headers : List ParsedHeader := []
  deriving DecidableEq, Repr

/-- The object built by the constructor `ParsedRequest()`. -/
def ParsedRequest.fresh : ParsedRequest := {}

def MIN_REQ_LEN : Nat := 4

def MAX_REQ_LEN : Nat := 65535

def root_abs_path : Str := ['/']

/-- Lines 86 to 116 of `ParsedRequest::parse`: the absolute URI `full_addr` is
split into protocol, host, port and path. -/
def parse_target (self : ParsedRequest) (full_addr : Str) : Option ParsedRequest :=
  match find full_addr [':', '/', '/'] 0 with
  | none => none
  | some pos =>
    let self := { self with protocol := substr full_addr 0 pos }
    let start := pos + 3
    match find full_addr ['/'] start with
    | none => none
    | some path_start =>
      let host_port := substr full_addr start (path_start - start)
      let authority : Option ParsedRequest :=
        match find host_port [':'] 0 with
        | some colon_pos =>
          let self := { self with host := substr host_port 0 colon_pos,
                                  port := substrFrom host_port (colon_pos + 1) }
          match stoi self.port with
          | none => none
          | some port_num => if port_num = 0 then none else some self
        | none => some { self with host := host_port }
      match authority with
      | none => none
      | some self =>
        let path := substrFrom full_addr path_start
        if path = [] then some { self with path := root_abs_path }
        else if path.length ≥ 2 ∧ path.get? 0 = some '/' ∧ path.get? 1 = some '/' then none
        else if path.get? 0 ≠ some '/' then some { self with path := '/' :: path }
        else some { self with path := path }

/-- Lines 127 to 134 of `ParsedRequest::parse`: one header line is split at
its first colon; one space after the colon is skipped. -/
def parse_header_line (line : Str) : Option ParsedHeader :=
  match find line [':'] 0 with
  | none => none
  | some colon =>
    let key := substr line 0 colon
    let value_start := colon + 1
    let value_start :=
      if value_start < line.length ∧ line.get? value_start = some ' ' then value_start + 1
      else value_start
    some { key := key, value := substrFrom line value_start }

/-- Lines 136 to 140: `remove_if` and `erase` on the key, then `push_back`. -/
def set_header (headers : List ParsedHeader) (h : ParsedHeader) : List ParsedHeader :=
  headers.filter (fun x => !decide (x.key = h.key)) ++ [h]

/-- The header loop of `ParsedRequest::parse` (lines 119 to 142). Every
iteration moves `header_line_start` forward by at least two, so `fuel` larger
than the input length is never used up; `none` is `return -1`. -/
def parse_headers (input : Str) (header_end : Nat) :
    Nat → Nat → List ParsedHeader → Option (List ParsedHeader)
  | 0, _, _ => none
  | fuel + 1, header_line_start, headers =>
    if header_line_start < header_end then
      match find input CRLF header_line_start with
      | none => some headers
      | some header_line_end =>
        if header_line_end > header_end then some headers
        else
          let line := substr input header_line_start (header_line_end - header_line_start)
          if line = [] then some headers
          else
            match parse_header_line line with
            | none => none
            | some h => parse_headers input header_end fuel (header_line_end + 2) (set_header headers h)
    else some headers

/-- Method `ParsedRequest::parse`, called on the object `self`. -/
def ParsedRequest.parse (self : ParsedRequest) (input : Str) : Option ParsedRequest :=
  if input.length < MIN_REQ_LEN ∨ input.length > MAX_REQ_LEN then none
  else
    match find input CRLFCRLF 0 with
    | none => none
    | some header_end =>
      match find input CRLF 0 with
      | none => none
      | some first_line_end =>
        let self := { self with buf := substr input 0 first_line_end }
        match read_token self.buf with
        | none => none
        | some (method, iss) =>
          let self := { self with method := method }
          if self.method ≠ ['G', 'E', 'T'] then none
          else
            match read_token iss with
            | none => none
            | some (full_addr, iss) =>
              match read_token iss with
              | none => none
              | some (version, _) =>
                let self := { self with version := version }
                if find self.version ['H', 'T', 'T', 'P', '/'] 0 ≠ some 0 then none
                else
                  match parse_target self full_addr with
                  | none => none
                  | some self =>
                    match parse_headers input header_end (input.length + 1)
                        (first_line_end + 2) self.headers with
                    | none => none
                    | some headers => some { self with headers := headers }

/-- Method `ParsedRequest::printRequestLine`: the text written to the stream. -/
def ParsedRequest.printRequestLine (self : ParsedRequest) : Int × Str :=
  (0, self.method ++ [' '] ++ self.protocol ++ [':', '/', '/'] ++ self.host
      ++ (if self.port ≠ [] then ':' :: self.port else [])
      ++ self.path ++ [' '] ++ self.version ++ CRLF)

/-- The loop shared by `unparse` and `unparse_headers`. -/
def header_lines (headers : List ParsedHeader) : Str :=
  (headers.map (fun ph => ph.key ++ [':', ' '] ++ ph.value ++ CRLF)).flatten

/-- Method `ParsedRequest::unparse`: return value and `output`. -/
def ParsedRequest.unparse (self : ParsedRequest) : Int × Str :=
  let line := self.printRequestLine
  if line.1 < 0 then (-1, [])
  else (0, line.2 ++ header_lines self.headers ++ CRLF)

/-- Method `ParsedRequest::unparse_headers`: return value and `output`. -/
def ParsedRequest.unparse_headers (self : ParsedRequest) : Int × Str :=
  (0, header_lines self.headers ++ CRLF)

/-- The request built in `main` of `Proxy_Parse.cpp`. -/
def main_request : Str :=
  "GET http://example.com:8080/path/to/resource HTTP/1.1\r\n".toList
    ++ "Host: example.com\r\n".toList
    ++ "User-Agent: TestAgent\r\n".toList
    ++ "\r\n".toList

/-- A text holds the two bytes CR LF somewhere. -/
def hasCRLF : Str → Bool
  | [] => false
  | [_] => false
  | c :: d :: cs => (c = '\r' && d = '\n') || hasCRLF (d :: cs)

/-- The lines `ls`, each followed by its CR LF. -/
def lines_text (ls : List Str) : Str := (ls.map (fun l => l ++ CRLF)).flatten

/-- A text without whitespace. -/
def noSpace (s : Str) : Prop := ∀ c ∈ s, isspace c = false

instance (s : Str) : Decidable (noSpace s) := by unfold noSpace; infer_instance

/-- The request line `GET full_addr version`, without its terminator. -/
def request_line (full_addr version : Str) : Str :=
  'G' :: 'E' :: 'T' :: ' ' :: (full_addr ++ ' ' :: version)

/-- A request text: request line, header lines, blank line, then `tail`. -/
def request_text (full_addr version : Str) (ls : List Str) (tail : Str) : Str :=
  request_line full_addr version ++ '\r' :: '\n' :: (lines_text ls ++ '\r' :: '\n' :: tail)

/-- The target `s://h:p` followed by the path `q`. -/
def absolute_uri (s h p q : Str) : Str :=
  s ++ ':' :: '/' :: '/' :: (h ++ ':' :: (p ++ q))

/-- The line written for one header by `unparse`, without its terminator. -/
def header_line (ph : ParsedHeader) : Str := ph.key ++ ':' :: ' ' :: ph.value

/-- The request text `GET s://h:p` ++ `q` ++ ` ` ++ `v` ++ CRLF, one line
`name: value` ++ CRLF for each header, and the closing CRLF. -/
def absolute_get (s h p q v : Str) (hdrs : List ParsedHeader) : Str :=
  ['G', 'E', 'T', ' '] ++ s ++ [':', '/', '/'] ++ h ++ [':'] ++ p ++ q ++ [' '] ++ v ++ CRLF
    ++ header_lines hdrs ++ CRLF

/-- Header lists that `unparse` writes and `parse` reads back unchanged: the
names are pairwise distinct and hold no colon, and no written line holds CR LF. -/
def goodHeaders (hs : List ParsedHeader) : Prop :=
  (hs.map ParsedHeader.key).Nodup ∧ ∀ x ∈ hs, ':' ∉ x.key ∧ hasCRLF (header_line x) = false

/-- The object that `parse` builds from the request of `main`. -/
def main_parsed : ParsedRequest :=
  { buf := "GET http://example.com:8080/path/to/resource HTTP/1.1".toList,
    method := "GET".toList, protocol := "http".toList,
    host := "example.com".toList, port := "8080".toList,
    path := "/path/to/resource".toList, version := "HTTP/1.1".toList,
    headers := [⟨"Host".toList, "example.com".toList⟩,
                ⟨"User-Agent".toList, "TestAgent".toList⟩] }

/-- A request whose only header has no space after the colon:
`GET http://h:1/ HTTP/1.1`, then `A:` followed by `val`. -/
def nospace_request (val : Str) : Str :=
  "GET http://h:1/ HTTP/1.1\r\nA:".toList ++ (val ++ ['\r', '\n', '\r', '\n'])

/-- The object that `parse` builds from `nospace_request val`. -/
def nospace_parsed (val : Str) : ParsedRequest :=
  { buf := "GET http://h:1/ HTTP/1.1".toList, method := "GET".toList,
    protocol := "http".toList, host := "h".toList, port := "1".toList, path := "/".toList,
    version := "HTTP/1.1".toList, headers := [⟨"A".toList, val⟩] }

/-- A header value of 65503 bytes. -/
def long_value : Str := List.replicate 65503 'b'

/-- A request of 65535 bytes. -/
def long_request : Str := nospace_request long_value

/-- The object that `parse` builds from `long_request`. -/
def long_parsed : ParsedRequest := nospace_parsed long_value

/-- Lines 95 to 107 of `ParsedRequest::parse`, as they are in `parse_target`:
the authority `host_port` is split at its first colon and the port is checked. -/
def parse_authority (self : ParsedRequest) (host_port : Str) : Option ParsedRequest :=
  match find host_port [':'] 0 with
  | some colon_pos =>
    let self := { self with host := substr host_port 0 colon_pos,
                            port := substrFrom host_port (colon_pos + 1) }
    match stoi self.port with
    | none => none
    | some port_num => if port_num = 0 then none else some self
  | none => some { self with host := host_port }

/-- The first line of a request: the text before the first CR LF, which
`parse` keeps in `buf`. -/
def first_line (input : Str) : Option Str :=
  (find input CRLF 0).map (fun first_line_end => substr input 0 first_line_end)

/-- Token number `n`, counted from 0, that stream extraction reads from `s`. -/
def nth_token : Nat → Str → Option Str
  | 0, s => (read_token s).map Prod.fst
  | n + 1, s => (read_token s).bind (fun r => nth_token n r.2)

/-- Token number `n`, counted from 0, of the first line of a request. -/
def line_token (n : Nat) (input : Str) : Option Str := (first_line input).bind (nth_token n)

/-- A request with the method POST. -/
def post_request : Str := "POST http://x/y HTTP/1.1\r\n\r\n".toList

/-- A request whose version token is `FTP/1.1`. -/
def ftp_version_request : Str := "GET http://x/y FTP/1.1\r\n\r\n".toList

/-- A request whose path begins with two slashes. -/
def double_slash_request : Str := "GET http://h//foo HTTP/1.1\r\n\r\n".toList

/-- A request whose authority is empty. -/
def empty_authority_request : Str := "GET http:///x HTTP/1.1\r\n\r\n".toList

/-- A request whose authority is a port alone. -/
def port_only_request : Str := "GET http://:80/x HTTP/1.1\r\n\r\n".toList

/-- A request line with a fourth token. -/
def four_token_request : Str := "GET http://h/ HTTP/1.1 extra\r\n\r\n".toList

/-- The request parsed from `four_token_request`. -/
def four_token_parsed : ParsedRequest :=
  { buf := "GET http://h/ HTTP/1.1 extra".toList, method := "GET".toList,
    protocol := "http".toList, host := "h".toList, port := [], path := "/".toList,
    version := "HTTP/1.1".toList, headers := [] }

/-- A request line whose tokens are separated by a tab and by two spaces. -/
def tab_request : Str := "GET\thttp://h/  HTTP/1.1\r\n\r\n".toList

/-- A request with the port 70000. -/
def port_70000_request : Str := "GET http://h:70000/ HTTP/1.1\r\n\r\n".toList

/-- A request with the port -5. -/
def port_negative_request : Str := "GET http://h:-5/ HTTP/1.1\r\n\r\n".toList

/-- A request with the port `80abc`. -/
def port_80abc_request : Str := "GET http://h:80abc/ HTTP/1.1\r\n\r\n".toList

/-- A request with the port 0. -/
def port_zero_request : Str := "GET http://h:0/ HTTP/1.1\r\n\r\n".toList

/-- The pieces of a text between its CR LF separators (specification side):
a text without CR LF is one piece. -/
def crlf_lines : Str → List Str
  | [] => [[]]
  | [c] => [[c]]
  | c :: d :: rest =>
    if c = '\r' ∧ d = '\n' then [] :: crlf_lines rest
    else (c :: (crlf_lines (d :: rest)).headD []) :: (crlf_lines (d :: rest)).tail

/-- The text between the request line (with its CR LF) and the first
CR LF CR LF (specification side); empty when the request line is directly
followed by the blank line. -/
def header_block (input : Str) : Str :=
  match find input CRLFCRLF 0, find input CRLF 0 with
  | some header_end, some first_line_end =>
    substr input (first_line_end + 2) (header_end - (first_line_end + 2))
  | _, _ => []

/-- The CR LF separated lines of the header block (specification side); an
empty block has no line. -/
def header_block_lines (input : Str) : List Str :=
  if header_block input = [] then [] else crlf_lines (header_block input)

/-- A value with one leading space removed, if it has one. -/
def strip_one_space : Str → Str
  | ' ' :: v => v
  | v => v

/-- A header line split at its first colon (specification side): the name is
the text before it, the value the text after it without one leading space. -/
def spec_split_header (line : Str) : Option ParsedHeader :=
  if ':' ∈ line then
    some { key := line.takeWhile (fun c => c ≠ ':'),
           value := strip_one_space ((line.dropWhile (fun c => c ≠ ':')).drop 1) }
  else none

/-- Last wins (specification side): every earlier entry with the same name is
removed and the new entry is appended. -/
def spec_last_wins (acc : List ParsedHeader) (e : ParsedHeader) : List ParsedHeader :=
  acc.filter (fun x => x.key ≠ e.key) ++ [e]

/-- The fold over the header lines (specification side); `none` when a line
holds no colon. -/
def spec_fold_headers : List ParsedHeader → List Str → Option (List ParsedHeader)
  | acc, [] => some acc
  | acc, l :: ls =>
    match spec_split_header l with
    | none => none
    | some e => spec_fold_headers (spec_last_wins acc e) ls

/-- A request with a header line that holds no colon. -/
def no_colon_request : Str := "GET http://h/ HTTP/1.1\r\nbad\r\n\r\n".toList

end ProxyParse

namespace ProxyServer

open ProxyParse (Str ParsedRequest ParsedHeader header_lines CRLF main_parsed CRLFCRLF find findAux lines_text hasCRLF decimalValue substr)

def MAX_BYTES : Nat := 4096

def MAX_CLIENTS : Nat := 400

def MAX_CACHE_SIZE : Int := 200 * 2 ^ 20

/-- The C string that starts at a buffer: its bytes up to the first NUL. -/
def cstr (s : Str) : Str := s.takeWhile (fun c => !decide (c = '\x00'))

/-- The call `strlen(s)`. -/
def strlen (s : Str) : Int := ((cstr s).length : Int)

/-- The test `strcmp(a, b) == 0`. -/
def strcmp_eq (a b : Str) : Bool := decide (cstr a = cstr b)

/-- The value of type `int` (32 bits, two's complement) that stands for the
integer `x`: the result of a conversion to `int`, and of an `int` operation
whose exact result `x` leaves the range (the overflow wraps, as on the usual
targets). -/
def to_int (x : Int) : Int := (x + 2 ^ 31) % 2 ^ 32 - 2 ^ 31

/-- Struct `cache_element`; the field `next` is the order of the list that
holds the elements. -/
structure cache_element where
  data : Str
  len : Int
  url : Str
  lru_time_track : Int
  deriving DecidableEq, Repr

/-- The value of `sizeof(cache_element)` with 8-byte pointers and `time_t`. -/
def sizeof_cache_element : Int := 40

/-- The globals `cache_head` and `cache_current_size`. Of the mutex
`cache_lock` the embedding keeps what one thread sees of it: whether the thread
holds it when it calls `pthread_mutex_lock`. -/
structure Cache where
  cache_head : List cache_element
  cache_current_size : Int
  deriving DecidableEq, Repr

/-- The initial values of the globals. -/
def Cache.init : Cache := { cache_head := [], cache_current_size := 0 }

/-- The loop of `cache_find`: the first element whose url compares equal gets
the time `now`; the result is its position (the returned pointer) and the
list. -/
def cache_find_loop (url : Str) (now : Int) :
    List cache_element → Option (Nat × List cache_element)
  | [] => none
  | curr :: rest =>
    if strcmp_eq curr.url url then some (0, { curr with lru_time_track := now } :: rest)
    else
      match cache_find_loop url now rest with
      | none => none
      | some (i, rest2) => some (i + 1, curr :: rest2)

/-- Function `cache_find`, called by a thread that does not hold `cache_lock`;
`now` is the value read from `time(NULL)`. The pointer it returns is the
position of the element in the list, `none` for `NULL`. -/
def cache_find (c : Cache) (url : Str) (now : Int) : Option Nat × Cache :=
  match cache_find_loop url now c.cache_head with
  | none => (none, c)
  | some (i, l) => (some i, { c with cache_head := l })

/-- The scan of `cache_remove_lru_element`: `rest` is the list from
`curr->next` on, `i` its position, `lru_idx` and `lru` the candidate. -/
def lru_scan : List cache_element → Nat → Nat → cache_element → Nat × cache_element
  | [], _, lru_idx, lru => (lru_idx, lru)
  | next :: rest, i, lru_idx, lru =>
    if next.lru_time_track < lru.lru_time_track then lru_scan rest (i + 1) i next
    else lru_scan rest (i + 1) lru_idx lru

/-- The size charged for an element and given back when it is removed. -/
def accounted_size (e : cache_element) : Int :=
  e.len + 1 + strlen e.url + sizeof_cache_element

/-- Function `cache_remove_lru_element`, called by a thread that does not hold
`cache_lock`: the code between lock and unlock. -/
def cache_remove_lru_element (c : Cache) : Cache :=
  match c.cache_head with
  | [] => c
  | head :: rest =>
    let found := lru_scan rest 1 0 head
    { cache_head := (head :: rest).eraseIdx found.1,
      cache_current_size := c.cache_current_size - accounted_size found.2 }

/-- The call `pthread_mutex_lock(&cache_lock)` by a thread; `held` tells
whether this thread holds the mutex already. `cache_lock` is initialised with
the default attributes (`pthread_mutex_init(&cache_lock, NULL)`), so it is not
recursive: a thread that locks it again waits for itself, and the call never
returns, which is `none`. -/
def pthread_mutex_lock (held : Bool) : Option Unit := if held then none else some ()

/-- A call of `cache_remove_lru_element` by a thread; `held` tells whether the
thread holds `cache_lock` at the call. The function starts with
`pthread_mutex_lock(&cache_lock)` and unlocks the mutex before it returns. -/
def call_cache_remove_lru_element (held : Bool) (c : Cache) : Option Cache :=
  (pthread_mutex_lock held).map (fun _ => cache_remove_lru_element c)

/-- The eviction loop of `cache_add_element`, which runs while the thread
holds `cache_lock`; `fuel` bounds the number of calls of
`cache_remove_lru_element`, and `none` means that the loop does not end: it is
still running after that many calls, or a call has not returned. -/
def evict_loop (element_size : Int) : Nat → Cache → Option Cache
  | 0, c =>
    if to_int (c.cache_current_size + element_size) > MAX_CACHE_SIZE then none else some c
  | fuel + 1, c =>
    if to_int (c.cache_current_size + element_size) > MAX_CACHE_SIZE then
      (call_cache_remove_lru_element true c).bind (fun c => evict_loop element_size fuel c)
    else some c

/-- The outcomes of the three `malloc` calls of `cache_add_element`. -/
structure Allocs where
  element : Bool
  data : Bool
  url : Bool
  deriving DecidableEq, Repr

/-- The call `malloc(n)` for an `int` expression `n`: a negative `n` is
converted to a size that no allocation can satisfy. -/
def malloc (n : Int) (available : Bool) : Bool := available && decide (0 ≤ n)

/-- Function `cache_add_element`, called by a thread that does not hold
`cache_lock`; `now` is the value read from `time(NULL)`. The result is the
return value and the globals, `none` when the call does not return. -/
def cache_add_element (c : Cache) (data : Str) (size : Int) (url : Str) (now : Int)
    (m : Allocs) (fuel : Nat) : Option (Int × Cache) :=
  (pthread_mutex_lock false).bind (fun _ =>
    let element_size := to_int (size + 1 + strlen url + sizeof_cache_element)
    match evict_loop element_size fuel c with
    | none => none
    | some c =>
      if !malloc sizeof_cache_element m.element then some (0, c)
      else if !malloc (to_int (size + 10)) m.data then some (0, c)
      else if !malloc (10 + strlen url) m.url then some (0, c)
      else
        let new_element : cache_element :=
          { data := cstr data, url := cstr url, lru_time_track := now, len := size }
        some (1, { cache_head := new_element :: c.cache_head,
                   cache_current_size := to_int (c.cache_current_size + element_size) }))

/-- The element `e` with its time stamp set to `now`. -/
def touch (now : Int) (e : cache_element) : cache_element := { e with lru_time_track := now }

/-- The fields of an element that a lookup must not change. -/
def entry_fields (e : cache_element) : Str × Str × Int := (e.url, e.data, e.len)

/-- The cache after the insert of `RESP1` under `REQ1` at time 100. -/
def cache_one : Cache := ⟨[⟨"RESP1".toList, 5, "REQ1".toList, 100⟩], 50⟩

/-- The cache after the further insert of `RESP2` under `REQ1` at time 101. -/
def cache_two : Cache :=
  ⟨[⟨"RESP2".toList, 5, "REQ1".toList, 101⟩, ⟨"RESP1".toList, 5, "REQ1".toList, 100⟩], 100⟩

/-- The cache after the insert of a body under `a`, with `size` 104857000, at
time 100. -/
def cache_a (dA : Str) : Cache := ⟨[⟨cstr dA, 104857000, ['a'], 100⟩], 104857042⟩

/-- The cache after the further insert of such a body under `b` at time 101. -/
def cache_ba (dA dB : Str) : Cache :=
  ⟨[⟨cstr dB, 104857000, ['b'], 101⟩, ⟨cstr dA, 104857000, ['a'], 100⟩], 209714084⟩

/-- The cache after the lookup of `a` at time 102. -/
def cache_ba_used (dA dB : Str) : Cache :=
  ⟨[⟨cstr dB, 104857000, ['b'], 101⟩, ⟨cstr dA, 104857000, ['a'], 102⟩], 209714084⟩

/-- The cache after the insert of an element of `size` 2147483606 under `u`
into the empty cache. -/
def cache_wrapped (data : Str) (now : Int) : Cache :=
  ⟨[⟨cstr data, 2147483606, ['u'], now⟩], -2147483648⟩

/-- The invariant of the cache size: `cache_current_size` is the sum of the
accounted sizes of the elements of the list and is at most `MAX_CACHE_SIZE`. -/
def size_invariant (c : Cache) : Prop :=
  c.cache_current_size = (c.cache_head.map accounted_size).sum ∧
  c.cache_current_size ≤ MAX_CACHE_SIZE

/-- The states of the globals that calls of the three cache functions produce
from the initial state. -/
inductive Reachable : Cache → Prop
  | init : Reachable Cache.init
  | find (c : Cache) (url : Str) (now : Int) : Reachable c → Reachable (cache_find c url now).2
  | remove (c : Cache) : Reachable c → Reachable (cache_remove_lru_element c)
  | add (c c2 : Cache) (data : Str) (size : Int) (url : Str) (now : Int) (m : Allocs)
      (fuel : Nat) (r : Int) : Reachable c →
      cache_add_element c data size url now m fuel = some (r, c2) → Reachable c2

/-- Every stored length has passed `malloc(size + 10)`. -/
def lengths_allocated (c : Cache) : Prop :=
  ∀ x ∈ c.cache_head.map cache_element.len, -10 ≤ x

/-- Modelled from the spec: `ParsedHeader_set` of the parsing library, whose
source is not in the repository. It replaces all prior entries for `name` with
a single entry carrying `value`, appended at the end. -/
def ParsedHeader_set (headers : List ParsedHeader) (name value : Str) : List ParsedHeader :=
  headers.filter (fun h => !decide (h.key = name)) ++ [{ key := name, value := value }]

/-- Modelled from the spec: `ParsedHeader_get` of the parsing library, whose
source is not in the repository. It returns the value of the last entry for
`name`, or nothing. -/
def ParsedHeader_get (headers : List ParsedHeader) (name : Str) : Option Str :=
  ((headers.filter (fun h => decide (h.key = name))).getLast?).map ParsedHeader.value

/-- Modelled from the spec: `ParsedRequest_unparse_headers` of the parsing
library, whose source is not in the repository. It writes the text of
`ParsedRequest::unparse_headers` into a buffer of `buflen` bytes, and fails
when the text does not fit. -/
def ParsedRequest_unparse_headers (request : ParsedRequest) (buflen : Nat) : Option Str :=
  if buflen < request.unparse_headers.2.length then none else some request.unparse_headers.2

/-- The headers of the request when `handle_request` serialises it: the
`Connection` header is set to `close`, and a `Host` header is added when there
is none. -/
def upstream_headers (request : ParsedRequest) : List ParsedHeader :=
  let headers := ParsedHeader_set request.headers "Connection".toList "close".toList
  if ParsedHeader_get headers "Host".toList = none then
    ParsedHeader_set headers "Host".toList request.host
  else headers

/-- Lines 164 to 197 of `handle_request`: the bytes passed to `send` for the
upstream server. The fields of the request are C strings; `none` stands for a
request line that overruns the buffer of `MAX_BYTES` bytes or a text that
leaves no room for the terminating NUL. When the headers do not fit, the
request line is sent alone. -/
def handle_request_send_buffer (request : ParsedRequest) : Option Str :=
  let buf := ['G', 'E', 'T', ' '] ++ request.path ++ [' '] ++ request.version ++ ['\r', '\n']
  if buf.length ≥ MAX_BYTES then none
  else
    let len := buf.length
    let request := { request with headers := upstream_headers request }
    match ParsedRequest_unparse_headers request (MAX_BYTES - len) with
    | none => some buf
    | some text => if (buf ++ text).length ≥ MAX_BYTES then none else some (buf ++ text)

/-- The origin-form text of a request: `GET path version`, the header lines
and the closing CRLF. -/
def origin_form (request : ParsedRequest) : Str :=
  ['G', 'E', 'T', ' '] ++ request.path ++ [' '] ++ request.version ++ CRLF
    ++ header_lines (upstream_headers request) ++ CRLF

/-- The call `snprintf(response, size, ...)`: the formatted text, cut to
`size - 1` bytes. -/
def snprintf (size : Nat) (text : Str) : Str := text.take (size - 1)

/-- The text that `sendErrorMessage` formats into `response[1024]`, `none` in
the `default` case. `currentTime` is the buffer that `strftime` has filled;
the conversion `%s` copies its C string. -/
def error_response (status_code : Int) (currentTime : Str) : Option Str :=
  if status_code = 400 then
    some (snprintf 1024
      ("HTTP/1.1 400 Bad Request\r\nContent-Length: 95\r\nConnection: keep-alive\r\nContent-Type: text/html\r\nDate: ".toList
        ++ cstr currentTime
        ++ "\r\nServer: VaibhavN/14785\r\n\r\n<HTML><HEAD><TITLE>400 Bad Request</TITLE></HEAD>\n<BODY><H1>400 Bad Request</H1>\n</BODY></HTML>".toList))
  else if status_code = 403 then
    some (snprintf 1024
      ("HTTP/1.1 403 Forbidden\r\nContent-Length: 112\r\nContent-Type: text/html\r\nConnection: keep-alive\r\nDate: ".toList
        ++ cstr currentTime
        ++ "\r\nServer: VaibhavN/14785\r\n\r\n<HTML><HEAD><TITLE>403 Forbidden</TITLE></HEAD>\n<BODY><H1>403 Forbidden</H1><br>Permission Denied\n</BODY></HTML>".toList))
  else if status_code = 404 then
    some (snprintf 1024
      ("HTTP/1.1 404 Not Found\r\nContent-Length: 91\r\nContent-Type: text/html\r\nConnection: keep-alive\r\nDate: ".toList
        ++ cstr currentTime
        ++ "\r\nServer: VaibhavN/14785\r\n\r\n<HTML><HEAD><TITLE>404 Not Found</TITLE></HEAD>\n<BODY><H1>404 Not Found</H1>\n</BODY></HTML>".toList))
  else if status_code = 500 then
    some (snprintf 1024
      ("HTTP/1.1 500 Internal Server Error\r\nContent-Length: 115\r\nConnection: keep-alive\r\nContent-Type: text/html\r\nDate: ".toList
        ++ cstr currentTime
        ++ "\r\nServer: VaibhavN/14785\r\n\r\n<HTML><HEAD><TITLE>500 Internal Server Error</TITLE></HEAD>\n<BODY><H1>500 Internal Server Error</H1>\n</BODY></HTML>".toList))
  else if status_code = 501 then
    some (snprintf 1024
      ("HTTP/1.1 501 Not Implemented\r\nContent-Length: 103\r\nConnection: keep-alive\r\nContent-Type: text/html\r\nDate: ".toList
        ++ cstr currentTime
        ++ "\r\nServer: VaibhavN/14785\r\n\r\n<HTML><HEAD><TITLE>501 Not Implemented</TITLE></HEAD>\n<BODY><H1>501 Not Implemented</H1>\n</BODY></HTML>".toList))
  else if status_code = 505 then
    some (snprintf 1024
      ("HTTP/1.1 505 HTTP Version Not Supported\r\nContent-Length: 125\r\nConnection: keep-alive\r\nContent-Type: text/html\r\nDate: ".toList
        ++ cstr currentTime
        ++ "\r\nServer: VaibhavN/14785\r\n\r\n<HTML><HEAD><TITLE>505 HTTP Version Not Supported</TITLE></HEAD>\n<BODY><H1>505 HTTP Version Not Supported</H1>\n</BODY></HTML>".toList))
  else none

/-- Function `sendErrorMessage`: the return value and the bytes passed to
`send`, which are the C string in `response`. Output to `stdout` is not part
of the model. -/
def sendErrorMessage (status_code : Int) (currentTime : Str) : Int × Option Str :=
  match error_response status_code currentTime with
  | none => (-1, none)
  | some response => (1, some (cstr response))

/-- The decimal value of the `Content-Length` header of a response
(specification side): the digits that follow the first `Content-Length: `. -/
def content_length (response : Str) : Option Nat :=
  match find response "Content-Length: ".toList 0 with
  | none => none
  | some i =>
    let digits := (response.drop (i + 16)).takeWhile Char.isDigit
    if digits = [] then none else some (decimalValue digits)

/-- The bytes of a response that follow its first CR LF CR LF (specification
side). -/
def response_body (response : Str) : Option Str :=
  (find response CRLFCRLF 0).map (fun i => response.drop (i + 4))

/-- A date as `strftime` writes it with the format of `sendErrorMessage`. -/
def sample_date : Str := "Mon, 01 Jan 2024 00:00:00 GMT".toList

/-- The parts of an error page are well formed: the status line holds no `C`
and no CR LF, the length is a non-empty string of digits, and the other
header lines are non-empty and hold no CR LF. -/
def page_parts_ok (l ds : Str) (ls1 ls2 : List Str) : Prop :=
  'C' ∉ l ∧ '\r' ∉ l ∧ ds ≠ [] ∧ (∀ c ∈ ds, c.isDigit = true) ∧
  (∀ x ∈ ls1, x ≠ [] ∧ hasCRLF x = false) ∧ (∀ x ∈ ls2, x ≠ [] ∧ hasCRLF x = false)

instance (l ds : Str) (ls1 ls2 : List Str) : Decidable (page_parts_ok l ds ls1 ls2) := by
  unfold page_parts_ok; infer_instance

/-- The test `strncmp(a, b, n) == 0`: the C strings agree on their first `n`
bytes. -/
def strncmp_eq (a b : Str) (n : Nat) : Bool := decide ((cstr a).take n = (cstr b).take n)

/-- Function `checkHTTPversion`. -/
def checkHTTPversion (msg : Str) : Int :=
  if strncmp_eq msg "HTTP/1.1".toList 8 then 1
  else if strncmp_eq msg "HTTP/1.0".toList 8 then 1
  else -1

/-- The call `strstr(haystack, needle)`: the offset of the match, `none` for
`NULL`. -/
def strstr (haystack needle : Str) : Option Nat := find (cstr haystack) (cstr needle) 0

/-- Modelled from the spec: `struct ParsedRequest` of `proxy_parse.h`, which is
not in the repository; these are the fields that `thread_fn` reads. A pointer
field is `none` when it is `NULL`. -/
structure RequestFields where
  method : Str
  version : Str
  host : Option Str
  path : Option Str
  deriving DecidableEq, Repr

/-- What one call of `recv` on the client socket finds: bytes (the call returns
their number), an orderly shutdown of the peer (it returns 0) or an error (it
returns -1). -/
inductive Recv where
  | data (bytes : Str)
  | closed
  | error
  deriving DecidableEq, Repr

/-- The array `buffer` after `bytes` are stored from offset `pos` on. A buffer
is the list of its bytes up to the last one written; the bytes behind it are
the zeros of `calloc`, so that the C string of a list without NUL is the whole
list. -/
def write_at (buffer : Str) (pos : Nat) (bytes : Str) : Str :=
  buffer.take pos ++ bytes ++ buffer.drop (pos + bytes.length)

/-- The call `recv(clientSocket, buffer + pos, size, 0)`: the return value and
the buffer. -/
def recv (r : Recv) (buffer : Str) (pos size : Nat) : Int × Str :=
  match r with
  | Recv.data bytes => (((bytes.take size).length : Nat), write_at buffer pos (bytes.take size))
  | Recv.closed => (0, buffer)
  | Recv.error => (-1, buffer)

/-- The loop of `thread_fn` that receives until CR LF CR LF is in the buffer
(lines 285 to 292): `bytes_received` and `buffer` at its end. The list holds
what the calls of `recv` find, in order; when it is used up the peer has
closed. -/
def receive_loop : List Recv → Int → Str → Int × Str
  | [], bytes_received, buffer =>
    if bytes_received > 0 then
      if strstr buffer CRLFCRLF = none then (0, buffer) else (bytes_received, buffer)
    else (bytes_received, buffer)
  | r :: rs, bytes_received, buffer =>
    if bytes_received > 0 then
      if strstr buffer CRLFCRLF = none then
        let len := (cstr buffer).length
        let res := recv r buffer len (MAX_BYTES - len)
        receive_loop rs res.1 res.2
      else (bytes_received, buffer)
    else (bytes_received, buffer)

/-- Lines 281 to 292 of `thread_fn`: the first `recv` into the zeroed buffer,
then the loop. -/
def receive_request : List Recv → Int × Str
  | [] => (0, [])
  | r :: rs => receive_loop rs (recv r [] 0 MAX_BYTES).1 (recv r [] 0 MAX_BYTES).2

/-- What a handler thread does to the semaphore, to the client socket and to
the upstream side. `send_client count bytes` is a call
`send(clientSocket, ..., count, 0)`; `handle_request` is the whole call of
`handle_request`. Output to `stdout` and `stderr` is not part of the model. -/
inductive Event where
  | sem_wait
  | sem_post
  | send_client (count : Int) (bytes : Str)
  | handle_request (request : RequestFields)
  | shutdown_client
  | close_client
  deriving DecidableEq, Repr

/-- What a run of `thread_fn` meets outside its own code: whether `calloc` and
`malloc` succeed, what the client sends, the clock, the parser of the library
(`ParsedRequest_parse`, not in the repository, `none` for a negative return
value), the return value of `handle_request`, which the upstream side decides,
and the date that `strftime` writes. -/
structure Env where
  buffer_available : Bool
  recvs : List Recv
  tempReq_available : Bool
  now : Int
  ParsedRequest_parse : Str → Option RequestFields
  handle_request_returns : Int
  currentTime : Str

/-- The loop of `thread_fn` that serves a cached element (lines 311 to 317), in
chunks of at most `MAX_BYTES` bytes. Every chunk has at least one byte, so
`fuel` above `data_size - pos` is never used up. -/
def serve_cached (data : Str) (data_size : Int) : Nat → Int → List Event
  | 0, _ => []
  | fuel + 1, pos =>
    if pos < data_size then
      let chunk : Int := if data_size - pos < MAX_BYTES then data_size - pos else MAX_BYTES
      Event.send_client chunk (substr data pos.toNat chunk.toNat)
        :: serve_cached data data_size fuel (pos + chunk)
    else []

/-- The call `sendErrorMessage(clientSocket, status_code)` as events. -/
def send_error (env : Env) (status_code : Int) : List Event :=
  match (sendErrorMessage status_code env.currentTime).2 with
  | none => []
  | some response => [Event.send_client response.length response]

/-- Lines 325 to 336 of `thread_fn`: what is done with a parsed request. -/
def dispatch (env : Env) (request : RequestFields) : List Event :=
  if strcmp_eq request.method "GET".toList then
    if request.host.isSome ∧ request.path.isSome ∧ checkHTTPversion request.version = 1 then
      Event.handle_request request ::
        (if env.handle_request_returns = -1 then send_error env 500 else [])
    else send_error env 500
  else []

/-- Function `thread_fn` on the cache `c`: the events of the run, in order, and
the cache after it. -/
def thread_fn (env : Env) (c : Cache) : List Event × Cache :=
  if !env.buffer_available then ([Event.sem_wait, Event.close_client, Event.sem_post], c)
  else
    let received := receive_request env.recvs
    let bytes_received := received.1
    let buffer := received.2
    if !malloc (strlen buffer + 10) env.tempReq_available then
      ([Event.sem_wait, Event.close_client, Event.sem_post], c)
    else
      let tempReq := cstr buffer
      let found := cache_find c tempReq env.now
      let served : List Event :=
        match found.1 with
        | some i =>
          match found.2.cache_head.get? i with
          | some cache_entry =>
            serve_cached cache_entry.data cache_entry.len (cache_entry.len.toNat + 1) 0
          | none => []
        | none =>
          if bytes_received > 0 then
            match env.ParsedRequest_parse (cstr buffer) with
            | none => []
            | some request => dispatch env request
          else []
      (Event.sem_wait :: (served ++ [Event.shutdown_client, Event.close_client, Event.sem_post]),
        found.2)

/-- The semaphore as a counter: `sem_wait` takes one unit and cannot go on at
zero (`none`), `sem_post` gives one unit back. -/
def sem_step (counter : Nat) : Event → Option Nat
  | Event.sem_wait => if counter = 0 then none else some (counter - 1)
  | Event.sem_post => some (counter + 1)
  | _ => some counter

/-- The counter after the events of a run. -/
def sem_run : List Event → Nat → Option Nat
  | [], counter => some counter
  | e :: es, counter =>
    match sem_step counter e with
    | none => none
    | some counter => sem_run es counter

/-- The parser of `Proxy_Parse.cpp` in the place of `ParsedRequest_parse`, for
runs on concrete requests. -/
def parse_fields (input : Str) : Option RequestFields :=
  (ParsedRequest.fresh.parse input).map
    (fun P => { method := P.method, version := P.version, host := some P.host,
                path := some P.path })

/-- A run in which the client sends `request` in one piece, the allocations
succeed and the upstream side answers. -/
def client_sends (request : Str) : Env :=
  { buffer_available := true, recvs := [Recv.data request], tempReq_available := true,
    now := 100, ParsedRequest_parse := parse_fields, handle_request_returns := 0,
    currentTime := sample_date }

/-- A request in origin form, which the parser rejects. -/
def origin_form_request : Str := "GET /index.html HTTP/1.1\r\n\r\n".toList

/-- A request whose version is `HTTP/1.1x`. -/
def version_suffix_request : Str := "GET http://h/ HTTP/1.1x\r\n\r\n".toList

/-- Events that leave the semaphore alone. -/
def no_sem (es : List Event) : Prop := ∀ e ∈ es, e ≠ Event.sem_wait ∧ e ≠ Event.sem_post

/-- A request whose version is `HTTP/2.0`. -/
def version_2_request : Str := "GET http://h/ HTTP/2.0\r\n\r\n".toList

/-- The version of a request begins with `HTTP/1.1` or with `HTTP/1.0`. -/
def supported_version (version : Str) : Prop :=
  "HTTP/1.1".toList <+: cstr version ∨ "HTTP/1.0".toList <+: cstr version

instance (version : Str) : Decidable (supported_version version) := by
  unfold supported_version; infer_instance

/-- A body of 200 MiB. -/
def body_200MiB : Str := List.replicate 209715200 'x'

/-- The accept loop of `main` (lines 404 to 422) on the values that `accept`
returns, in order: the values of `thread_index` at which
`clientSockets[thread_index]` and `tid[thread_index]` are written. A negative
value of `accept` ends the program. -/
def accept_loop : List Int → Int → List Int
  | [], _ => []
  | client_socketId :: rest, thread_index =>
    if client_socketId < 0 then []
    else thread_index :: accept_loop rest (thread_index + 1)

/-- The variables `temp_buffer`, `temp_buffer_size` and `temp_buffer_index` of
`handle_request`; the last two are of type `int`. `temp_buffer` holds the bytes
written so far, `none` when the pointer is `NULL`. -/
structure TempBuffer where
  temp_buffer : Option Str
  temp_buffer_size : Int
  temp_buffer_index : Int
  deriving DecidableEq, Repr

/-- The write `temp_buffer[temp_buffer_index] = byte`, without the increment:
`none` when the pointer is `NULL` or the index is outside the
`temp_buffer_size` bytes of the buffer. -/
def TempBuffer.store (t : TempBuffer) (byte : Char) : Option TempBuffer :=
  match t.temp_buffer with
  | none => none
  | some bytes =>
    if 0 ≤ t.temp_buffer_index ∧ t.temp_buffer_index < t.temp_buffer_size then
      some { t with temp_buffer := some (write_at bytes t.temp_buffer_index.toNat [byte]) }
    else none

/-- The loop `for (i = 0; i < bytes_sent; i++) temp_buffer[temp_buffer_index++] = buf[i]`
on the bytes received. -/
def copy_chunk : Str → TempBuffer → Option TempBuffer
  | [], t => some t
  | byte :: rest, t =>
    match t.store byte with
    | none => none
    | some t => copy_chunk rest { t with temp_buffer_index := to_int (t.temp_buffer_index + 1) }

/-- What one iteration of the forwarding loop of `handle_request` meets: the
bytes that the upstream server has sent, whether `send` to the client succeeds
and whether the allocator grants the request of `realloc`. -/
structure Chunk where
  bytes : Str
  send_ok : Bool
  realloc_ok : Bool
  deriving DecidableEq, Repr

/-- The call `realloc(p, n)` for an `int` expression `n`: a negative `n` is
converted to a size that no allocation can satisfy. -/
def realloc (n : Int) (available : Bool) : Bool := available && decide (0 ≤ n)

/-- The forwarding loop of `handle_request` (lines 213 to 233). Each chunk is
what one `recv(remoteSocketID, buf, MAX_BYTES - 1, 0)` finds; an empty chunk
and the end of the list are a return value that is not positive. The result is
the list of the states at the start of the iterations and the state at the
exit, `none` after a write outside the buffer. -/
def forward_loop : List Chunk → TempBuffer → List TempBuffer × Option TempBuffer
  | [], t => ([], some t)
  | chunk :: rest, t =>
    let buf := chunk.bytes.take (MAX_BYTES - 1)
    if buf = [] then ([], some t)
    else if !chunk.send_ok then ([t], some t)
    else
      match copy_chunk buf t with
      | none => ([t], none)
      | some t1 =>
        if to_int (t1.temp_buffer_index + MAX_BYTES) > t1.temp_buffer_size then
          let t2 := { t1 with temp_buffer_size := to_int (t1.temp_buffer_size + MAX_BYTES) }
          if realloc t2.temp_buffer_size chunk.realloc_ok then
            (t :: (forward_loop rest t2).1, (forward_loop rest t2).2)
          else ([t], some { t2 with temp_buffer := none })
        else (t :: (forward_loop rest t1).1, (forward_loop rest t1).2)

/-- Lines 204 to 234 of `handle_request` after a successful `malloc(MAX_BYTES)`:
the forwarding loop and the write `temp_buffer[temp_buffer_index] = 0`. -/
def accumulate_response (chunks : List Chunk) : List TempBuffer × Option TempBuffer :=
  let run := forward_loop chunks
    { temp_buffer := some [], temp_buffer_size := MAX_BYTES, temp_buffer_index := 0 }
  (run.1, run.2.bind (fun t => t.store '\x00'))

/-- Two chunks of an upstream response. -/
def sample_chunks : List Chunk :=
  [⟨"HTTP/1.0 200 OK\r\n\r\n".toList, true, true⟩, ⟨"hello".toList, true, true⟩]

/-- An upstream response of 2147479425 bytes, received in 524415 chunks of 4095
bytes; the allocator grants every request that it is given. -/
def response_2GiB : List Chunk :=
  List.replicate 524415 ⟨List.replicate 4095 'x', true, true⟩

/-- The buffer of `size` bytes in which the bytes `acc` have been written. -/
def holding (acc : Str) (size : Int) : TempBuffer :=
  { temp_buffer := some acc, temp_buffer_size := size, temp_buffer_index := acc.length }

/-- The constant `BUFFER_SIZE` of `Proxy_server_with_cache.c`. -/
def BUFFER_SIZE : Nat := 1024

/-- The difference `a - b` of two `size_t` values, of 64 bits. -/
def size_sub (a b : Nat) : Nat := (a + 2 ^ 64 - b % 2 ^ 64) % 2 ^ 64

/-- The call `recv(server_socket, ..., n, 0)` on a connection on which
`remaining` is still to come: it delivers between 1 and `n` of these bytes,
and 0 when `n` is 0 or the peer has closed after its last byte. `offered` is
the number of bytes that the network has ready. -/
def recv_count (remaining : Str) (n offered : Nat) : Nat :=
  if n = 0 ∨ remaining = [] then 0 else max 1 (min offered (min n remaining.length))

/-- The loop of `fetch_from_server` (lines 128 to 131): `response` holds the
bytes stored so far. Each iteration that goes on stores at least one byte and
`recv` is given room for `BUFFER_SIZE - total_size` bytes, so `fuel` above
`BUFFER_SIZE` is never used up. The result is the buffer returned and
`total_size`. -/
def fetch_loop : Nat → List Nat → Str → Str → Nat → Option (Str × Nat)
  | 0, _, _, _, _ => none
  | fuel + 1, offers, remaining, response, total_size =>
    let n := size_sub BUFFER_SIZE total_size
    let received := recv_count remaining n (offers.headD n)
    if received > 0 then
      fetch_loop fuel offers.tail (remaining.drop received)
        (write_at response total_size (remaining.take received))
        ((total_size + received) % 2 ^ 64)
    else some (response, total_size)

/-- Lines 126 to 135 of `fetch_from_server`, on a connection on which the
upstream server sends `upstream` and closes. -/
def fetch_from_server (offers : List Nat) (upstream : Str) : Option (Str × Nat) :=
  fetch_loop (BUFFER_SIZE + 1) offers upstream [] 0

/-- An upstream response of 1025 bytes. -/
def response_1025 : Str := List.replicate 1025 'a'

/-- The constant `CACHE_SIZE` of `Proxy_server_with_cache.c`. -/
def CACHE_SIZE : Int := 5

/-- Struct `CacheEntry` of `Proxy_server_with_cache.c`. A pointer is the
address of an entry, `none` for `NULL`; `url` is the C string in the array
`url[256]`. -/
structure CacheEntry where
  url : Str
  data : Str
  size : Nat
  prev : Option Nat
  next : Option Nat
  deriving DecidableEq, Repr

/-- The entries that are allocated, by address, and the globals `cache_head`,
`cache_tail` and `cache_count` of `Proxy_server_with_cache.c`. The mutex
`cache_lock` is not part of the state. -/
structure CountCache where
  heap : Nat → Option CacheEntry
  cache_head : Option Nat
  cache_tail : Option Nat
  cache_count : Int

/-- The initial values of the globals, with no entry allocated. -/
def CountCache.init : CountCache :=
  { heap := fun _ => none, cache_head := none, cache_tail := none, cache_count := 0 }

/-- The heap after a store at the address `p`. -/
def heap_set (heap : Nat → Option CacheEntry) (p : Nat) (v : Option CacheEntry) :
    Nat → Option CacheEntry :=
  fun x => if x = p then v else heap x

/-- The assignment `p->next = v`; `none` when `p` is not the address of an
entry. -/
def CountCache.set_next (s : CountCache) (p : Nat) (v : Option Nat) : Option CountCache :=
  match s.heap p with
  | none => none
  | some e => some { s with heap := heap_set s.heap p (some { e with next := v }) }

/-- The assignment `p->prev = v`; `none` when `p` is not the address of an
entry. -/
def CountCache.set_prev (s : CountCache) (p : Nat) (v : Option Nat) : Option CountCache :=
  match s.heap p with
  | none => none
  | some e => some { s with heap := heap_set s.heap p (some { e with prev := v }) }

/-- The statement `if (p->prev) p->prev->next = p->next;`, which in
`remove_cache_entry` goes on with `else cache_head = p->next;` and in
`find_in_cache` has no `else`. -/
def unlink_prev (s : CountCache) (p : Nat) (or_head : Bool) : Option CountCache :=
  match s.heap p with
  | none => none
  | some e =>
    match e.prev with
    | some q => s.set_next q e.next
    | none => if or_head then some { s with cache_head := e.next } else some s

/-- The statement `if (p->next) p->next->prev = p->prev; else cache_tail = p->prev;`
of `remove_cache_entry` and `find_in_cache`. -/
def unlink_next (s : CountCache) (p : Nat) : Option CountCache :=
  match s.heap p with
  | none => none
  | some e =>
    match e.next with
    | some q => s.set_prev q e.prev
    | none => some { s with cache_tail := e.prev }

/-- Function `remove_cache_entry`; `none` when a pointer that is followed is
not the address of an entry. -/
def remove_cache_entry (s : CountCache) (entry : Option Nat) : Option CountCache :=
  match entry with
  | none => some s
  | some p =>
    (unlink_prev s p true).bind (fun s1 =>
      (unlink_next s1 p).bind (fun s2 =>
        some { s2 with heap := heap_set s2.heap p none, cache_count := s2.cache_count - 1 }))

/-- The statement `if (cache_head) cache_head->prev = p;`, which in
`add_to_cache` goes on with `else cache_tail = p;` and in `find_in_cache` has
no `else`. -/
def link_head (s : CountCache) (p : Nat) (or_tail : Bool) : Option CountCache :=
  match s.cache_head with
  | some h => s.set_prev h (some p)
  | none => if or_tail then some { s with cache_tail := some p } else some s

/-- Lines 61 to 73 of `add_to_cache`: the new entry is filled and put at the
head of the list. `new_entry` is the pointer that `malloc(sizeof(CacheEntry))`
returns and `data_available` tells whether `malloc(size)` succeeds; `none` when
a pointer that is followed is `NULL` or not the address of an entry. `strncpy`
leaves the C string of `url` in the array when it is shorter than 256 bytes,
and its first 256 bytes otherwise. -/
def add_new_entry (s : CountCache) (url data : Str) (size : Nat) (new_entry : Option Nat)
    (data_available : Bool) : Option CountCache :=
  match new_entry with
  | none => none
  | some p =>
    if !data_available then none
    else
      let entry : CacheEntry :=
        { url := (cstr url).take 256, data := data.take size, size := size,
          prev := none, next := s.cache_head }
      let s1 : CountCache := { s with heap := heap_set s.heap p (some entry) }
      (link_head s1 p true).bind (fun s2 =>
        some { s2 with cache_head := some p, cache_count := s2.cache_count + 1 })

/-- Function `add_to_cache`: a full cache loses its tail, then the new entry
is added. -/
def add_to_cache (s : CountCache) (url data : Str) (size : Nat) (new_entry : Option Nat)
    (data_available : Bool) : Option CountCache :=
  (if s.cache_count = CACHE_SIZE then remove_cache_entry s s.cache_tail else some s).bind
    (fun s0 => add_new_entry s0 url data size new_entry data_available)

/-- Lines 82 to 91 of `find_in_cache`: the entry `current` is moved to the
head of the list. -/
def move_to_head (s : CountCache) (current : Nat) : Option CountCache :=
  if some current ≠ s.cache_head then
    (unlink_prev s current false).bind (fun s1 =>
      (unlink_next s1 current).bind (fun s2 =>
        (s2.set_next current s2.cache_head).bind (fun s3 =>
          (s3.set_prev current none).bind (fun s4 =>
            (link_head s4 current false).bind (fun s5 =>
              some { s5 with cache_head := some current })))))
  else some s

/-- The loop of `find_in_cache` from the entry `current` on: the pointer
returned and the state. `fuel` bounds the number of entries visited; `none`
when it is used up or when a pointer that is followed is not the address of
an entry. -/
def find_in_cache_loop (url : Str) : Nat → CountCache → Option Nat → Option (Option Nat × CountCache)
  | 0, _, _ => none
  | _ + 1, s, none => some (none, s)
  | fuel + 1, s, some current =>
    match s.heap current with
    | none => none
    | some e =>
      if strcmp_eq e.url url then (move_to_head s current).map (fun s2 => (some current, s2))
      else find_in_cache_loop url fuel s e.next

/-- Function `find_in_cache`. -/
def find_in_cache (s : CountCache) (url : Str) (fuel : Nat) : Option (Option Nat × CountCache) :=
  find_in_cache_loop url fuel s s.cache_head

/-- The list that starts at `p` and follows the pointer `f` (`next` or `prev`)
through the entries `l`, in this order, up to the pointer `q`. -/
def seg (f : CacheEntry → Option Nat) (heap : Nat → Option CacheEntry) :
    Option Nat → List Nat → Option Nat → Prop
  | p, [], q => p = q
  | p, a :: t, q => p = some a ∧ ∃ e, heap a = some e ∧ seg f heap (f e) t q

/-- The entries of the list are `l`, from head to tail: they are reached in
this order from `cache_head` by `next`, in the reverse order from `cache_tail`
by `prev`, and `cache_count` is their number. -/
def entries (s : CountCache) (l : List Nat) : Prop :=
  seg CacheEntry.next s.heap s.cache_head l none ∧
  seg CacheEntry.prev s.heap s.cache_tail l.reverse none ∧
  s.cache_count = l.length

/-- The structural invariant of the count-bounded cache. -/
def cache_invariant (s : CountCache) : Prop :=
  ∃ l, entries s l ∧ s.cache_count ≤ CACHE_SIZE

/-- The test `strcmp(p->url, url) == 0` on the entry at the address `p`. -/
def has_url (s : CountCache) (url : Str) (p : Nat) : Bool :=
  match s.heap p with
  | some e => strcmp_eq e.url url
  | none => false

/-- A cache with the entries `/c`, `/b` and `/a` at the addresses 3, 2 and 1,
from head to tail. -/
def sample_cache : CountCache :=
  { heap := fun x =>
      if x = 3 then some ⟨"/c".toList, "C".toList, 1, none, some 2⟩
      else if x = 2 then some ⟨"/b".toList, "B".toList, 1, some 3, some 1⟩
      else if x = 1 then some ⟨"/a".toList, "A".toList, 1, some 2, none⟩
      else none,
    cache_head := some 3, cache_tail := some 1, cache_count := 3 }

/-- The url, the data and the size of the entry at an address. -/
def payload (s : CountCache) (p : Nat) : Option (Str × Str × Nat) :=
  (s.heap p).map (fun e => (e.url, e.data, e.size))

/-- The cache after `add_to_cache` for `/a`, `/b` and `/c` at the addresses 1,
2 and 3. -/
def three_entries : Option CountCache :=
  ((add_to_cache CountCache.init "/a".toList "A".toList 1 (some 1) true).bind
    (fun s => add_to_cache s "/b".toList "B".toList 1 (some 2) true)).bind
    (fun s => add_to_cache s "/c".toList "C".toList 1 (some 3) true)

/-- The entry `a` is allocated and is not in the list `m` of the cache. -/
def detached (s : CountCache) (a : Nat) (ea : CacheEntry) (m : List Nat) : Prop :=
  s.heap a = some ea ∧ a ∉ m ∧
  seg CacheEntry.next s.heap s.cache_head m none ∧
  seg CacheEntry.prev s.heap s.cache_tail m.reverse none

end ProxyServer

namespace ProxyParse

/-! ## String search -/

theorem findAux_ge (pat : Str) : ∀ (s : Str) (i k : Nat), findAux pat s i = some k → i ≤ k := by
  intro s
  induction s with
  | nil =>
    intro i k h
    simp only [findAux] at h
    split at h
    · simp only [Option.some.injEq] at h; omega
    · cases h
  | cons c cs ih =>
    intro i k h
    simp only [findAux] at h
    split at h
    · simp only [Option.some.injEq] at h; omega
    · have := ih _ _ h; omega

theorem findAux_hit (pat : Str) (c : Char) (cs : Str) (i : Nat)
    (h : pat <+: c :: cs) : findAux pat (c :: cs) i = some i := by
  simp only [findAux]
  rw [if_pos (List.isPrefixOf_iff_prefix.mpr h)]

theorem findAux_skip (pat : Str) : ∀ (a b : Str) (i : Nat),
    (∀ j, j < a.length → ¬ pat <+: (a ++ b).drop j) →
    findAux pat (a ++ b) i = findAux pat b (i + a.length) := by
  intro a
  induction a with
  | nil => intro b i _; simp
  | cons c cs ih =>
    intro b i h
    have h0 : ¬ pat <+: (c :: cs ++ b) := by simpa using h 0 (by simp)
    have hrest : ∀ j, j < cs.length → ¬ pat <+: (cs ++ b).drop j := by
      intro j hj
      have := h (j + 1) (by simp; omega)
      simpa using this
    rw [List.cons_append, findAux,
      if_neg (by rw [List.isPrefixOf_iff_prefix]; simpa using h0), ih b (i + 1) hrest]
    simp only [List.length_cons]
    congr 1
    omega

theorem hasCRLF_cons_cons (c d : Char) (cs : Str) :
    hasCRLF (c :: d :: cs) = ((c = '\r' && d = '\n') || hasCRLF (d :: cs)) := rfl

theorem hasCRLF_tail {c : Char} {l : Str} (h : hasCRLF (c :: l) = false) : hasCRLF l = false := by
  cases l with
  | nil => rfl
  | cons d cs =>
    rw [hasCRLF_cons_cons] at h
    simp only [Bool.or_eq_false_iff] at h
    exact h.2

theorem hasCRLF_of_not_mem : ∀ (l : Str), '\r' ∉ l → hasCRLF l = false
  | [], _ => rfl
  | [_], _ => rfl
  | c :: d :: cs, h => by
    rw [hasCRLF_cons_cons]
    have hc : c ≠ '\r' := fun e => h (by simp [e])
    have ih := hasCRLF_of_not_mem (d :: cs) (fun e => h (List.mem_cons_of_mem _ e))
    simp [hc, ih]

theorem hasCRLF_append_left : ∀ (a b : Str), hasCRLF (a ++ b) = false → hasCRLF a = false
  | [], _, _ => rfl
  | [_], _, _ => rfl
  | c :: d :: cs, b, h => by
    rw [List.cons_append, List.cons_append, hasCRLF_cons_cons] at h
    simp only [Bool.or_eq_false_iff] at h
    rw [hasCRLF_cons_cons]
    simp only [Bool.or_eq_false_iff]
    exact ⟨h.1, hasCRLF_append_left (d :: cs) b h.2⟩

theorem hasCRLF_append_right : ∀ (a b : Str), hasCRLF (a ++ b) = false → hasCRLF b = false
  | [], _, h => h
  | _ :: cs, b, h => hasCRLF_append_right cs b (hasCRLF_tail h)

theorem hasCRLF_join {c : Char} (hr : c ≠ '\r') (hn : c ≠ '\n') :
    ∀ (a b : Str), hasCRLF a = false → hasCRLF b = false → hasCRLF (a ++ c :: b) = false
  | [], b, _, hb => by
    cases b with
    | nil => rfl
    | cons d ds => rw [List.nil_append, hasCRLF_cons_cons]; simp [hr, hb]
  | [x], b, _, hb => by
    have := hasCRLF_join hr hn [] b rfl hb
    rw [List.nil_append] at this
    rw [List.cons_append, List.nil_append, hasCRLF_cons_cons]
    simp [hn, this]
  | x :: y :: cs, b, ha, hb => by
    rw [hasCRLF_cons_cons] at ha
    simp only [Bool.or_eq_false_iff] at ha
    rw [List.cons_append, List.cons_append, hasCRLF_cons_cons]
    simp only [Bool.or_eq_false_iff]
    exact ⟨ha.1, hasCRLF_join hr hn (y :: cs) b ha.2 hb⟩

theorem crlf_prefix_iff (l : Str) : CRLF <+: l ↔ ∃ t, l = '\r' :: '\n' :: t := by
  constructor
  · rintro ⟨t, ht⟩
    exact ⟨t, by simpa [CRLF] using ht.symm⟩
  · rintro ⟨t, rfl⟩
    exact ⟨t, by simp [CRLF]⟩

/-- Inside a line that holds no CR LF and is followed by its terminator, no
CR LF starts. -/
theorem no_crlf_in_line : ∀ (l rest : Str) (j : Nat), hasCRLF l = false → j < l.length →
    ¬ CRLF <+: (l ++ '\r' :: rest).drop j
  | [], _, _, _, hj => by simp at hj
  | c :: cs, rest, 0, h, _ => by
    rw [List.drop_zero, crlf_prefix_iff]
    rintro ⟨t, ht⟩
    cases cs with
    | nil => simp at ht
    | cons d ds =>
      rw [hasCRLF_cons_cons] at h
      simp only [Bool.or_eq_false_iff] at h
      simp only [List.cons_append, List.cons.injEq] at ht
      simp [ht.1, ht.2.1] at h
  | c :: cs, rest, j + 1, h, hj => by
    rw [List.cons_append, List.drop_succ_cons]
    exact no_crlf_in_line cs rest j (hasCRLF_tail h) (by simpa using hj)

theorem find_zero (s pat : Str) : find s pat 0 = findAux pat s 0 := by
  simp [find]

theorem find_drop (s pat : Str) (pos : Nat) (h : pos ≤ s.length) :
    find s pat pos = findAux pat (s.drop pos) pos := by
  simp only [find]
  rw [if_neg (by omega)]

/-- The first CR LF of a line followed by its terminator is the terminator. -/
theorem findAux_crlf_line (l rest : Str) (i : Nat) (h : hasCRLF l = false) :
    findAux CRLF (l ++ '\r' :: '\n' :: rest) i = some (i + l.length) := by
  rw [findAux_skip CRLF l _ i (fun j hj => no_crlf_in_line l _ j h hj)]
  exact findAux_hit _ _ _ _ ((crlf_prefix_iff _).mpr ⟨rest, rfl⟩)

theorem lines_text_nil : lines_text [] = [] := rfl

theorem lines_text_cons (l : Str) (ls : List Str) :
    lines_text (l :: ls) = l ++ '\r' :: '\n' :: lines_text ls := by
  simp [lines_text, CRLF]

theorem length_lines_text_ge : ∀ (ls : List Str), ls.length ≤ (lines_text ls).length
  | [] => by simp [lines_text]
  | l :: ls => by
    have := length_lines_text_ge ls
    rw [lines_text_cons]
    simp only [List.length_append, List.length_cons]
    omega

theorem findAux_cons_skip (pat : Str) (c : Char) (s : Str) (i : Nat) (h : ¬ pat <+: c :: s) :
    findAux pat (c :: s) i = findAux pat s (i + 1) := by
  rw [findAux, if_neg (by rw [List.isPrefixOf_iff_prefix]; exact h)]

theorem crlf_of_crlfcrlf {l : Str} (h : CRLFCRLF <+: l) : CRLF <+: l :=
  List.IsPrefix.trans ⟨['\r', '\n'], rfl⟩ h

/-- A non-empty line without CR LF, followed by its terminator, does not begin
with CR LF. -/
theorem line_not_crlf (l rest : Str) (hne : l ≠ []) (h : hasCRLF l = false) :
    ¬ CRLF <+: l ++ '\r' :: rest := by
  have := no_crlf_in_line l rest 0 h (List.length_pos.mpr hne)
  simpa using this

/-- The first blank line of a text made of a first line and header lines is the
one that closes it. -/
theorem findAux_crlfcrlf_lines : ∀ (ls : List Str) (l tail : Str) (i : Nat),
    hasCRLF l = false → (∀ x ∈ ls, x ≠ [] ∧ hasCRLF x = false) →
    findAux CRLFCRLF (l ++ '\r' :: '\n' :: (lines_text ls ++ '\r' :: '\n' :: tail)) i
      = some (i + l.length + (lines_text ls).length)
  | [], l, tail, i, hl, _ => by
    rw [findAux_skip CRLFCRLF l _ i
      (fun j hj hp => no_crlf_in_line l _ j hl hj (crlf_of_crlfcrlf hp))]
    rw [lines_text_nil, List.nil_append]
    rw [findAux_hit _ _ _ _ ⟨tail, rfl⟩]
    simp
  | x :: ls, l, tail, i, hl, hls => by
    have hx := hls x (List.mem_cons_self _ _)
    rw [findAux_skip CRLFCRLF l _ i
      (fun j hj hp => no_crlf_in_line l _ j hl hj (crlf_of_crlfcrlf hp))]
    rw [lines_text_cons, List.append_assoc, List.cons_append, List.cons_append]
    rw [findAux_cons_skip, findAux_cons_skip]
    · rw [findAux_crlfcrlf_lines ls x tail _ hx.2
        (fun y hy => hls y (List.mem_cons_of_mem _ hy))]
      simp only [List.length_append, List.length_cons]
      congr 1
      omega
    · intro hp
      have := crlf_of_crlfcrlf hp
      rw [crlf_prefix_iff] at this
      obtain ⟨t, ht⟩ := this
      simp at ht
    · intro hp
      obtain ⟨t, ht⟩ := hp
      simp only [CRLFCRLF, List.cons_append, List.cons.injEq, true_and] at ht
      exact line_not_crlf x _ hx.1 hx.2 ⟨t, by simpa [CRLF] using ht⟩

theorem drop_add_of_drop_eq {α : Type} (l a b : List α) (n : Nat) (h : l.drop n = a ++ b) :
    l.drop (n + a.length) = b := by
  rw [← List.drop_drop, h, List.drop_left]

/-- The header loop on a block of well-formed lines: every line is parsed and
stored with `set_header`, in order. -/
theorem parse_headers_lines (input : Str) (header_end : Nat) (tail : Str) :
    ∀ (lh : List (Str × ParsedHeader)) (fuel start : Nat) (hs : List ParsedHeader),
    lh.length < fuel →
    start ≤ input.length →
    input.drop start = lines_text (lh.map Prod.fst) ++ '\r' :: '\n' :: tail →
    start + (lines_text (lh.map Prod.fst)).length = header_end + 2 →
    (∀ p ∈ lh, p.1 ≠ [] ∧ hasCRLF p.1 = false ∧ parse_header_line p.1 = some p.2) →
    parse_headers input header_end fuel start hs = some ((lh.map Prod.snd).foldl set_header hs)
  | [], fuel, start, hs, hf, _, _, hend, _ => by
    obtain ⟨f, rfl⟩ : ∃ f, fuel = f + 1 := ⟨fuel - 1, by simp at hf; omega⟩
    simp only [List.map_nil, lines_text_nil, List.length_nil] at hend
    rw [parse_headers, if_neg (by omega)]
    rfl
  | (l, h) :: rest, fuel, start, hs, hf, hstart, hdrop, hend, hall => by
    obtain ⟨f, rfl⟩ : ∃ f, fuel = f + 1 := ⟨fuel - 1, by simp at hf; omega⟩
    obtain ⟨hne, hcr, hpl⟩ := hall (l, h) (List.mem_cons_self _ _)
    simp only at hne hcr hpl
    simp only [List.map_cons, lines_text_cons, List.length_append, List.length_cons] at hend
    simp only [List.map_cons, lines_text_cons, List.append_assoc, List.cons_append] at hdrop
    have hlen : 0 < l.length := List.length_pos.mpr hne
    have hfind : find input CRLF start = some (start + l.length) := by
      rw [find_drop _ _ _ hstart, hdrop]
      exact findAux_crlf_line l _ start hcr
    have hline : substr input start (start + l.length - start) = l := by
      simp only [substr, hdrop, Nat.add_sub_cancel_left]
      exact List.take_left _ _
    have hdrop2 : input.drop (start + l.length + 2)
        = lines_text (rest.map Prod.fst) ++ '\r' :: '\n' :: tail := by
      have h1 := drop_add_of_drop_eq input l _ start hdrop
      have h2 := drop_add_of_drop_eq input ['\r', '\n'] _ (start + l.length) (by simpa using h1)
      simpa using h2
    have hlen2 : start + l.length + 2 ≤ input.length := by
      have := congrArg List.length hdrop
      simp only [List.length_drop, List.length_append, List.length_cons] at this
      omega
    rw [parse_headers, if_pos (by omega), hfind]
    simp only
    rw [if_neg (by omega), hline, if_neg hne, hpl]
    simp only
    rw [parse_headers_lines input header_end tail rest f (start + l.length + 2) (set_header hs h)
      (by simp at hf; omega) hlen2 hdrop2 (by omega)
      (fun p hp => hall p (List.mem_cons_of_mem _ hp))]
    rfl

theorem takeWhile_noSpace : ∀ (tok rest : Str), noSpace tok →
    (tok ++ ' ' :: rest).takeWhile (fun x => !isspace x) = tok
  | [], rest, _ => by simp [List.takeWhile, isspace]
  | c :: cs, rest, h => by
    have hc : isspace c = false := h c (List.mem_cons_self _ _)
    rw [List.cons_append, List.takeWhile_cons_of_pos (by simp [hc]),
      takeWhile_noSpace cs rest (fun x hx => h x (List.mem_cons_of_mem _ hx))]

theorem dropWhile_noSpace : ∀ (tok rest : Str), noSpace tok →
    (tok ++ ' ' :: rest).dropWhile (fun x => !isspace x) = ' ' :: rest
  | [], rest, _ => by simp [List.dropWhile, isspace]
  | c :: cs, rest, h => by
    have hc : isspace c = false := h c (List.mem_cons_self _ _)
    rw [List.cons_append, List.dropWhile_cons_of_pos (by simp [hc]),
      dropWhile_noSpace cs rest (fun x hx => h x (List.mem_cons_of_mem _ hx))]

theorem takeWhile_noSpace_end : ∀ (tok : Str), noSpace tok →
    tok.takeWhile (fun x => !isspace x) = tok
  | [], _ => rfl
  | c :: cs, h => by
    have hc : isspace c = false := h c (List.mem_cons_self _ _)
    rw [List.takeWhile_cons_of_pos (by simp [hc]),
      takeWhile_noSpace_end cs (fun x hx => h x (List.mem_cons_of_mem _ hx))]

theorem read_token_sep (tok rest : Str) (h : noSpace tok) (hne : tok ≠ []) :
    read_token (tok ++ ' ' :: rest) = some (tok, ' ' :: rest) := by
  obtain ⟨c, cs, rfl⟩ := List.exists_cons_of_ne_nil hne
  have hc : isspace c = false := h c (List.mem_cons_self _ _)
  have h1 : (c :: cs ++ ' ' :: rest).dropWhile isspace = c :: cs ++ ' ' :: rest := by
    rw [List.cons_append, List.dropWhile_cons_of_neg (by simp [hc])]
  unfold read_token
  rw [h1]
  simp only [List.cons_append]
  rw [← List.cons_append, takeWhile_noSpace _ _ h, dropWhile_noSpace _ _ h]

theorem read_token_space (s : Str) : read_token (' ' :: s) = read_token s := by
  unfold read_token
  rw [List.dropWhile_cons_of_pos (by simp [isspace])]

theorem read_token_end (tok : Str) (h : noSpace tok) (hne : tok ≠ []) :
    ∃ rest, read_token tok = some (tok, rest) := by
  obtain ⟨c, cs, rfl⟩ := List.exists_cons_of_ne_nil hne
  have hc : isspace c = false := h c (List.mem_cons_self _ _)
  have h1 : (c :: cs).dropWhile isspace = c :: cs := by
    rw [List.dropWhile_cons_of_neg (by simp [hc])]
  unfold read_token
  rw [h1]
  simp only
  rw [takeWhile_noSpace_end _ h]
  exact ⟨_, rfl⟩

theorem noSpace_not_mem_cr {s : Str} (h : noSpace s) : '\r' ∉ s :=
  fun hm => by simpa [isspace] using h _ hm

theorem hasCRLF_request_line (fa ver : Str) (hfa : noSpace fa) (hver : noSpace ver) :
    hasCRLF (request_line fa ver) = false := by
  apply hasCRLF_of_not_mem
  have h1 := noSpace_not_mem_cr hfa
  have h2 := noSpace_not_mem_cr hver
  simp [request_line, h1, h2]

theorem find_prefix_zero (s pat : Str) (hne : s ≠ []) (h : pat <+: s) : find s pat 0 = some 0 := by
  obtain ⟨c, cs, rfl⟩ := List.exists_cons_of_ne_nil hne
  rw [find_zero]
  exact findAux_hit _ _ _ _ h

/-- Parsing a request text in canonical shape: the request line is read as
`GET`, target and version, and every header line is stored. -/
theorem parse_request_text (self st : ParsedRequest) (fa ver tail : Str)
    (lh : List (Str × ParsedHeader))
    (hfa : noSpace fa) (hfa0 : fa ≠ []) (hver : noSpace ver)
    (hhttp : ['H', 'T', 'T', 'P', '/'] <+: ver)
    (hall : ∀ p ∈ lh, p.1 ≠ [] ∧ hasCRLF p.1 = false ∧ parse_header_line p.1 = some p.2)
    (hlen : (request_text fa ver (lh.map Prod.fst) tail).length ≤ MAX_REQ_LEN)
    (htarget : parse_target
      { self with buf := request_line fa ver, method := ['G', 'E', 'T'], version := ver } fa
        = some st) :
    self.parse (request_text fa ver (lh.map Prod.fst) tail)
      = some { st with headers := (lh.map Prod.snd).foldl set_header st.headers } := by
  have hver0 : ver ≠ [] := by
    rintro rfl
    obtain ⟨t, ht⟩ := hhttp
    simp at ht
  have hline := hasCRLF_request_line fa ver hfa hver
  generalize hin : request_text fa ver (lh.map Prod.fst) tail = input at hlen ⊢
  have hin2 : input = request_line fa ver ++ '\r' :: '\n'
      :: (lines_text (lh.map Prod.fst) ++ '\r' :: '\n' :: tail) := hin.symm
  have hmin : ¬ (input.length < MIN_REQ_LEN ∨ input.length > MAX_REQ_LEN) := by
    have : 4 ≤ input.length := by
      rw [hin2]
      simp [request_line]
    simp only [MIN_REQ_LEN] at *
    omega
  have hfind1 : find input CRLFCRLF 0
      = some ((request_line fa ver).length + (lines_text (lh.map Prod.fst)).length) := by
    rw [find_zero, hin2, findAux_crlfcrlf_lines _ _ _ _ hline]
    · simp
    · intro x hx
      obtain ⟨p, hp, rfl⟩ := List.mem_map.mp hx
      exact ⟨(hall p hp).1, (hall p hp).2.1⟩
  have hfind2 : find input CRLF 0 = some (request_line fa ver).length := by
    rw [find_zero, hin2, findAux_crlf_line _ _ _ hline]
    simp
  have hbuf : substr input 0 (request_line fa ver).length = request_line fa ver := by
    rw [hin2]
    simp [substr]
  have htok1 : read_token (request_line fa ver)
      = some (['G', 'E', 'T'], ' ' :: (fa ++ ' ' :: ver)) :=
    read_token_sep ['G', 'E', 'T'] (fa ++ ' ' :: ver) (by decide) (by simp)
  have htok2 : read_token (' ' :: (fa ++ ' ' :: ver)) = some (fa, ' ' :: ver) := by
    rw [read_token_space]
    exact read_token_sep fa ver hfa hfa0
  obtain ⟨r3, htok3⟩ := read_token_end ver hver hver0
  have htok3 : read_token (' ' :: ver) = some (ver, r3) := by
    rw [read_token_space]
    exact htok3
  have hhttp2 : find ver ['H', 'T', 'T', 'P', '/'] 0 = some 0 := find_prefix_zero _ _ hver0 hhttp
  have hheaders : parse_headers input
      ((request_line fa ver).length + (lines_text (lh.map Prod.fst)).length) (input.length + 1)
      ((request_line fa ver).length + 2) st.headers
      = some ((lh.map Prod.snd).foldl set_header st.headers) := by
    apply parse_headers_lines input _ tail lh
    · have h1 := length_lines_text_ge (lh.map Prod.fst)
      have h2 : (lines_text (lh.map Prod.fst)).length ≤ input.length := by
        rw [hin2]
        simp only [List.length_append, List.length_cons]
        omega
      simp only [List.length_map] at h1
      omega
    · rw [hin2]
      simp only [List.length_append, List.length_cons]
      omega
    · have := drop_add_of_drop_eq input (request_line fa ver ++ ['\r', '\n'])
        (lines_text (lh.map Prod.fst) ++ '\r' :: '\n' :: tail) 0
        (by rw [List.drop_zero, hin2]; simp)
      simpa using this
    · omega
    · exact hall
  simp only [ParsedRequest.parse, if_neg hmin, hfind1, hfind2, hbuf, htok1, htok2, htok3,
    ne_eq, not_true_eq_false, if_false, hhttp2, htarget, hheaders]

/-! ## The target of the request line -/

theorem findAux_char (c : Char) : ∀ (a b : Str) (i : Nat), c ∉ a →
    findAux [c] (a ++ c :: b) i = some (i + a.length)
  | [], b, i, _ => by
    rw [List.nil_append, findAux_hit _ _ _ _ ⟨b, rfl⟩]
    rfl
  | x :: a, b, i, h => by
    have hx : c ≠ x := fun e => h (by simp [e])
    rw [List.cons_append, findAux_cons_skip _ _ _ _ (by simpa using hx),
      findAux_char c a b (i + 1) (fun hm => h (List.mem_cons_of_mem _ hm))]
    simp only [List.length_cons]
    congr 1
    omega

theorem no_sep_in_scheme : ∀ (s rest : Str) (j : Nat), ¬ [':', '/', '/'] <:+: s → j < s.length →
    ¬ [':', '/', '/'] <+: (s ++ ':' :: '/' :: '/' :: rest).drop j
  | [], _, _, _, hj => by simp at hj
  | c :: cs, rest, 0, h, _ => by
    rw [List.drop_zero]
    rintro ⟨t, ht⟩
    match cs, h, ht with
    | [], _, ht => simp at ht
    | [d], _, ht => simp at ht
    | d :: e :: u, h, ht =>
      simp only [List.cons_append, List.cons.injEq] at ht
      apply h
      rw [← ht.1, ← ht.2.1, ← ht.2.2.1]
      exact (List.prefix_append _ u).isInfix
  | c :: cs, rest, j + 1, h, hj => by
    rw [List.cons_append, List.drop_succ_cons]
    exact no_sep_in_scheme cs rest j (fun hi => h (List.infix_cons hi)) (by simpa using hj)

theorem isspace_of_isDigit {c : Char} (h : c.isDigit = true) : isspace c = false := by
  by_contra hs
  simp only [isspace, Bool.not_eq_false, Bool.or_eq_true, decide_eq_true_eq] at hs
  rcases hs with ((((rfl | rfl) | rfl) | rfl) | rfl) | rfl <;> simp [Char.isDigit] at h

theorem takeWhile_all {α : Type} (q : α → Bool) : ∀ (l : List α), (∀ x ∈ l, q x = true) →
    l.takeWhile q = l
  | [], _ => rfl
  | x :: l, h => by
    rw [List.takeWhile_cons_of_pos (h x (List.mem_cons_self _ _)),
      takeWhile_all q l (fun y hy => h y (List.mem_cons_of_mem _ hy))]

/-- On a non-empty run of digits whose value fits an `int`, `stoi` returns the value. -/
theorem stoi_digits (p : Str) (hne : p ≠ []) (hd : ∀ c ∈ p, c.isDigit = true)
    (hv : (decimalValue p : Int) ≤ INT_MAX) : stoi p = some (decimalValue p : Int) := by
  obtain ⟨c, cs, rfl⟩ := List.exists_cons_of_ne_nil hne
  have hc : c.isDigit = true := hd c (List.mem_cons_self _ _)
  have h1 : (c :: cs).dropWhile isspace = c :: cs := by
    rw [List.dropWhile_cons_of_neg (by simp [isspace_of_isDigit hc])]
  have hminus : c ≠ '-' := by rintro rfl; simp [Char.isDigit] at hc
  have hplus : c ≠ '+' := by rintro rfl; simp [Char.isDigit] at hc
  have h2 : (match c :: cs with
      | '-' :: r => (true, r)
      | '+' :: r => (false, r)
      | _ => (false, c :: cs)) = (false, c :: cs) := by
    split
    · rename_i heq; simp only [List.cons.injEq] at heq; exact absurd heq.1 hminus
    · rename_i heq; simp only [List.cons.injEq] at heq; exact absurd heq.1 hplus
    · rfl
  have h3 : (c :: cs).takeWhile Char.isDigit = c :: cs := takeWhile_all _ _ hd
  have h4 : INT_MIN ≤ (decimalValue (c :: cs) : Int) := by
    have : (0 : Int) ≤ (decimalValue (c :: cs) : Int) := Int.natCast_nonneg _
    simp only [INT_MIN]
    omega
  unfold stoi
  simp only [h1, h2, h3]
  rw [if_pos ⟨h4, hv⟩]
  rfl

/-- A target `s://h:p` followed by a path is split into its four parts. -/
theorem parse_target_absolute (self : ParsedRequest) (s h p q : Str)
    (hs : ¬ [':', '/', '/'] <:+: s)
    (hh1 : ':' ∉ h) (hh2 : '/' ∉ h)
    (hp0 : p ≠ []) (hpd : ∀ c ∈ p, c.isDigit = true)
    (hp1 : 1 ≤ decimalValue p) (hp2 : decimalValue p ≤ 65535)
    (hq1 : ['/'] <+: q) (hq2 : ¬ ['/', '/'] <+: q) :
    parse_target self (absolute_uri s h p q)
      = some { self with protocol := s, host := h, port := p, path := q } := by
  obtain ⟨q1, rfl⟩ : ∃ q1, q = '/' :: q1 := by
    obtain ⟨t, ht⟩ := hq1
    exact ⟨t, by simpa using ht.symm⟩
  have hpslash : '/' ∉ p := by
    intro hm
    have := hpd _ hm
    simp [Char.isDigit] at this
  have hpcolon : ':' ∉ p := by
    intro hm
    have := hpd _ hm
    simp [Char.isDigit] at this
  generalize hfa : absolute_uri s h p ('/' :: q1) = fa
  have hfa2 : fa = s ++ ':' :: '/' :: '/' :: (h ++ ':' :: (p ++ '/' :: q1)) := hfa.symm
  have hfind1 : find fa [':', '/', '/'] 0 = some s.length := by
    rw [find_zero, hfa2, findAux_skip _ s _ 0 (fun j hj => no_sep_in_scheme s _ j hs hj),
      findAux_hit _ _ _ _ ⟨_, rfl⟩]
    simp
  have hproto : substr fa 0 s.length = s := by
    rw [hfa2]
    simp [substr]
  have hdrop : fa.drop (s.length + 3) = (h ++ ':' :: p) ++ '/' :: q1 := by
    have := drop_add_of_drop_eq fa (s ++ [':', '/', '/']) (h ++ ':' :: (p ++ '/' :: q1)) 0
      (by rw [List.drop_zero, hfa2]; simp)
    simpa using this
  have hlen : fa.length = s.length + 3 + (h.length + 1 + p.length) + (1 + q1.length) := by
    rw [hfa2]
    simp only [List.length_append, List.length_cons]
    omega
  have hfind2 : find fa ['/'] (s.length + 3) = some (s.length + 3 + (h.length + 1 + p.length)) := by
    rw [find_drop _ _ _ (by omega), hdrop, findAux_char]
    · simp only [List.length_append, List.length_cons]
      congr 1
      omega
    · simp [hh2, hpslash]
  have hhp : substr fa (s.length + 3) (s.length + 3 + (h.length + 1 + p.length) - (s.length + 3))
      = h ++ ':' :: p := by
    have : (h.length + 1 + p.length) = (h ++ ':' :: p).length := by simp; omega
    simp only [substr, hdrop, Nat.add_sub_cancel_left]
    rw [this]
    exact List.take_left _ _
  have hfind3 : find (h ++ ':' :: p) [':'] 0 = some h.length := by
    rw [find_zero, findAux_char _ _ _ _ hh1]
    simp
  have hhost : substr (h ++ ':' :: p) 0 h.length = h := by simp [substr]
  have hport : substrFrom (h ++ ':' :: p) (h.length + 1) = p := by
    have := drop_add_of_drop_eq (h ++ ':' :: p) (h ++ [':']) p 0 (by simp)
    simp only [substrFrom]
    rw [← this]
    simp
  have hstoi : stoi p = some (decimalValue p : Int) :=
    stoi_digits p hp0 hpd (by simp only [INT_MAX]; omega)
  have hnz : ¬ ((decimalValue p : Int) = 0) := by omega
  have hpath : substrFrom fa (s.length + 3 + (h.length + 1 + p.length)) = '/' :: q1 := by
    have := drop_add_of_drop_eq fa (h ++ ':' :: p) ('/' :: q1) (s.length + 3) hdrop
    simp only [substrFrom]
    rw [← this]
    congr 1
    simp only [List.length_append, List.length_cons]
    omega
  have hq3 : ¬ ((1 : Nat) + q1.length ≥ 2 ∧ q1.get? 0 = some '/') := by
    rintro ⟨_, h2⟩
    apply hq2
    cases q1 with
    | nil => simp at h2
    | cons d ds =>
      simp only [List.get?_cons_zero, Option.some.injEq] at h2
      exact ⟨ds, by simp [h2]⟩
  simp only [parse_target, hfind1, hfind2, hproto, hhp, hfind3, hhost, hport, hstoi, hnz,
    if_false, hpath]
  simp only [List.length_cons, List.get?_cons_zero, List.get?_cons_succ, true_and, ne_eq,
    not_true_eq_false, if_false, reduceCtorEq]
  rw [if_neg (by simpa [Nat.add_comm] using hq3)]

/-! ## Header lines -/

theorem header_lines_eq (hs : List ParsedHeader) :
    header_lines hs = lines_text (hs.map header_line) := by
  simp [header_lines, lines_text, header_line, CRLF, Function.comp_def]

/-- What `parse_header_line` makes of a line whose first colon follows `k`. -/
theorem parse_header_line_colon (k r : Str) (hk : ':' ∉ k) :
    parse_header_line (k ++ ':' :: r)
      = some { key := k, value := if r.head? = some ' ' then r.tail else r } := by
  have hfind : find (k ++ ':' :: r) [':'] 0 = some k.length := by
    rw [find_zero, findAux_char _ _ _ _ hk]
    simp
  have hkey : substr (k ++ ':' :: r) 0 k.length = k := by simp [substr]
  have hget : (k ++ ':' :: r).get? (k.length + 1) = r.head? := by
    rw [List.get?_eq_getElem?, List.getElem?_append_right (by omega)]
    cases r <;> simp
  have hd1 : (k ++ ':' :: r).drop (k.length + 1) = r := by
    have := drop_add_of_drop_eq (k ++ ':' :: r) (k ++ [':']) r 0 (by simp)
    rw [← this]
    simp
  simp only [parse_header_line, hfind, hkey, hget, substrFrom]
  cases r with
  | nil => simp
  | cons c r =>
    by_cases hc : c = ' '
    · subst hc
      have hd2 : (k ++ ':' :: ' ' :: r).drop (k.length + 1 + 1) = r := by
        have := drop_add_of_drop_eq (k ++ ':' :: ' ' :: r) (k ++ [':', ' ']) r 0 (by simp)
        rw [show k.length + 1 + 1 = 0 + (k ++ [':', ' ']).length by simp]
        exact this
      simp [hd2]
    · simp [hc, hd1]

theorem parse_header_line_canonical (ph : ParsedHeader) (hk : ':' ∉ ph.key) :
    parse_header_line (header_line ph) = some ph := by
  rw [header_line, parse_header_line_colon _ _ hk]
  simp

theorem set_header_fresh_key (acc : List ParsedHeader) (x : ParsedHeader)
    (h : x.key ∉ acc.map ParsedHeader.key) : set_header acc x = acc ++ [x] := by
  unfold set_header
  congr 1
  rw [List.filter_eq_self]
  intro a ha
  have : a.key ≠ x.key := fun e => h (by rw [← e]; exact List.mem_map_of_mem _ ha)
  simp [this]

/-- Storing headers with pairwise distinct names keeps all of them, in order. -/
theorem foldl_set_header_nodup : ∀ (hs acc : List ParsedHeader),
    ((acc ++ hs).map ParsedHeader.key).Nodup → hs.foldl set_header acc = acc ++ hs
  | [], acc, _ => by simp
  | x :: hs, acc, h => by
    have hx : x.key ∉ acc.map ParsedHeader.key := by
      intro hm
      rw [List.map_append, List.map_cons] at h
      have := (List.nodup_append.mp h).2.2
      exact this hm (List.mem_cons_self _ _)
    rw [List.foldl_cons, set_header_fresh_key acc x hx,
      foldl_set_header_nodup hs (acc ++ [x]) (by simpa using h)]
    simp

/-! ## Well-formed absolute-form requests -/

theorem absolute_get_eq (s h p q v : Str) (hdrs : List ParsedHeader) :
    absolute_get s h p q v hdrs
      = request_text (absolute_uri s h p q) v ((hdrs.map (fun x => (header_line x, x))).map Prod.fst)
          [] := by
  simp [absolute_get, request_text, request_line, absolute_uri, header_lines_eq, CRLF,
    Function.comp_def]

theorem noSpace_append {a b : Str} (ha : noSpace a) (hb : noSpace b) : noSpace (a ++ b) := by
  intro c hc
  rcases List.mem_append.mp hc with h | h
  · exact ha c h
  · exact hb c h

theorem noSpace_cons {c : Char} {a : Str} (hc : isspace c = false) (ha : noSpace a) :
    noSpace (c :: a) := by
  intro x hx
  rcases List.mem_cons.mp hx with h | h
  · rw [h]; exact hc
  · exact ha x h

/-- C1: parsing a well-formed absolute-form GET on a fresh object succeeds and
fills method, protocol, host, port, path, version and the headers exactly. -/
theorem parse_absolute_get (s h p q v : Str) (hdrs : List ParsedHeader)
    (hs_ws : noSpace s) (hh_ws : noSpace h) (hq_ws : noSpace q) (hv_ws : noSpace v)
    (hs : ¬ [':', '/', '/'] <:+: s)
    (_hh0 : h ≠ []) (hh1 : ':' ∉ h) (hh2 : '/' ∉ h)
    (hp0 : p ≠ []) (hpd : ∀ c ∈ p, c.isDigit = true)
    (hp1 : 1 ≤ decimalValue p) (hp2 : decimalValue p ≤ 65535)
    (hq1 : ['/'] <+: q) (hq2 : ¬ ['/', '/'] <+: q)
    (hv : ['H', 'T', 'T', 'P', '/'] <+: v)
    (hnames : (hdrs.map ParsedHeader.key).Nodup)
    (hkey : ∀ x ∈ hdrs, ':' ∉ x.key ∧ '\r' ∉ x.key ∧ '\n' ∉ x.key)
    (hval : ∀ x ∈ hdrs, '\r' ∉ x.value ∧ '\n' ∉ x.value ∧ x.value.head? ≠ some ' ')
    (hlen : (absolute_get s h p q v hdrs).length ≤ 65535) :
    ParsedRequest.fresh.parse (absolute_get s h p q v hdrs)
      = some { buf := ['G', 'E', 'T', ' '] ++ s ++ [':', '/', '/'] ++ h ++ [':'] ++ p ++ q
                        ++ [' '] ++ v,
               method := ['G', 'E', 'T'], protocol := s, host := h, port := p, path := q,
               version := v, headers := hdrs } := by
  have hp_ws : noSpace p := fun c hc => isspace_of_isDigit (hpd c hc)
  have hfa : noSpace (absolute_uri s h p q) :=
    noSpace_append hs_ws (noSpace_cons (by decide) (noSpace_cons (by decide)
      (noSpace_cons (by decide) (noSpace_append hh_ws (noSpace_cons (by decide)
        (noSpace_append hp_ws hq_ws))))))
  have hfa0 : absolute_uri s h p q ≠ [] := by simp [absolute_uri]
  rw [absolute_get_eq] at hlen ⊢
  rw [parse_request_text ParsedRequest.fresh _ (absolute_uri s h p q) v []
    (hdrs.map (fun x => (header_line x, x))) hfa hfa0 hv_ws hv _ hlen
    (parse_target_absolute _ s h p q hs hh1 hh2 hp0 hpd hp1 hp2 hq1 hq2)]
  · simp only [List.map_map, Function.comp_def, List.map_id']
    have hfold : List.foldl set_header ParsedRequest.fresh.headers hdrs = hdrs := by
      rw [show ParsedRequest.fresh.headers = [] from rfl,
        foldl_set_header_nodup hdrs [] (by simpa using hnames)]
      rfl
    rw [hfold]
    simp [request_line, absolute_uri]
  · intro x hx
    obtain ⟨ph, hph, rfl⟩ := List.mem_map.mp hx
    refine ⟨by simp [header_line], ?_, parse_header_line_canonical ph (hkey ph hph).1⟩
    apply hasCRLF_of_not_mem
    simp [header_line, (hkey ph hph).2.1, (hval ph hph).1]

/-- The request of `main` is parsed into the fields expected for it. -/
theorem parse_absolute_get_main :
    ParsedRequest.fresh.parse main_request
      = some { buf := "GET http://example.com:8080/path/to/resource HTTP/1.1".toList,
               method := "GET".toList, protocol := "http".toList,
               host := "example.com".toList, port := "8080".toList,
               path := "/path/to/resource".toList, version := "HTTP/1.1".toList,
               headers := [⟨"Host".toList, "example.com".toList⟩,
                           ⟨"User-Agent".toList, "TestAgent".toList⟩] } :=
  parse_absolute_get "http".toList "example.com".toList "8080".toList
    "/path/to/resource".toList "HTTP/1.1".toList
    [⟨"Host".toList, "example.com".toList⟩, ⟨"User-Agent".toList, "TestAgent".toList⟩]
    (by decide) (by decide) (by decide) (by decide) (by decide) (by decide) (by decide)
    (by decide) (by decide) (by decide) (by decide) (by decide) (by decide) (by decide)
    (by decide) (by decide) (by decide) (by decide) (by decide)

/-! ## What a successful parse tells about its input -/

theorem findAux_some (pat : Str) : ∀ (s : Str) (i k : Nat), findAux pat s i = some k →
    ∃ a b, s = a ++ pat ++ b ∧ k = i + a.length
  | [], i, k, h => by
    simp only [findAux] at h
    split at h
    · rename_i hp
      simp only [Option.some.injEq] at h
      exact ⟨[], [], by simp [hp], by simp [h]⟩
    · cases h
  | c :: cs, i, k, h => by
    simp only [findAux] at h
    split at h
    · rename_i hp
      simp only [Option.some.injEq] at h
      obtain ⟨t, ht⟩ := List.isPrefixOf_iff_prefix.mp hp
      exact ⟨[], t, by simp [ht], by simp [h]⟩
    · obtain ⟨a, b, hab, hk⟩ := findAux_some pat cs (i + 1) k h
      exact ⟨c :: a, b, by simp [hab], by simp only [List.length_cons]; omega⟩

theorem findAux_char_some (c : Char) : ∀ (s : Str) (i k : Nat), findAux [c] s i = some k →
    ∃ a b, s = a ++ c :: b ∧ c ∉ a ∧ k = i + a.length
  | [], i, k, h => by simp [findAux] at h
  | x :: cs, i, k, h => by
    simp only [findAux] at h
    split at h
    · rename_i hp
      simp only [Option.some.injEq] at h
      obtain ⟨t, ht⟩ := List.isPrefixOf_iff_prefix.mp hp
      simp only [List.singleton_append, List.cons.injEq] at ht
      exact ⟨[], cs, by simp [ht.1], by simp, by simp [h]⟩
    · rename_i hp
      have hx : c ≠ x := by
        intro e
        apply hp
        rw [List.isPrefixOf_iff_prefix, e]
        exact ⟨cs, rfl⟩
      obtain ⟨a, b, hab, hca, hk⟩ := findAux_char_some c cs (i + 1) k h
      refine ⟨x :: a, b, by simp [hab], ?_, by simp only [List.length_cons]; omega⟩
      simp [hx, hca]

theorem find_some_le {s pat : Str} {pos k : Nat} (h : find s pat pos = some k) :
    pos ≤ s.length := by
  unfold find at h
  split at h
  · cases h
  · omega

/-- The fuel of the header loop is never used up: with more fuel than the
distance to `header_end`, one more unit does not change the result. -/
theorem parse_headers_fuel (input : Str) (header_end : Nat) :
    ∀ (fuel start : Nat) (hs : List ParsedHeader), header_end - start < fuel →
    parse_headers input header_end (fuel + 1) start hs
      = parse_headers input header_end fuel start hs
  | 0, _, _, h => absurd h (Nat.not_lt_zero _)
  | fuel + 1, start, hs, h => by
    rw [parse_headers, parse_headers]
    split
    · rename_i hlt
      cases hf : find input CRLF start with
      | none => rfl
      | some e =>
        simp only
        have hge : start ≤ e := by
          rw [find_drop _ _ _ (find_some_le hf)] at hf
          exact findAux_ge _ _ _ _ hf
        split
        · rfl
        · split
          · rfl
          · cases parse_header_line (substr input start (e - start)) with
            | none => rfl
            | some ph =>
              simp only
              exact parse_headers_fuel input header_end fuel (e + 2) _ (by omega)
    · rfl

/-- The text before the first CR LF holds no CR LF. -/
theorem hasCRLF_take_findAux : ∀ (s : Str) (i k : Nat), findAux CRLF s i = some k →
    hasCRLF (s.take (k - i)) = false
  | [], _, _, _ => by simp [hasCRLF]
  | c :: cs, i, k, h => by
    rw [findAux] at h
    split at h
    · simp only [Option.some.injEq] at h
      subst h
      simp [hasCRLF]
    · rename_i hp
      have hge := findAux_ge _ _ _ _ h
      have ih := hasCRLF_take_findAux cs (i + 1) k h
      obtain ⟨n, hn⟩ : ∃ n, k - i = n + 1 := ⟨k - i - 1, by omega⟩
      have hn2 : k - (i + 1) = n := by omega
      rw [hn2] at ih
      rw [hn, List.take_succ_cons]
      cases n with
      | zero => simp [hasCRLF]
      | succ m =>
        cases cs with
        | nil => simp [hasCRLF]
        | cons d ds =>
          rw [List.take_succ_cons] at ih ⊢
          rw [hasCRLF_cons_cons, ih]
          have : ¬ (c = '\r' ∧ d = '\n') := by
            rintro ⟨rfl, rfl⟩
            apply hp
            rw [List.isPrefixOf_iff_prefix]
            exact ⟨ds, rfl⟩
          simp only [Bool.or_false, Bool.and_eq_false_imp, decide_eq_true_eq,
            decide_eq_false_iff_not]
          intro hc hd
          exact this ⟨hc, hd⟩

theorem read_token_some {s tok rest : Str} (h : read_token s = some (tok, rest)) :
    noSpace tok ∧ tok ≠ [] := by
  unfold read_token at h
  split at h
  · cases h
  · rename_i c cs heq
    simp only [Option.some.injEq, Prod.mk.injEq] at h
    have hc : isspace c = false := by
      have := List.head_dropWhile_not isspace s (by rw [heq]; simp)
      simpa [heq] using this
    constructor
    · intro x hx
      rw [← h.1] at hx
      have := List.mem_takeWhile_imp hx
      simpa using this
    · rw [← h.1, List.takeWhile_cons_of_pos (by simp [hc])]
      simp

theorem stoi_nil : stoi [] = none := rfl

/-- A successful `parse_target` leaves the other fields alone, and on an object
without a port its four parts put together again give the target. -/
theorem parse_target_some {self st : ParsedRequest} {fa : Str}
    (h : parse_target self fa = some st) :
    st.buf = self.buf ∧ st.method = self.method ∧ st.version = self.version ∧
    st.headers = self.headers ∧
    (self.port = [] →
      st.protocol ++ ':' :: '/' :: '/'
        :: (st.host ++ ((if st.port ≠ [] then ':' :: st.port else []) ++ st.path)) = fa) := by
  unfold parse_target at h
  cases hf1 : find fa [':', '/', '/'] 0 with
  | none => rw [hf1] at h; cases h
  | some pos =>
    rw [hf1] at h
    simp only at h
    obtain ⟨a, b, hfa, hpos⟩ := findAux_some _ _ _ _ (by rw [← find_zero]; exact hf1)
    simp only [Nat.zero_add] at hpos
    subst hpos
    cases hf2 : find fa ['/'] (a.length + 3) with
    | none => rw [hf2] at h; cases h
    | some ps =>
      rw [hf2] at h
      simp only at h
      have hdrop : fa.drop (a.length + 3) = b := by
        have := drop_add_of_drop_eq fa (a ++ [':', '/', '/']) b 0 (by rw [List.drop_zero, hfa])
        simpa using this
      obtain ⟨a2, b2, hb, hna, hps⟩ := findAux_char_some '/' b (a.length + 3) ps
        (by rw [← hdrop, ← find_drop _ _ _ (find_some_le hf2)]; exact hf2)
      subst hps
      have hhp : substr fa (a.length + 3) (a.length + 3 + a2.length - (a.length + 3)) = a2 := by
        simp only [substr, hdrop, Nat.add_sub_cancel_left, hb]
        exact List.take_left _ _
      have hpath : substrFrom fa (a.length + 3 + a2.length) = '/' :: b2 := by
        simp only [substrFrom]
        exact drop_add_of_drop_eq fa a2 _ _ (by rw [hdrop, hb])
      have hproto : substr fa 0 a.length = a := by
        rw [hfa]
        simp [substr]
      simp only [hhp, hpath, hproto] at h
      cases hf3 : find a2 [':'] 0 with
      | none =>
        simp only [hf3] at h
        rw [if_neg (by simp)] at h
        split at h
        · cases h
        · rw [if_neg (by simp)] at h
          simp only [Option.some.injEq] at h
          subst h
          refine ⟨rfl, rfl, rfl, rfl, fun hport => ?_⟩
          simp [hport, hfa, hb]
      | some cp =>
        simp only [hf3] at h
        obtain ⟨a3, b3, ha2, hna3, hcp⟩ := findAux_char_some ':' a2 0 cp
          (by rw [← find_zero]; exact hf3)
        simp only [Nat.zero_add] at hcp
        subst hcp
        have hhost : substr a2 0 a3.length = a3 := by
          rw [ha2]
          simp [substr]
        have hport : substrFrom a2 (a3.length + 1) = b3 := by
          have := drop_add_of_drop_eq a2 (a3 ++ [':']) b3 0 (by rw [List.drop_zero, ha2]; simp)
          simp only [substrFrom]
          rw [← this]
          simp
        simp only [hhost, hport] at h
        cases hst : stoi b3 with
        | none => simp [hst] at h
        | some n =>
          have hb3 : b3 ≠ [] := by
            rintro rfl
            rw [stoi_nil] at hst
            cases hst
          simp only [hst] at h
          split at h
          · simp at h
          · rename_i heq
            split at heq
            · cases heq
            · simp only [Option.some.injEq] at heq
              subst heq
              simp only at h
              rw [if_neg (by simp)] at h
              split at h
              · cases h
              · rw [if_neg (by simp)] at h
                simp only [Option.some.injEq] at h
                subst h
                refine ⟨rfl, rfl, rfl, rfl, fun _ => ?_⟩
                simp [hb3, hfa, hb, ha2]

/-- The analysis of the target does not read the field `buf`. -/
theorem parse_target_buf (self : ParsedRequest) (b fa : Str) :
    parse_target { self with buf := b } fa
      = (parse_target self fa).map (fun st => { st with buf := b }) := by
  unfold parse_target
  cases find fa [':', '/', '/'] 0 with
  | none => rfl
  | some pos =>
    simp only
    cases find fa ['/'] (pos + 3) with
    | none => rfl
    | some ps =>
      simp only
      cases find (substr fa (pos + 3) (ps - (pos + 3))) [':'] 0 with
      | none =>
        simp only
        split_ifs <;> rfl
      | some cp =>
        simp only
        cases stoi (substrFrom (substr fa (pos + 3) (ps - (pos + 3))) (cp + 1)) with
        | none => rfl
        | some n =>
          simp only
          by_cases hn : n = 0
          · simp [hn]
          · simp only [hn, if_false]
            split_ifs <;> rfl

theorem parse_header_line_some {line : Str} {ph : ParsedHeader}
    (h : parse_header_line line = some ph) (hl : hasCRLF line = false) :
    ':' ∉ ph.key ∧ hasCRLF (header_line ph) = false := by
  cases hf : find line [':'] 0 with
  | none => simp [parse_header_line, hf] at h
  | some colon =>
    obtain ⟨a, r, hline, hna, -⟩ := findAux_char_some ':' line 0 colon
      (by rw [← find_zero]; exact hf)
    subst hline
    rw [parse_header_line_colon a r hna] at h
    simp only [Option.some.injEq] at h
    subst h
    refine ⟨hna, ?_⟩
    have ha : hasCRLF a = false := hasCRLF_append_left _ _ hl
    have hr : hasCRLF r = false := hasCRLF_tail (hasCRLF_append_right _ _ hl)
    simp only [header_line]
    apply hasCRLF_join (by decide) (by decide) a _ ha
    cases r with
    | nil => rfl
    | cons c t =>
      by_cases hc : c = ' '
      · subst hc
        simpa using hr
      · simp only [List.head?_cons, Option.some.injEq, hc, if_false]
        exact hasCRLF_join (by decide) (by decide) [] (c :: t) rfl hr

theorem set_header_good {hs : List ParsedHeader} {ph : ParsedHeader} (hg : goodHeaders hs)
    (hk : ':' ∉ ph.key) (hl : hasCRLF (header_line ph) = false) :
    goodHeaders (set_header hs ph) := by
  obtain ⟨hnd, hall⟩ := hg
  unfold set_header
  constructor
  · rw [List.map_append, List.nodup_append]
    refine ⟨hnd.sublist ((List.filter_sublist _).map _), by simp, ?_⟩
    intro k hk1 hk2
    simp only [List.map_cons, List.map_nil, List.mem_singleton] at hk2
    obtain ⟨x, hx, rfl⟩ := List.mem_map.mp hk1
    have := (List.mem_filter.mp hx).2
    simp [hk2] at this
  · intro x hx
    rcases List.mem_append.mp hx with h1 | h1
    · exact hall x (List.mem_filter.mp h1).1
    · simp only [List.mem_singleton] at h1
      subst h1
      exact ⟨hk, hl⟩

/-- The header loop keeps the stored headers well-formed. -/
theorem parse_headers_good (input : Str) (header_end : Nat) :
    ∀ (fuel start : Nat) (hs hs2 : List ParsedHeader), goodHeaders hs →
    parse_headers input header_end fuel start hs = some hs2 → goodHeaders hs2
  | 0, _, _, _, _, h => by simp [parse_headers] at h
  | fuel + 1, start, hs, hs2, hg, h => by
    rw [parse_headers] at h
    split at h
    · cases hf : find input CRLF start with
      | none =>
        simp only [hf, Option.some.injEq] at h
        exact h ▸ hg
      | some e =>
        simp only [hf] at h
        split at h
        · simp only [Option.some.injEq] at h
          exact h ▸ hg
        · split at h
          · simp only [Option.some.injEq] at h
            exact h ▸ hg
          · cases hp : parse_header_line (substr input start (e - start)) with
            | none => simp [hp] at h
            | some ph =>
              simp only [hp] at h
              have hl : hasCRLF (substr input start (e - start)) = false := by
                rw [find_drop _ _ _ (find_some_le hf)] at hf
                exact hasCRLF_take_findAux _ _ _ hf
              obtain ⟨hk, hl2⟩ := parse_header_line_some hp hl
              exact parse_headers_good input header_end fuel _ _ _
                (set_header_good hg hk hl2) h
    · simp only [Option.some.injEq] at h
      exact h ▸ hg

/-- What a successful `parse` has read: a target and a version without
whitespace, on which `parse_target` succeeded, and well-formed headers. -/
theorem parse_some {self P : ParsedRequest} {input : Str} (hg : goodHeaders self.headers)
    (h : self.parse input = some P) :
    ∃ b fa ver st, noSpace fa ∧ fa ≠ [] ∧ noSpace ver ∧ ['H', 'T', 'T', 'P', '/'] <+: ver ∧
      parse_target { self with buf := b, method := ['G', 'E', 'T'], version := ver } fa = some st ∧
      goodHeaders P.headers ∧ P = { st with headers := P.headers } := by
  unfold ParsedRequest.parse at h
  split at h
  · cases h
  · cases hf1 : find input CRLFCRLF 0 with
    | none => simp [hf1] at h
    | some header_end =>
      cases hf2 : find input CRLF 0 with
      | none => simp [hf1, hf2] at h
      | some first_line_end =>
        simp only [hf1, hf2] at h
        cases ht1 : read_token (substr input 0 first_line_end) with
        | none => simp [ht1] at h
        | some r1 =>
          obtain ⟨method, iss1⟩ := r1
          simp only [ht1] at h
          split at h
          · cases h
          · rename_i hm
            simp only [ne_eq, Decidable.not_not] at hm
            subst hm
            cases ht2 : read_token iss1 with
            | none => simp [ht2] at h
            | some r2 =>
              obtain ⟨fa, iss2⟩ := r2
              simp only [ht2] at h
              cases ht3 : read_token iss2 with
              | none => simp [ht3] at h
              | some r3 =>
                obtain ⟨ver, iss3⟩ := r3
                simp only [ht3] at h
                split at h
                · cases h
                · rename_i hv
                  simp only [ne_eq, Decidable.not_not] at hv
                  cases hpt : parse_target
                      { self with buf := substr input 0 first_line_end,
                                  method := ['G', 'E', 'T'], version := ver } fa with
                  | none => simp [hpt] at h
                  | some st =>
                    simp only [hpt] at h
                    cases hph : parse_headers input header_end (input.length + 1)
                        (first_line_end + 2) st.headers with
                    | none => simp [hph] at h
                    | some hs =>
                      simp only [hph, Option.some.injEq] at h
                      subst h
                      obtain ⟨hfa, hfa0⟩ := read_token_some ht2
                      obtain ⟨hver, _⟩ := read_token_some ht3
                      have hst := (parse_target_some hpt).2.2.2.1
                      refine ⟨_, fa, ver, st, hfa, hfa0, hver, ?_, hpt, ?_, rfl⟩
                      · obtain ⟨a, t, hab, hk⟩ := findAux_some _ _ _ _
                          (by rw [← find_zero]; exact hv)
                        have ha : a = [] := List.length_eq_zero.mp (by omega)
                        subst ha
                        exact ⟨t, by simpa using hab.symm⟩
                      · exact parse_headers_good input header_end _ _ _ _ (by rw [hst]; exact hg) hph

/-! ## Serialising and parsing again -/

theorem unparse_eq (P : ParsedRequest) :
    P.unparse = (0, P.method ++ ' ' :: ((P.protocol ++ ':' :: '/' :: '/'
        :: (P.host ++ ((if P.port ≠ [] then ':' :: P.port else []) ++ P.path)))
        ++ ' ' :: (P.version ++ '\r' :: '\n'
        :: (lines_text (P.headers.map header_line) ++ ['\r', '\n'])))) := by
  simp [ParsedRequest.unparse, ParsedRequest.printRequestLine, header_lines_eq, CRLF]

theorem goodHeaders_nil : goodHeaders [] := by
  constructor
  · simp
  · intro x hx
    cases hx

/-- C2, amended: when the text written by `unparse` for a successfully parsed
request is at most 65535 bytes long, parsing it again succeeds and gives the
same method, protocol, host, port, path, version and headers. -/
theorem unparse_parse_roundtrip (input : Str) (P : ParsedRequest)
    (h : ParsedRequest.fresh.parse input = some P)
    (hlen : P.unparse.2.length ≤ 65535) :
    P.unparse.1 = 0 ∧
    ∃ P2, ParsedRequest.fresh.parse P.unparse.2 = some P2 ∧
      P2.method = P.method ∧ P2.protocol = P.protocol ∧ P2.host = P.host ∧
      P2.port = P.port ∧ P2.path = P.path ∧ P2.version = P.version ∧
      P2.headers = P.headers := by
  obtain ⟨b, fa, ver, st, hfa, hfa0, hver, hhttp, hpt, hgood, hP⟩ := parse_some goodHeaders_nil h
  obtain ⟨hbuf, hmethod, hversion, hheaders, hfull⟩ := parse_target_some hpt
  have hfull2 := hfull rfl
  simp only at hmethod hversion hheaders
  have hun : P.unparse = (0, request_text fa ver
      ((P.headers.map (fun x => (header_line x, x))).map Prod.fst) []) := by
    rw [unparse_eq, hP]
    simp only [hmethod, hversion, hfull2]
    simp [request_text, request_line, Function.comp_def]
  rw [hun] at hlen ⊢
  refine ⟨rfl, ?_⟩
  have hpt2 : parse_target
      { ParsedRequest.fresh with buf := request_line fa ver, method := ['G', 'E', 'T'],
                                 version := ver } fa
      = some { st with buf := request_line fa ver } := by
    have := parse_target_buf
      { ParsedRequest.fresh with buf := b, method := ['G', 'E', 'T'], version := ver }
      (request_line fa ver) fa
    rw [hpt] at this
    exact this
  have hparse := parse_request_text ParsedRequest.fresh _ fa ver []
    (P.headers.map (fun x => (header_line x, x))) hfa hfa0 hver hhttp
    (by
      intro x hx
      obtain ⟨ph, hph, rfl⟩ := List.mem_map.mp hx
      exact ⟨by simp [header_line], (hgood.2 ph hph).2,
        parse_header_line_canonical ph (hgood.2 ph hph).1⟩)
    hlen hpt2
  refine ⟨_, hparse, ?_⟩
  simp only [List.map_map, Function.comp_def, List.map_id', hheaders]
  have hfold : List.foldl set_header ParsedRequest.fresh.headers P.headers = P.headers := by
    rw [show ParsedRequest.fresh.headers = [] from rfl,
      foldl_set_header_nodup P.headers [] (by simpa using hgood.1)]
    rfl
  exact ⟨by rw [hP], by rw [hP], by rw [hP], by rw [hP], by rw [hP], by rw [hP], hfold⟩

/-- The length test at the head of `parse`. -/
theorem parse_none_of_length (self : ParsedRequest) (input : Str)
    (h : input.length < 4 ∨ input.length > 65535) : self.parse input = none := by
  unfold ParsedRequest.parse
  rw [if_pos (by simpa [MIN_REQ_LEN, MAX_REQ_LEN] using h)]

theorem parse_main_request : ParsedRequest.fresh.parse main_request = some main_parsed := by
  decide

/-- The round trip on the request of `main`. -/
theorem unparse_parse_roundtrip_main :
    ParsedRequest.fresh.parse main_request = some main_parsed ∧
    main_parsed.unparse.2.length ≤ 65535 ∧
    main_parsed.unparse.1 = 0 ∧
    ∃ P2, ParsedRequest.fresh.parse main_parsed.unparse.2 = some P2 ∧
      P2.method = main_parsed.method ∧ P2.protocol = main_parsed.protocol ∧
      P2.host = main_parsed.host ∧ P2.port = main_parsed.port ∧
      P2.path = main_parsed.path ∧ P2.version = main_parsed.version ∧
      P2.headers = main_parsed.headers :=
  ⟨parse_main_request, by decide,
    unparse_parse_roundtrip main_request main_parsed parse_main_request (by decide)⟩

theorem nospace_request_eq (val : Str) :
    nospace_request val
      = request_text (absolute_uri "http".toList "h".toList "1".toList "/".toList)
          "HTTP/1.1".toList
          (([(('A' :: ':' :: val), (⟨['A'], val⟩ : ParsedHeader))]).map Prod.fst) [] := by
  have h1 : "GET http://h:1/ HTTP/1.1\r\nA:".toList
      = ['G', 'E', 'T', ' ', 'h', 't', 't', 'p', ':', '/', '/', 'h', ':', '1', '/', ' ',
         'H', 'T', 'T', 'P', '/', '1', '.', '1', '\r', '\n', 'A', ':'] := rfl
  have h2 : "http".toList = ['h', 't', 't', 'p'] := rfl
  have h3 : "h".toList = ['h'] := rfl
  have h4 : "1".toList = ['1'] := rfl
  have h5 : "/".toList = ['/'] := rfl
  have h6 : "HTTP/1.1".toList = ['H', 'T', 'T', 'P', '/', '1', '.', '1'] := rfl
  rw [nospace_request, h1, h2, h3, h4, h5, h6]
  simp [request_text, request_line, absolute_uri, lines_text, CRLF]

theorem length_nospace_request (val : Str) : (nospace_request val).length = val.length + 32 := by
  have h1 : "GET http://h:1/ HTTP/1.1\r\nA:".toList.length = 28 := rfl
  simp only [nospace_request, List.length_append, h1, List.length_cons, List.length_nil]
  omega

theorem length_unparse_nospace (val : Str) :
    (nospace_parsed val).unparse.2.length = val.length + 33 := by
  rw [unparse_eq]
  have h1 : "GET".toList.length = 3 := rfl
  have h2 : "http".toList.length = 4 := rfl
  have h3 : "h".toList.length = 1 := rfl
  have h4 : "1".toList.length = 1 := rfl
  have h5 : "/".toList.length = 1 := rfl
  have h6 : "HTTP/1.1".toList.length = 8 := rfl
  have h7 : "A".toList.length = 1 := rfl
  have h8 : "1".toList ≠ [] := by decide
  simp only [nospace_parsed, lines_text, header_line, CRLF, List.map_cons, List.map_nil,
    List.flatten_cons, List.flatten_nil, List.length_append, List.length_cons, List.length_nil,
    h1, h2, h3, h4, h5, h6, h7, h8, ne_eq, not_false_eq_true, if_true]
  omega

/-- A header line without a space after the colon is parsed; its value is kept. -/
theorem parse_nospace_request (val : Str) (hcr : '\r' ∉ val) (hsp : val.head? ≠ some ' ')
    (hlen : val.length ≤ 65503) :
    ParsedRequest.fresh.parse (nospace_request val) = some (nospace_parsed val) := by
  have hlen2 := length_nospace_request val
  rw [nospace_request_eq] at hlen2 ⊢
  rw [parse_request_text ParsedRequest.fresh
    { ParsedRequest.fresh with
      buf := request_line (absolute_uri "http".toList "h".toList "1".toList "/".toList)
        "HTTP/1.1".toList,
      method := ['G', 'E', 'T'], version := "HTTP/1.1".toList, protocol := "http".toList,
      host := "h".toList, port := "1".toList, path := "/".toList }
    _ _ [] _ (by decide) (by decide) (by decide) (by decide)]
  · rfl
  · intro x hx
    simp only [List.mem_singleton] at hx
    subst hx
    refine ⟨by simp, ?_, ?_⟩
    · apply hasCRLF_of_not_mem
      simp [hcr]
    · have := parse_header_line_colon ['A'] val (by decide)
      rw [List.singleton_append] at this
      rw [this, if_neg hsp]
  · rw [hlen2]
    simp only [MAX_REQ_LEN]
    omega
  · exact parse_target_absolute _ _ _ _ _ (by decide) (by decide) (by decide) (by decide)
      (by decide) (by decide) (by decide) (by decide) (by decide)

theorem length_long_value : long_value.length = 65503 := by
  rw [long_value, List.length_replicate]

/-- C2, as stated, fails: `long_request` is parsed successfully, but the text
that `unparse` writes for the result is one byte longer, 65536 bytes, and
`parse` rejects it. -/
theorem unparse_parse_fails_on_long_request :
    ParsedRequest.fresh.parse long_request = some long_parsed ∧
    long_parsed.unparse.1 = 0 ∧
    long_request.length = 65535 ∧
    long_parsed.unparse.2.length = 65536 ∧
    ParsedRequest.fresh.parse long_parsed.unparse.2 = none := by
  have hlen : long_parsed.unparse.2.length = 65536 := by
    rw [long_parsed, length_unparse_nospace, length_long_value]
  have hcr : '\r' ∉ long_value := by
    intro hm
    have := List.eq_of_mem_replicate hm
    exact absurd this (by decide)
  have hsp : long_value.head? ≠ some ' ' := by
    rw [long_value, List.head?_replicate]
    decide
  refine ⟨parse_nospace_request long_value hcr hsp (by rw [length_long_value]), rfl, ?_, hlen, ?_⟩
  · rw [long_request, length_nospace_request, length_long_value]
  · exact parse_none_of_length _ _ (Or.inr (by omega))

/-- C10: an input shorter than 4 bytes or longer than 65535 bytes is rejected
by `parse`, whatever it contains. -/
theorem parse_rejects_bad_length (self : ParsedRequest) (input : Str)
    (h : input.length < 4 ∨ input.length > 65535) : self.parse input = none :=
  parse_none_of_length self input h

/-- A request of three bytes is rejected. -/
theorem parse_rejects_three_bytes :
    ("GET".toList.length < 4 ∨ "GET".toList.length > 65535) ∧
    ParsedRequest.fresh.parse "GET".toList = none :=
  ⟨by decide, parse_rejects_bad_length ParsedRequest.fresh "GET".toList (by decide)⟩

/-! ## The parts of a parsed target -/

theorem findAux_char_none (c : Char) : ∀ (s : Str) (i : Nat), findAux [c] s i = none → c ∉ s
  | [], _, _ => by simp
  | x :: cs, i, h => by
    rw [findAux] at h
    split at h
    · cases h
    · rename_i hp
      have hx : c ≠ x := by
        intro e
        apply hp
        rw [List.isPrefixOf_iff_prefix, e]
        exact ⟨cs, rfl⟩
      have := findAux_char_none c cs (i + 1) h
      simp [hx, this]

/-- What a successful `parse_target` has found: the target is
`protocol://authority/rest`, the authority holds no `/`, the path is `/rest`
and does not begin with `//`; the authority either holds no colon and is the
host, or it is `host:port` with a host free of colons and a port from which
`stoi` reads a non-zero value. -/
theorem parse_target_shape {self st : ParsedRequest} {fa : Str}
    (h : parse_target self fa = some st) :
    ∃ a a2 b2, fa = a ++ [':', '/', '/'] ++ (a2 ++ '/' :: b2) ∧ '/' ∉ a2 ∧
      st.protocol = a ∧ st.path = '/' :: b2 ∧ b2.head? ≠ some '/' ∧
      ((':' ∉ a2 ∧ st.host = a2 ∧ st.port = self.port) ∨
       (∃ a3 b3 n, a2 = a3 ++ ':' :: b3 ∧ ':' ∉ a3 ∧ st.host = a3 ∧ st.port = b3 ∧
          stoi b3 = some n ∧ n ≠ 0)) := by
  unfold parse_target at h
  cases hf1 : find fa [':', '/', '/'] 0 with
  | none => rw [hf1] at h; cases h
  | some pos =>
    rw [hf1] at h
    simp only at h
    obtain ⟨a, b, hfa, hpos⟩ := findAux_some _ _ _ _ (by rw [← find_zero]; exact hf1)
    simp only [Nat.zero_add] at hpos
    subst hpos
    cases hf2 : find fa ['/'] (a.length + 3) with
    | none => rw [hf2] at h; cases h
    | some ps =>
      rw [hf2] at h
      simp only at h
      have hdrop : fa.drop (a.length + 3) = b := by
        have := drop_add_of_drop_eq fa (a ++ [':', '/', '/']) b 0 (by rw [List.drop_zero, hfa])
        simpa using this
      obtain ⟨a2, b2, hb, hna, hps⟩ := findAux_char_some '/' b (a.length + 3) ps
        (by rw [← hdrop, ← find_drop _ _ _ (find_some_le hf2)]; exact hf2)
      subst hps
      have hhp : substr fa (a.length + 3) (a.length + 3 + a2.length - (a.length + 3)) = a2 := by
        simp only [substr, hdrop, Nat.add_sub_cancel_left, hb]
        exact List.take_left _ _
      have hpath : substrFrom fa (a.length + 3 + a2.length) = '/' :: b2 := by
        simp only [substrFrom]
        exact drop_add_of_drop_eq fa a2 _ _ (by rw [hdrop, hb])
      have hproto : substr fa 0 a.length = a := by
        rw [hfa]
        simp [substr]
      have hslash :
          ¬ (('/' :: b2).length ≥ 2 ∧ ('/' :: b2).get? 0 = some '/' ∧ ('/' :: b2).get? 1 = some '/')
          → b2.head? ≠ some '/' := by
        intro hc hh
        apply hc
        cases b2 with
        | nil => simp at hh
        | cons d ds =>
          simp only [List.head?_cons, Option.some.injEq] at hh
          subst hh
          simp
      simp only [hhp, hpath, hproto] at h
      cases hf3 : find a2 [':'] 0 with
      | none =>
        have hnc : ':' ∉ a2 := findAux_char_none ':' a2 0 (by rw [← find_zero]; exact hf3)
        simp only [hf3] at h
        rw [if_neg (by simp)] at h
        split at h
        · cases h
        · rename_i hc
          rw [if_neg (by simp)] at h
          simp only [Option.some.injEq] at h
          subst h
          exact ⟨a, a2, b2, by rw [hfa, hb], hna, rfl, rfl, hslash hc,
            Or.inl ⟨hnc, rfl, rfl⟩⟩
      | some cp =>
        simp only [hf3] at h
        obtain ⟨a3, b3, ha2, hna3, hcp⟩ := findAux_char_some ':' a2 0 cp
          (by rw [← find_zero]; exact hf3)
        simp only [Nat.zero_add] at hcp
        subst hcp
        have hhost : substr a2 0 a3.length = a3 := by
          rw [ha2]
          simp [substr]
        have hport : substrFrom a2 (a3.length + 1) = b3 := by
          have := drop_add_of_drop_eq a2 (a3 ++ [':']) b3 0 (by rw [List.drop_zero, ha2]; simp)
          simp only [substrFrom]
          rw [← this]
          simp
        simp only [hhost, hport] at h
        cases hst : stoi b3 with
        | none => simp [hst] at h
        | some n =>
          simp only [hst] at h
          split at h
          · simp at h
          · rename_i heq
            split at heq
            · cases heq
            · rename_i hn
              simp only [Option.some.injEq] at heq
              subst heq
              simp only at h
              rw [if_neg (by simp)] at h
              split at h
              · cases h
              · rename_i hc
                rw [if_neg (by simp)] at h
                simp only [Option.some.injEq] at h
                subst h
                exact ⟨a, a2, b2, by rw [hfa, hb], hna, rfl, rfl, hslash hc,
                  Or.inr ⟨a3, b3, n, ha2, hna3, rfl, rfl, hst, hn⟩⟩

/-- What one extraction has read: leading whitespace, then the token, which is
not empty and holds no whitespace; the rest of the stream is empty or begins
with whitespace. -/
theorem read_token_shape {s tok rest : Str} (h : read_token s = some (tok, rest)) :
    ∃ w, s = w ++ tok ++ rest ∧ (∀ c ∈ w, isspace c = true) ∧ noSpace tok ∧ tok ≠ [] ∧
      (∀ c r, rest = c :: r → isspace c = true) := by
  obtain ⟨hns, hne⟩ := read_token_some h
  unfold read_token at h
  split at h
  · cases h
  · rename_i c cs heq
    simp only [Option.some.injEq, Prod.mk.injEq] at h
    refine ⟨s.takeWhile isspace, ?_, ?_, hns, hne, ?_⟩
    · rw [List.append_assoc, ← h.1, ← h.2, List.takeWhile_append_dropWhile, ← heq,
        List.takeWhile_append_dropWhile]
    · intro x hx
      exact List.mem_takeWhile_imp hx
    · intro x r hr
      have hne2 : (c :: cs).dropWhile (fun x => !isspace x) ≠ [] := by
        rw [h.2, hr]
        simp
      have := List.head_dropWhile_not (fun x => !isspace x) (c :: cs) hne2
      simp only [h.2, hr, List.head_cons, Bool.not_eq_false'] at this
      exact this

/-- The steps of a successful `parse`, in the order of the source. -/
theorem parse_steps {self P : ParsedRequest} {input : Str} (h : self.parse input = some P) :
    ∃ header_end first_line_end iss1 fa iss2 ver iss3 st,
      4 ≤ input.length ∧ input.length ≤ 65535 ∧
      find input CRLFCRLF 0 = some header_end ∧
      find input CRLF 0 = some first_line_end ∧
      read_token (substr input 0 first_line_end) = some (['G', 'E', 'T'], iss1) ∧
      read_token iss1 = some (fa, iss2) ∧
      read_token iss2 = some (ver, iss3) ∧
      find ver ['H', 'T', 'T', 'P', '/'] 0 = some 0 ∧
      parse_target { self with buf := substr input 0 first_line_end,
                               method := ['G', 'E', 'T'], version := ver } fa = some st ∧
      parse_headers input header_end (input.length + 1) (first_line_end + 2) st.headers
        = some P.headers ∧
      P = { st with headers := P.headers } := by
  unfold ParsedRequest.parse at h
  split at h
  · cases h
  · rename_i hlen
    simp only [MIN_REQ_LEN, MAX_REQ_LEN, not_or, not_lt, gt_iff_lt] at hlen
    cases hf1 : find input CRLFCRLF 0 with
    | none => simp [hf1] at h
    | some header_end =>
      cases hf2 : find input CRLF 0 with
      | none => simp [hf1, hf2] at h
      | some first_line_end =>
        simp only [hf1, hf2] at h
        cases ht1 : read_token (substr input 0 first_line_end) with
        | none => simp [ht1] at h
        | some r1 =>
          obtain ⟨method, iss1⟩ := r1
          simp only [ht1] at h
          split at h
          · cases h
          · rename_i hm
            simp only [ne_eq, Decidable.not_not] at hm
            subst hm
            cases ht2 : read_token iss1 with
            | none => simp [ht2] at h
            | some r2 =>
              obtain ⟨fa, iss2⟩ := r2
              simp only [ht2] at h
              cases ht3 : read_token iss2 with
              | none => simp [ht3] at h
              | some r3 =>
                obtain ⟨ver, iss3⟩ := r3
                simp only [ht3] at h
                split at h
                · cases h
                · rename_i hv
                  simp only [ne_eq, Decidable.not_not] at hv
                  cases hpt : parse_target
                      { self with buf := substr input 0 first_line_end,
                                  method := ['G', 'E', 'T'], version := ver } fa with
                  | none => simp [hpt] at h
                  | some st =>
                    simp only [hpt] at h
                    cases hph : parse_headers input header_end (input.length + 1)
                        (first_line_end + 2) st.headers with
                    | none => simp [hph] at h
                    | some hs =>
                      simp only [hph, Option.some.injEq] at h
                      subst h
                      exact ⟨header_end, first_line_end, iss1, fa, iss2, ver, iss3, st,
                        by omega, by omega, rfl, rfl, ht1, ht2, ht3, hv, hpt, hph, rfl⟩

theorem prefix_of_find_zero {s pat : Str} (h : find s pat 0 = some 0) : pat <+: s := by
  obtain ⟨a, t, hab, hk⟩ := findAux_some _ _ _ _ (by rw [← find_zero]; exact h)
  have ha : a = [] := List.length_eq_zero.mp (by omega)
  subst ha
  exact ⟨t, by simpa using hab.symm⟩

/-- The analysis of a target `s://a/b` whose authority `a` holds no `/`. -/
theorem parse_target_split (self : ParsedRequest) (s a b : Str)
    (hs : ¬ [':', '/', '/'] <:+: s) (ha : '/' ∉ a) :
    parse_target self (s ++ ':' :: '/' :: '/' :: (a ++ '/' :: b))
      = (parse_authority { self with protocol := s } a).bind
          (fun x => if b.head? = some '/' then none else some { x with path := '/' :: b }) := by
  generalize hfa : s ++ ':' :: '/' :: '/' :: (a ++ '/' :: b) = fa
  have hfa2 : fa = s ++ ':' :: '/' :: '/' :: (a ++ '/' :: b) := hfa.symm
  have hfind1 : find fa [':', '/', '/'] 0 = some s.length := by
    rw [find_zero, hfa2, findAux_skip _ s _ 0 (fun j hj => no_sep_in_scheme s _ j hs hj),
      findAux_hit _ _ _ _ ⟨_, rfl⟩]
    simp
  have hproto : substr fa 0 s.length = s := by
    rw [hfa2]
    simp [substr]
  have hdrop : fa.drop (s.length + 3) = a ++ '/' :: b := by
    have := drop_add_of_drop_eq fa (s ++ [':', '/', '/']) (a ++ '/' :: b) 0
      (by rw [List.drop_zero, hfa2]; simp)
    simpa using this
  have hlen : fa.length = s.length + 3 + a.length + (1 + b.length) := by
    rw [hfa2]
    simp only [List.length_append, List.length_cons]
    omega
  have hfind2 : find fa ['/'] (s.length + 3) = some (s.length + 3 + a.length) := by
    rw [find_drop _ _ _ (by omega), hdrop, findAux_char _ _ _ _ ha]
  have hhp : substr fa (s.length + 3) (s.length + 3 + a.length - (s.length + 3)) = a := by
    simp only [substr, hdrop, Nat.add_sub_cancel_left]
    exact List.take_left _ _
  have hpath : substrFrom fa (s.length + 3 + a.length) = '/' :: b := by
    simp only [substrFrom]
    exact drop_add_of_drop_eq fa a ('/' :: b) (s.length + 3) hdrop
  have hifs : ∀ x : ParsedRequest,
      (if ('/' :: b) = [] then some { x with path := root_abs_path }
       else if ('/' :: b).length ≥ 2 ∧ ('/' :: b).get? 0 = some '/' ∧ ('/' :: b).get? 1 = some '/'
         then none
       else if ('/' :: b).get? 0 ≠ some '/' then some { x with path := '/' :: '/' :: b }
       else some { x with path := '/' :: b })
      = (if b.head? = some '/' then none else some { x with path := '/' :: b }) := by
    intro x
    cases b with
    | nil => simp
    | cons d ds =>
      by_cases hd : d = '/'
      · simp [hd]
      · simp [hd]
  simp only [parse_target, hfind1, hfind2, hproto, hhp, hpath, hifs, parse_authority]
  cases find a [':'] 0 with
  | none => rfl
  | some cp =>
    simp only
    cases stoi (substrFrom a (cp + 1)) with
    | none => rfl
    | some n =>
      simp only
      by_cases hn : n = 0
      · simp [hn]
      · simp [hn]

/-- When the analysis of the target fails, `parse` fails. -/
theorem parse_none_of_target_none (self : ParsedRequest) (fa ver rest : Str)
    (hfa : noSpace fa) (hfa0 : fa ≠ []) (hver : noSpace ver) (hver0 : ver ≠ [])
    (ht : ∀ x : ParsedRequest, parse_target x fa = none) :
    self.parse (request_line fa ver ++ '\r' :: '\n' :: rest) = none := by
  have hline := hasCRLF_request_line fa ver hfa hver
  generalize hin : request_line fa ver ++ '\r' :: '\n' :: rest = input
  have hfind2 : find input CRLF 0 = some (request_line fa ver).length := by
    rw [find_zero, ← hin, findAux_crlf_line _ _ _ hline]
    simp
  have hbuf : substr input 0 (request_line fa ver).length = request_line fa ver := by
    rw [← hin]
    simp [substr]
  have htok1 : read_token (request_line fa ver)
      = some (['G', 'E', 'T'], ' ' :: (fa ++ ' ' :: ver)) :=
    read_token_sep ['G', 'E', 'T'] (fa ++ ' ' :: ver) (by decide) (by simp)
  have htok2 : read_token (' ' :: (fa ++ ' ' :: ver)) = some (fa, ' ' :: ver) := by
    rw [read_token_space]
    exact read_token_sep fa ver hfa hfa0
  obtain ⟨r3, htok3⟩ := read_token_end ver hver hver0
  have htok3 : read_token (' ' :: ver) = some (ver, r3) := by
    rw [read_token_space]
    exact htok3
  unfold ParsedRequest.parse
  split
  · rfl
  · cases find input CRLFCRLF 0 with
    | none => rfl
    | some he =>
      simp only [hfind2, hbuf, htok1, htok2, htok3, ne_eq, not_true_eq_false, if_false, ht]
      split <;> rfl

/-- The three tokens that a successful `parse` has read from the first line. -/
theorem parse_tokens {self P : ParsedRequest} {input : Str} (h : self.parse input = some P) :
    ∃ fa ver st, line_token 0 input = some ['G', 'E', 'T'] ∧ line_token 1 input = some fa ∧
      line_token 2 input = some ver ∧ ['H', 'T', 'T', 'P', '/'] <+: ver ∧
      noSpace fa ∧
      parse_target { self with buf := (first_line input).getD [],
                               method := ['G', 'E', 'T'], version := ver } fa = some st ∧
      P = { st with headers := P.headers } := by
  obtain ⟨he, fle, iss1, fa, iss2, ver, iss3, st, _, _, _, hf2, ht1, ht2, ht3, hv, hpt, _, hP⟩ :=
    parse_steps h
  refine ⟨fa, ver, st, ?_, ?_, ?_, prefix_of_find_zero hv, (read_token_some ht2).1, ?_, hP⟩
  · simp [line_token, first_line, hf2, nth_token, ht1]
  · simp [line_token, first_line, hf2, nth_token, ht1, ht2]
  · simp [line_token, first_line, hf2, nth_token, ht1, ht2, ht3]
  · simpa [first_line, hf2] using hpt

/-- A value read by `stoi` is an `int`. -/
theorem stoi_range {s : Str} {n : Int} (h : stoi s = some n) : INT_MIN ≤ n ∧ n ≤ INT_MAX := by
  unfold stoi at h
  simp only at h
  split at h
  · cases h
  · rw [Option.ite_none_right_eq_some] at h
    simp only [Option.some.injEq] at h
    rw [← h.2]
    exact h.1

/-- The parts of the target of a successfully parsed request. -/
theorem parse_parts {self P : ParsedRequest} {input : Str} (h : self.parse input = some P) :
    ∃ authority b2,
      line_token 1 input = some (P.protocol ++ ':' :: '/' :: '/' :: (authority ++ P.path)) ∧
      '/' ∉ authority ∧ noSpace authority ∧ P.path = '/' :: b2 ∧ b2.head? ≠ some '/' ∧
      ((':' ∉ authority ∧ P.host = authority ∧ P.port = self.port) ∨
       (authority = P.host ++ ':' :: P.port ∧ ':' ∉ P.host ∧
          ∃ n, stoi P.port = some n ∧ n ≠ 0)) := by
  obtain ⟨fa, ver, st, _, h1, _, _, hns, hpt, hP⟩ := parse_tokens h
  obtain ⟨a, a2, b2, hfa, hsl, hproto, hpath, hb2, hauth⟩ := parse_target_shape hpt
  have e1 : P.protocol = st.protocol := by rw [hP]
  have e2 : P.path = st.path := by rw [hP]
  have e3 : P.host = st.host := by rw [hP]
  have e4 : P.port = st.port := by rw [hP]
  refine ⟨a2, b2, ?_, hsl, ?_, by rw [e2, hpath], hb2, ?_⟩
  · rw [h1, e1, e2, hproto, hpath, hfa]
    simp
  · intro c hc
    apply hns c
    rw [hfa]
    simp [hc]
  · rcases hauth with ⟨hc, hh, hp⟩ | ⟨a3, b3, n, ha2, hc, hh, hp, hn, hn0⟩
    · exact Or.inl ⟨hc, by rw [e3, hh], by rw [e4, hp]⟩
    · exact Or.inr ⟨by rw [e3, e4, hh, hp, ha2], by rw [e3, hh]; exact hc,
        n, by rw [e4, hp]; exact hn, hn0⟩

/-- A request whose target is rejected by `parse_target` is rejected by `parse`. -/
theorem parse_none_of_line_token (self : ParsedRequest) (input fa : Str)
    (h1 : line_token 1 input = some fa) (ht : ∀ x : ParsedRequest, parse_target x fa = none) :
    self.parse input = none := by
  cases hp : self.parse input with
  | none => rfl
  | some P =>
    exfalso
    obtain ⟨fa2, ver, st, _, h1b, _, _, _, hpt, _⟩ := parse_tokens hp
    rw [h1] at h1b
    simp only [Option.some.injEq] at h1b
    subst h1b
    rw [ht] at hpt
    cases hpt

/-- C16: when `parse` returns 0 the method is exactly `GET` and the version
begins with `HTTP/`; an input whose first token is another method, or whose
third token does not begin with `HTTP/`, makes `parse` return -1. -/
theorem parse_method_version_gate (self : ParsedRequest) (input : Str) :
    (∀ P, self.parse input = some P →
        P.method = ['G', 'E', 'T'] ∧ ['H', 'T', 'T', 'P', '/'] <+: P.version) ∧
    (∀ m, line_token 0 input = some m → m ≠ ['G', 'E', 'T'] → self.parse input = none) ∧
    (∀ v, line_token 2 input = some v → ¬ ['H', 'T', 'T', 'P', '/'] <+: v →
        self.parse input = none) := by
  refine ⟨?_, ?_, ?_⟩
  · intro P h
    obtain ⟨fa, ver, st, _, _, _, hv, _, hpt, hP⟩ := parse_tokens h
    obtain ⟨_, hm, hver, _, _⟩ := parse_target_some hpt
    have e1 : P.method = st.method := by rw [hP]
    have e2 : P.version = st.version := by rw [hP]
    rw [e1, e2, hm, hver]
    exact ⟨rfl, hv⟩
  · intro m h0 hne
    cases hp : self.parse input with
    | none => rfl
    | some P =>
      exfalso
      obtain ⟨fa, ver, st, h0b, _⟩ := parse_tokens hp
      rw [h0] at h0b
      simp only [Option.some.injEq] at h0b
      exact hne h0b
  · intro v h2 hne
    cases hp : self.parse input with
    | none => rfl
    | some P =>
      exfalso
      obtain ⟨fa, ver, st, _, _, h2b, hv, _⟩ := parse_tokens hp
      rw [h2] at h2b
      simp only [Option.some.injEq] at h2b
      rw [h2b] at hne
      exact hne hv

/-- The gate on the request of `main`, on a POST request and on a request with
the version `FTP/1.1`. -/
theorem parse_method_version_gate_main :
    (main_parsed.method = ['G', 'E', 'T'] ∧ ['H', 'T', 'T', 'P', '/'] <+: main_parsed.version) ∧
    (line_token 0 post_request = some ['P', 'O', 'S', 'T'] ∧
      ParsedRequest.fresh.parse post_request = none) ∧
    (line_token 2 ftp_version_request = some ['F', 'T', 'P', '/', '1', '.', '1'] ∧
      ParsedRequest.fresh.parse ftp_version_request = none) :=
  ⟨(parse_method_version_gate ParsedRequest.fresh main_request).1 main_parsed parse_main_request,
   ⟨by decide, (parse_method_version_gate ParsedRequest.fresh post_request).2.1
      ['P', 'O', 'S', 'T'] (by decide) (by decide)⟩,
   ⟨by decide, (parse_method_version_gate ParsedRequest.fresh ftp_version_request).2.2
      ['F', 'T', 'P', '/', '1', '.', '1'] (by decide) (by decide)⟩⟩

/-- C14: when `parse` returns 0 the path is not empty, begins with `/` and
does not begin with `//`; a target whose path part, from the first `/` after
`://`, begins with `//` makes `parse` return -1. -/
theorem parse_path_invariant (self : ParsedRequest) (input : Str) :
    (∀ P, self.parse input = some P →
        P.path ≠ [] ∧ ['/'] <+: P.path ∧ ¬ ['/', '/'] <+: P.path) ∧
    (∀ s a r, line_token 1 input = some (s ++ ':' :: '/' :: '/' :: (a ++ '/' :: '/' :: r)) →
        ¬ [':', '/', '/'] <:+: s → '/' ∉ a → self.parse input = none) := by
  refine ⟨?_, ?_⟩
  · intro P h
    obtain ⟨authority, b2, _, _, _, hpath, hb2, _⟩ := parse_parts h
    rw [hpath]
    refine ⟨by simp, ⟨b2, rfl⟩, ?_⟩
    rintro ⟨t, ht⟩
    apply hb2
    cases b2 with
    | nil => simp at ht
    | cons c cs =>
      simp only [List.cons_append, List.cons.injEq, true_and, List.nil_append] at ht
      simp [← ht.1]
  · intro s a r h1 hs ha
    apply parse_none_of_line_token self input _ h1
    intro x
    rw [parse_target_split x s a ('/' :: r) hs ha]
    cases parse_authority { x with protocol := s } a with
    | none => rfl
    | some y => simp

/-- The path of the request of `main`, and a request with the path `//foo`. -/
theorem parse_path_invariant_main :
    (main_parsed.path ≠ [] ∧ ['/'] <+: main_parsed.path ∧ ¬ ['/', '/'] <+: main_parsed.path) ∧
    line_token 1 double_slash_request
      = some (['h', 't', 't', 'p'] ++ ':' :: '/' :: '/' :: (['h'] ++ '/' :: '/' :: ['f', 'o', 'o'])) ∧
    ParsedRequest.fresh.parse double_slash_request = none :=
  ⟨(parse_path_invariant ParsedRequest.fresh main_request).1 main_parsed parse_main_request,
   by decide,
   (parse_path_invariant ParsedRequest.fresh double_slash_request).2
      ['h', 't', 't', 'p'] ['h'] ['f', 'o', 'o'] (by decide) (by decide) (by decide)⟩

/-- C13 as stated fails: the targets `http:///x` and `http://:80/x` are parsed,
and the host of the result is empty. -/
theorem parse_accepts_empty_host :
    Option.map ParsedRequest.host (ParsedRequest.fresh.parse empty_authority_request) = some [] ∧
    Option.map ParsedRequest.host (ParsedRequest.fresh.parse port_only_request) = some [] := by
  decide

/-- C13 (amended): when `parse` returns 0 the host is the part of the authority
(the text between `://` and the next `/`) before its first colon, the whole
authority when it holds none; it holds no colon, no slash and no whitespace,
and nothing requires it to be non-empty. -/
theorem parse_host_shape (self P : ParsedRequest) (input : Str)
    (h : self.parse input = some P) :
    ∃ authority,
      line_token 1 input = some (P.protocol ++ ':' :: '/' :: '/' :: (authority ++ P.path)) ∧
      '/' ∉ authority ∧ ['/'] <+: P.path ∧
      ((':' ∉ authority ∧ authority = P.host) ∨ (∃ p, authority = P.host ++ ':' :: p)) ∧
      ':' ∉ P.host ∧ '/' ∉ P.host ∧ noSpace P.host := by
  obtain ⟨authority, b2, h1, hsl, hns, hpath, _, hauth⟩ := parse_parts h
  refine ⟨authority, h1, hsl, ⟨b2, hpath.symm⟩, ?_⟩
  rcases hauth with ⟨hc, hh, _⟩ | ⟨ha, hc, _⟩
  · rw [hh]
    exact ⟨Or.inl ⟨hc, rfl⟩, hc, hsl, hns⟩
  · refine ⟨Or.inr ⟨P.port, ha⟩, hc, ?_, ?_⟩
    · intro hm
      apply hsl
      rw [ha]
      simp [hm]
    · intro c hm
      apply hns c
      rw [ha]
      simp [hm]

/-- The host of the request of `main`. -/
theorem parse_host_shape_main :
    ParsedRequest.fresh.parse main_request = some main_parsed ∧
    ∃ authority,
      line_token 1 main_request
        = some (main_parsed.protocol ++ ':' :: '/' :: '/' :: (authority ++ main_parsed.path)) ∧
      '/' ∉ authority ∧ ['/'] <+: main_parsed.path ∧
      ((':' ∉ authority ∧ authority = main_parsed.host) ∨
        (∃ p, authority = main_parsed.host ++ ':' :: p)) ∧
      ':' ∉ main_parsed.host ∧ '/' ∉ main_parsed.host ∧ noSpace main_parsed.host :=
  ⟨parse_main_request,
   parse_host_shape ParsedRequest.fresh main_parsed main_request parse_main_request⟩

/-- C12 as stated fails: the ports 70000, -5 and `80abc` are accepted and
stored as they are written. -/
theorem parse_accepts_bad_ports :
    Option.map ParsedRequest.port (ParsedRequest.fresh.parse port_70000_request)
      = some ['7', '0', '0', '0', '0'] ∧
    Option.map ParsedRequest.port (ParsedRequest.fresh.parse port_negative_request)
      = some ['-', '5'] ∧
    Option.map ParsedRequest.port (ParsedRequest.fresh.parse port_80abc_request)
      = some ['8', '0', 'a', 'b', 'c'] := by
  decide

/-- C12 (amended): when `parse` returns 0 and the authority holds a colon, the
port is the text after the first colon of the authority and `std::stoi` reads
a non-zero `int` from it; a target `s://h:p/...` from whose port text `p`
`std::stoi` reads nothing (it throws) or reads 0 makes `parse` return -1. -/
theorem parse_port_checked (self : ParsedRequest) (input : Str) :
    (∀ P, self.parse input = some P →
      ∃ authority,
        line_token 1 input = some (P.protocol ++ ':' :: '/' :: '/' :: (authority ++ P.path)) ∧
        '/' ∉ authority ∧ ['/'] <+: P.path ∧
        (':' ∈ authority →
          authority = P.host ++ ':' :: P.port ∧ ':' ∉ P.host ∧
          ∃ n, stoi P.port = some n ∧ n ≠ 0 ∧ -2147483648 ≤ n ∧ n ≤ 2147483647)) ∧
    (∀ s h p b, line_token 1 input = some (absolute_uri s h p ('/' :: b)) →
      ¬ [':', '/', '/'] <:+: s → ':' ∉ h → '/' ∉ h → '/' ∉ p →
      stoi p = none ∨ stoi p = some 0 → self.parse input = none) := by
  refine ⟨?_, ?_⟩
  · intro P hP
    obtain ⟨authority, b2, h1, hsl, _, hpath, _, hauth⟩ := parse_parts hP
    refine ⟨authority, h1, hsl, ⟨b2, hpath.symm⟩, ?_⟩
    intro hc
    rcases hauth with ⟨hnc, _, _⟩ | ⟨ha, hh, n, hn, hn0⟩
    · exact absurd hc hnc
    · exact ⟨ha, hh, n, hn, hn0, stoi_range hn⟩
  · intro s h p b h1 hs hch hsh hsp hst
    apply parse_none_of_line_token self input _ h1
    intro x
    have e : absolute_uri s h p ('/' :: b)
        = s ++ ':' :: '/' :: '/' :: ((h ++ ':' :: p) ++ '/' :: b) := by
      simp [absolute_uri]
    have hsl : '/' ∉ h ++ ':' :: p := by
      simp [hsh, hsp]
    rw [e, parse_target_split x s (h ++ ':' :: p) b hs hsl]
    have hf : find (h ++ ':' :: p) [':'] 0 = some h.length := by
      rw [find_zero, findAux_char _ _ _ _ hch]
      simp
    have hport : substrFrom (h ++ ':' :: p) (h.length + 1) = p := by
      simp [substrFrom]
    have ha : parse_authority { x with protocol := s } (h ++ ':' :: p) = none := by
      simp only [parse_authority, hf, hport]
      rcases hst with h0 | h0
      · rw [h0]
      · rw [h0]
        simp
    rw [ha]
    rfl

/-- The port of the request of `main`, and a request with the port 0. -/
theorem parse_port_checked_main :
    (∃ authority,
        line_token 1 main_request
          = some (main_parsed.protocol ++ ':' :: '/' :: '/' :: (authority ++ main_parsed.path)) ∧
        '/' ∉ authority ∧ ['/'] <+: main_parsed.path ∧
        (':' ∈ authority →
          authority = main_parsed.host ++ ':' :: main_parsed.port ∧ ':' ∉ main_parsed.host ∧
          ∃ n, stoi main_parsed.port = some n ∧ n ≠ 0 ∧ -2147483648 ≤ n ∧ n ≤ 2147483647)) ∧
    line_token 1 port_zero_request = some (absolute_uri ['h', 't', 't', 'p'] ['h'] ['0'] ['/']) ∧
    stoi ['0'] = some 0 ∧
    ParsedRequest.fresh.parse port_zero_request = none :=
  ⟨(parse_port_checked ParsedRequest.fresh main_request).1 main_parsed parse_main_request,
   by decide, by decide,
   (parse_port_checked ParsedRequest.fresh port_zero_request).2 ['h', 't', 't', 'p'] ['h'] ['0'] []
     (by decide) (by decide) (by decide) (by decide) (by decide) (Or.inr (by decide))⟩

/-- An extraction from a stream that is at a whitespace character has skipped
a non-empty run of whitespace. -/
theorem read_token_gap {s tok rest : Str} (h : read_token s = some (tok, rest))
    (hs : ∀ c r, s = c :: r → isspace c = true) :
    ∃ w, w ≠ [] ∧ s = w ++ tok ++ rest ∧ (∀ c ∈ w, isspace c = true) ∧ noSpace tok ∧ tok ≠ [] ∧
      (∀ c r, rest = c :: r → isspace c = true) := by
  obtain ⟨w, hw, hsp, hns, hne, hrest⟩ := read_token_shape h
  refine ⟨w, ?_, hw, hsp, hns, hne, hrest⟩
  intro hnil
  subst hnil
  cases tok with
  | nil => exact hne rfl
  | cons c cs =>
    have h1 := hs c (cs ++ rest) (by rw [hw]; rfl)
    have h2 := hns c (by simp)
    rw [h1] at h2
    cases h2

/-- The converse of `parse_steps`: `parse` succeeds as soon as the length is
within the limits, the header block ends, the first three tokens of the first
line are `GET`, a target that `parse_target` accepts and a version that begins
with `HTTP/`, and the header loop succeeds. Nothing is asked of the text that
follows the third token. -/
theorem parse_of_tokens (self st : ParsedRequest) (input target version : Str)
    (header_end first_line_end : Nat) (headers : List ParsedHeader)
    (h4 : 4 ≤ input.length) (hmax : input.length ≤ 65535)
    (he : find input CRLFCRLF 0 = some header_end)
    (hf : find input CRLF 0 = some first_line_end)
    (h0 : line_token 0 input = some ['G', 'E', 'T'])
    (h1 : line_token 1 input = some target)
    (h2 : line_token 2 input = some version)
    (hv : find version ['H', 'T', 'T', 'P', '/'] 0 = some 0)
    (ht : parse_target { self with buf := substr input 0 first_line_end,
                                   method := ['G', 'E', 'T'], version := version } target
            = some st)
    (hh : parse_headers input header_end (input.length + 1) (first_line_end + 2) st.headers
            = some headers) :
    self.parse input = some { st with headers := headers } := by
  simp only [line_token, first_line, hf, Option.map_some', Option.some_bind, nth_token] at h0 h1 h2
  cases ht1 : read_token (substr input 0 first_line_end) with
  | none => rw [ht1] at h0; cases h0
  | some r1 =>
    obtain ⟨m, iss1⟩ := r1
    rw [ht1] at h0 h1 h2
    simp only [Option.map_some', Option.some.injEq, Option.some_bind] at h0 h1 h2
    subst h0
    cases ht2 : read_token iss1 with
    | none => rw [ht2] at h1; cases h1
    | some r2 =>
      obtain ⟨fa, iss2⟩ := r2
      rw [ht2] at h1 h2
      simp only [Option.map_some', Option.some.injEq, Option.some_bind] at h1 h2
      subst h1
      cases ht3 : read_token iss2 with
      | none => rw [ht3] at h2; cases h2
      | some r3 =>
        obtain ⟨ver, iss3⟩ := r3
        rw [ht3] at h2
        simp only [Option.map_some', Option.some.injEq] at h2
        subst h2
        unfold ParsedRequest.parse
        rw [if_neg (by simp only [MIN_REQ_LEN, MAX_REQ_LEN]; omega)]
        simp only [he, hf, ht1, ht2, ht3, ne_eq, not_true_eq_false, if_false, hv, ht, hh]

/-- C11 as stated fails: a request line with a fourth token is parsed, and so
is one whose tokens are separated by a tab and by two spaces. -/
theorem parse_accepts_loose_request_line :
    line_token 3 four_token_request = some ['e', 'x', 't', 'r', 'a'] ∧
    (ParsedRequest.fresh.parse four_token_request).isSome = true ∧
    first_line tab_request = some "GET\thttp://h/  HTTP/1.1".toList ∧
    (ParsedRequest.fresh.parse tab_request).isSome = true := by
  decide

/-- C11 (amended): `parse` reads the first line by stream extraction. When it
returns 0, the first line is: optional whitespace, `GET`, a non-empty run of
whitespace, the target, a non-empty run of whitespace, the version, and a rest
that is empty or begins with whitespace; the target and the version are not
empty and hold no whitespace. What follows the version is not read and does
not make `parse` fail: `parse` returns 0 whenever the length is within the
limits, the header block ends, the first three tokens are `GET`, a target that
lines 86 to 116 accept and a version that begins with `HTTP/`, and the header
loop succeeds, and the fields of the result are those that the target and the
headers give. -/
theorem parse_request_line_shape (self : ParsedRequest) (input : Str) :
    (∀ P, self.parse input = some P →
      ∃ w0 w1 target w2 rest,
        first_line input = some (w0 ++ P.method ++ w1 ++ target ++ w2 ++ P.version ++ rest) ∧
        line_token 1 input = some target ∧
        P.method = ['G', 'E', 'T'] ∧
        (∀ c ∈ w0, isspace c = true) ∧
        w1 ≠ [] ∧ (∀ c ∈ w1, isspace c = true) ∧
        noSpace target ∧ target ≠ [] ∧
        w2 ≠ [] ∧ (∀ c ∈ w2, isspace c = true) ∧
        noSpace P.version ∧ P.version ≠ [] ∧
        (∀ c r, rest = c :: r → isspace c = true)) ∧
    (∀ (st : ParsedRequest) (target version : Str) (header_end first_line_end : Nat)
        (headers : List ParsedHeader),
      4 ≤ input.length → input.length ≤ 65535 →
      find input CRLFCRLF 0 = some header_end →
      find input CRLF 0 = some first_line_end →
      line_token 0 input = some ['G', 'E', 'T'] →
      line_token 1 input = some target →
      line_token 2 input = some version →
      find version ['H', 'T', 'T', 'P', '/'] 0 = some 0 →
      parse_target { self with buf := substr input 0 first_line_end,
                               method := ['G', 'E', 'T'], version := version } target
        = some st →
      parse_headers input header_end (input.length + 1) (first_line_end + 2) st.headers
        = some headers →
      self.parse input = some { st with headers := headers }) := by
  refine ⟨fun P h => ?_, fun st target version header_end first_line_end headers h4 hmax he hf
    h0 h1 h2 hv ht hh =>
      parse_of_tokens self st input target version header_end first_line_end headers h4 hmax
        he hf h0 h1 h2 hv ht hh⟩
  obtain ⟨he, fle, iss1, fa, iss2, ver, iss3, st, _, _, _, hf2, ht1, ht2, ht3, _, hpt, _, hP⟩ :=
    parse_steps h
  obtain ⟨_, hm, hver, _, _⟩ := parse_target_some hpt
  have e1 : P.method = ['G', 'E', 'T'] := by rw [hP]; exact hm
  have e2 : P.version = ver := by rw [hP]; exact hver
  obtain ⟨w0, hw0, hsp0, _, _, hr0⟩ := read_token_shape ht1
  obtain ⟨w1, hne1, hw1, hsp1, hns1, hfa, hr1⟩ := read_token_gap ht2 hr0
  obtain ⟨w2, hne2, hw2, hsp2, hns2, hv, hr2⟩ := read_token_gap ht3 hr1
  refine ⟨w0, w1, fa, w2, iss3, ?_, ?_, e1, hsp0, hne1, hsp1, hns1, hfa, hne2, hsp2, ?_, ?_, hr2⟩
  · rw [first_line, hf2, Option.map_some', hw0, hw1, hw2, e1, e2]
    simp
  · simp [line_token, first_line, hf2, nth_token, ht1, ht2]
  · rw [e2]; exact hns2
  · rw [e2]; exact hv

/-- The first line of the request of `main`, and a request whose first line
has a fourth token: it is parsed, and the fourth token is in no field but
`buf`. -/
theorem parse_request_line_shape_main :
    ParsedRequest.fresh.parse main_request = some main_parsed ∧
    (∃ w0 w1 target w2 rest,
      first_line main_request
        = some (w0 ++ main_parsed.method ++ w1 ++ target ++ w2 ++ main_parsed.version ++ rest) ∧
      line_token 1 main_request = some target ∧
      main_parsed.method = ['G', 'E', 'T'] ∧
      (∀ c ∈ w0, isspace c = true) ∧
      w1 ≠ [] ∧ (∀ c ∈ w1, isspace c = true) ∧
      noSpace target ∧ target ≠ [] ∧
      w2 ≠ [] ∧ (∀ c ∈ w2, isspace c = true) ∧
      noSpace main_parsed.version ∧ main_parsed.version ≠ [] ∧
      (∀ c r, rest = c :: r → isspace c = true)) ∧
    line_token 3 four_token_request = some ['e', 'x', 't', 'r', 'a'] ∧
    ParsedRequest.fresh.parse four_token_request
      = some four_token_parsed :=
  ⟨parse_main_request,
   (parse_request_line_shape ParsedRequest.fresh main_request).1 main_parsed parse_main_request,
   by decide,
   (parse_request_line_shape ParsedRequest.fresh four_token_request).2 four_token_parsed
     "http://h/".toList "HTTP/1.1".toList 28 28 [] (by decide) (by decide) (by decide)
     (by decide) (by decide) (by decide) (by decide) (by decide) (by decide) (by decide)⟩

/-! ## The header block and its lines -/

theorem crlf_lines_head_tail : ∀ (b : Str),
    crlf_lines b = (crlf_lines b).headD [] :: (crlf_lines b).tail
  | [] => rfl
  | [_] => rfl
  | c :: d :: rest => by
    rw [crlf_lines]
    split <;> rfl

/-- The first piece is empty only for the empty text and for a text that
begins with CR LF. -/
theorem crlf_lines_head_nil : ∀ (b : Str), (crlf_lines b).headD [] = [] →
    b = [] ∨ CRLF <+: b
  | [], _ => Or.inl rfl
  | [c], h => by simp [crlf_lines] at h
  | c :: d :: rest, h => by
    rw [crlf_lines] at h
    split at h
    · rename_i hc
      right
      rw [hc.1, hc.2]
      exact ⟨rest, rfl⟩
    · simp at h

/-- A non-empty first piece begins with the first character of the text. -/
theorem crlf_lines_head_first : ∀ (b : Str) (d x : Char) (xs : Str),
    (crlf_lines (d :: b)).headD [] = x :: xs → x = d
  | [], d, x, xs, h => by
    simp only [crlf_lines, List.headD_cons, List.cons.injEq] at h
    exact h.1.symm
  | e :: r, d, x, xs, h => by
    rw [crlf_lines] at h
    split at h
    · simp at h
    · simp only [List.headD_cons, List.cons.injEq] at h
      exact h.1.symm

/-- The pieces, each followed by CR LF, give back the text followed by CR LF. -/
theorem lines_text_crlf_lines : ∀ (b : Str), lines_text (crlf_lines b) = b ++ CRLF
  | [] => rfl
  | [_] => rfl
  | c :: d :: rest => by
    rw [crlf_lines]
    split
    · rename_i hc
      rw [lines_text_cons, lines_text_crlf_lines rest, hc.1, hc.2]
      rfl
    · rw [lines_text_cons, List.cons_append, ← lines_text_cons,
        ← crlf_lines_head_tail, lines_text_crlf_lines (d :: rest)]
      rfl

/-- No piece holds CR LF. -/
theorem hasCRLF_crlf_lines : ∀ (b : Str), ∀ l ∈ crlf_lines b, hasCRLF l = false
  | [], l, hl => by
    simp only [crlf_lines, List.mem_singleton] at hl
    rw [hl]
    rfl
  | [c], l, hl => by
    simp only [crlf_lines, List.mem_singleton] at hl
    rw [hl]
    rfl
  | c :: d :: rest, l, hl => by
    rw [crlf_lines] at hl
    split at hl
    · rcases List.mem_cons.mp hl with h | h
      · rw [h]; rfl
      · exact hasCRLF_crlf_lines rest l h
    · rename_i hc
      have ih := hasCRLF_crlf_lines (d :: rest)
      rcases List.mem_cons.mp hl with h | h
      · have ihh := ih ((crlf_lines (d :: rest)).headD []) (by
          rw [crlf_lines_head_tail (d :: rest)]
          simp)
        rw [h]
        cases hh : (crlf_lines (d :: rest)).headD [] with
        | nil => rfl
        | cons x xs =>
          have hx := crlf_lines_head_first rest d x xs hh
          rw [hasCRLF_cons_cons, ← hh, ihh, hx]
          simp only [Bool.or_false, Bool.and_eq_false_imp, decide_eq_true_eq,
            decide_eq_false_iff_not]
          intro h1 h2
          exact hc ⟨h1, h2⟩
      · exact ih l (by rw [crlf_lines_head_tail (d :: rest)]; exact List.mem_cons_of_mem _ h)

/-- In a text that is followed by CR LF and in which no CR LF CR LF starts,
every piece after the first is non-empty. -/
theorem crlf_lines_tail_ne_nil : ∀ (b t : Str),
    (∀ j, j < b.length → ¬ CRLFCRLF <+: (b ++ '\r' :: '\n' :: t).drop j) →
    ∀ l ∈ (crlf_lines b).tail, l ≠ []
  | [], _, _, l, hl => by simp [crlf_lines] at hl
  | [c], _, _, l, hl => by simp [crlf_lines] at hl
  | c :: d :: rest, t, hno, l, hl => by
    rw [crlf_lines] at hl
    split at hl
    · rename_i hc
      simp only [List.tail_cons] at hl
      rw [crlf_lines_head_tail rest] at hl
      rcases List.mem_cons.mp hl with h | h
      · intro hnil
        rw [hnil] at h
        have h0 := hno 0 (by simp)
        apply h0
        rw [List.drop_zero, hc.1, hc.2]
        rcases crlf_lines_head_nil rest h.symm with hr | hr
        · rw [hr]
          exact ⟨t, rfl⟩
        · obtain ⟨u, hu⟩ := hr
          rw [← hu]
          exact ⟨u ++ '\r' :: '\n' :: t, by simp [CRLF, CRLFCRLF]⟩
      · exact crlf_lines_tail_ne_nil rest t (fun j hj => by
          have := hno (j + 2) (by simp only [List.length_cons]; omega)
          simpa using this) l h
    · simp only [List.tail_cons] at hl
      exact crlf_lines_tail_ne_nil (d :: rest) t (fun j hj => by
        have := hno (j + 1) (by simp only [List.length_cons] at hj ⊢; omega)
        simpa using this) l hl

/-- The position found is the first one: the pattern starts nowhere before it. -/
theorem findAux_first (pat : Str) : ∀ (s : Str) (i k : Nat), findAux pat s i = some k →
    ∀ j, i + j < k → ¬ pat <+: s.drop j
  | [], i, k, h, j, hj => by
    rw [findAux] at h
    split at h
    · simp only [Option.some.injEq] at h
      omega
    · cases h
  | c :: cs, i, k, h, j, hj => by
    rw [findAux] at h
    split at h
    · simp only [Option.some.injEq] at h
      omega
    · rename_i hp
      cases j with
      | zero =>
        rw [List.drop_zero]
        intro hpre
        exact hp (List.isPrefixOf_iff_prefix.mpr hpre)
      | succ j =>
        rw [List.drop_succ_cons]
        exact findAux_first pat cs (i + 1) k h j (by omega)

/-- The position found holds the pattern. -/
theorem findAux_drop (pat : Str) {s : Str} {k : Nat} (h : findAux pat s 0 = some k) :
    ∃ b, s.drop k = pat ++ b := by
  obtain ⟨a, b, hab, hk⟩ := findAux_some pat s 0 k h
  refine ⟨b, ?_⟩
  rw [hab, hk, Nat.zero_add, List.append_assoc, List.drop_left]

/-- A text that holds `c` splits at the first `c`. -/
theorem split_at_first (c : Char) : ∀ (s : Str), c ∈ s → ∃ k r, s = k ++ c :: r ∧ c ∉ k
  | [], h => by simp at h
  | x :: xs, h => by
    by_cases hx : x = c
    · exact ⟨[], xs, by rw [hx]; rfl, by simp⟩
    · have hm : c ∈ xs := by
        rcases List.mem_cons.mp h with e | e
        · exact absurd e.symm hx
        · exact e
      obtain ⟨k, r, hs, hk⟩ := split_at_first c xs hm
      refine ⟨x :: k, r, by rw [hs]; rfl, ?_⟩
      intro hmem
      rcases List.mem_cons.mp hmem with e | e
      · exact hx e.symm
      · exact hk e

theorem findAux_char_absent (c : Char) : ∀ (s : Str) (i : Nat), c ∉ s → findAux [c] s i = none
  | [], i, _ => by simp [findAux]
  | x :: xs, i, h => by
    have hx : x ≠ c := fun e => h (by rw [e]; exact List.mem_cons_self _ _)
    have hm : c ∉ xs := fun e => h (List.mem_cons_of_mem _ e)
    rw [findAux, if_neg, findAux_char_absent c xs (i + 1) hm]
    rw [List.isPrefixOf_iff_prefix]
    rintro ⟨t, ht⟩
    simp only [List.singleton_append, List.cons.injEq] at ht
    exact hx ht.1.symm

/-- The specification's split of a header line is the one of the code. -/
theorem parse_header_line_eq_spec (line : Str) :
    parse_header_line line = spec_split_header line := by
  unfold spec_split_header
  split
  · rename_i hm
    obtain ⟨k, r, hl, hk⟩ := split_at_first ':' line hm
    have hall : ∀ x ∈ k, decide (x ≠ ':') = true := by
      intro x hx
      have : x ≠ ':' := fun e => hk (e ▸ hx)
      simpa using this
    have e1 : line.takeWhile (fun c => decide (c ≠ ':')) = k := by
      rw [hl, List.takeWhile_append_of_pos hall]
      simp
    have e2 : (line.dropWhile (fun c => decide (c ≠ ':'))).drop 1 = r := by
      rw [hl, List.dropWhile_append_of_pos hall]
      simp
    rw [e1, e2, hl, parse_header_line_colon k r hk]
    cases r with
    | nil => rfl
    | cons c r =>
      by_cases hc : c = ' '
      · subst hc; rfl
      · have : strip_one_space (c :: r) = c :: r := by
          unfold strip_one_space
          split
          · rename_i heq
            simp only [List.cons.injEq] at heq
            exact absurd heq.1 hc
          · rfl
        simp [hc, this]
  · rename_i hm
    unfold parse_header_line
    rw [find_zero, findAux_char_absent ':' line 0 hm]

/-- The specification's last-wins step is `set_header`. -/
theorem set_header_eq_spec (hs : List ParsedHeader) (e : ParsedHeader) :
    set_header hs e = spec_last_wins hs e := by
  simp [set_header, spec_last_wins]

/-- The header loop on a block of non-empty lines is the specification's fold
over these lines. -/
theorem parse_headers_spec (input : Str) (header_end : Nat) (tail : Str) :
    ∀ (ls : List Str) (fuel start : Nat) (hs : List ParsedHeader),
    ls.length < fuel →
    start ≤ input.length →
    input.drop start = lines_text ls ++ '\r' :: '\n' :: tail →
    start + (lines_text ls).length = header_end + 2 →
    (∀ l ∈ ls, l ≠ [] ∧ hasCRLF l = false) →
    parse_headers input header_end fuel start hs = spec_fold_headers hs ls
  | [], fuel, start, hs, hf, _, _, hend, _ => by
    obtain ⟨f, rfl⟩ : ∃ f, fuel = f + 1 := ⟨fuel - 1, by simp at hf; omega⟩
    simp only [lines_text_nil, List.length_nil] at hend
    rw [parse_headers, if_neg (by omega)]
    rfl
  | l :: rest, fuel, start, hs, hf, hstart, hdrop, hend, hall => by
    obtain ⟨f, rfl⟩ : ∃ f, fuel = f + 1 := ⟨fuel - 1, by simp at hf; omega⟩
    obtain ⟨hne, hcr⟩ := hall l (List.mem_cons_self _ _)
    simp only [lines_text_cons, List.length_append, List.length_cons] at hend
    simp only [lines_text_cons, List.append_assoc, List.cons_append] at hdrop
    have hlen : 0 < l.length := List.length_pos.mpr hne
    have hfind : find input CRLF start = some (start + l.length) := by
      rw [find_drop _ _ _ hstart, hdrop]
      exact findAux_crlf_line l _ start hcr
    have hline : substr input start (start + l.length - start) = l := by
      simp only [substr, hdrop, Nat.add_sub_cancel_left]
      exact List.take_left _ _
    have hdrop2 : input.drop (start + l.length + 2)
        = lines_text rest ++ '\r' :: '\n' :: tail := by
      have h1 := drop_add_of_drop_eq input l _ start hdrop
      have h2 := drop_add_of_drop_eq input ['\r', '\n'] _ (start + l.length) (by simpa using h1)
      simpa using h2
    have hlen2 : start + l.length + 2 ≤ input.length := by
      have := congrArg List.length hdrop
      simp only [List.length_drop, List.length_append, List.length_cons] at this
      omega
    rw [parse_headers, if_pos (by omega), hfind]
    simp only
    rw [if_neg (by omega), hline, if_neg hne, parse_header_line_eq_spec, spec_fold_headers]
    cases spec_split_header l with
    | none => rfl
    | some e =>
      simp only
      rw [set_header_eq_spec]
      exact parse_headers_spec input header_end tail rest f (start + l.length + 2)
        (spec_last_wins hs e) (by simp at hf; omega) hlen2 hdrop2 (by omega)
        (fun p hp => hall p (List.mem_cons_of_mem _ hp))

/-- The layout of a text with a blank line: after the first line come the
lines of the header block, each non-empty, without CR LF and followed by
CR LF, and then the CR LF of the first blank line. -/
theorem header_layout {input : Str} {header_end first_line_end : Nat}
    (h1 : find input CRLFCRLF 0 = some header_end)
    (h2 : find input CRLF 0 = some first_line_end) :
    ∃ tail, first_line_end + 2 ≤ input.length ∧
      input.drop (first_line_end + 2)
        = lines_text (header_block_lines input) ++ '\r' :: '\n' :: tail ∧
      first_line_end + 2 + (lines_text (header_block_lines input)).length = header_end + 2 ∧
      ∀ l ∈ header_block_lines input, l ≠ [] ∧ hasCRLF l = false := by
  have hblock : header_block input
      = (input.drop (first_line_end + 2)).take (header_end - (first_line_end + 2)) := by
    simp only [header_block, h1, h2, substr]
  rw [find_zero] at h1 h2
  obtain ⟨b, hb⟩ := findAux_drop CRLFCRLF h1
  obtain ⟨b2, hb2⟩ := findAux_drop CRLF h2
  have first1 := findAux_first _ _ _ _ h1
  have first2 := findAux_first _ _ _ _ h2
  simp only [CRLFCRLF, CRLF, List.cons_append, List.nil_append] at hb hb2
  have hle : first_line_end ≤ header_end := by
    by_contra hlt
    apply first2 header_end (by omega)
    rw [hb]
    exact ⟨'\r' :: '\n' :: b, rfl⟩
  have hd2 : input.drop (first_line_end + 2) = b2 :=
    drop_add_of_drop_eq input ['\r', '\n'] b2 first_line_end hb2
  have hlen : first_line_end + 2 ≤ input.length := by
    have := congrArg List.length hb2
    simp only [List.length_drop, List.length_cons] at this
    omega
  rcases Nat.eq_or_lt_of_le hle with heq | hlt
  · subst heq
    have hnil : header_block input = [] := by
      rw [hblock]
      simp
    have hlines : header_block_lines input = [] := by
      rw [header_block_lines, if_pos hnil]
    refine ⟨b, hlen, ?_, ?_, ?_⟩
    · rw [hlines, lines_text_nil, List.nil_append]
      exact drop_add_of_drop_eq input ['\r', '\n'] ('\r' :: '\n' :: b) first_line_end hb
    · rw [hlines, lines_text_nil]
      rfl
    · rw [hlines]
      intro l hl
      cases hl
  · have hne1 : header_end ≠ first_line_end + 1 := by
      intro he
      have := drop_add_of_drop_eq input ['\r'] ('\n' :: b2) first_line_end hb2
      rw [List.length_singleton, ← he, hb] at this
      simp at this
    obtain ⟨n, hn⟩ : ∃ n, header_end = first_line_end + 2 + n :=
      ⟨header_end - (first_line_end + 2), by omega⟩
    have hdn : b2.drop n = '\r' :: '\n' :: '\r' :: '\n' :: b := by
      rw [← hd2, List.drop_drop, ← hb, hn]
    have hb2len : n + 4 ≤ b2.length := by
      have := congrArg List.length hdn
      simp only [List.length_drop, List.length_cons] at this
      omega
    have hB : header_block input = b2.take n := by
      rw [hblock, hd2, hn]
      congr 1
      omega
    have hBlen : (b2.take n).length = n := by
      rw [List.length_take]
      omega
    have hsplit : b2 = b2.take n ++ '\r' :: '\n' :: '\r' :: '\n' :: b := by
      rw [← hdn, List.take_append_drop]
    generalize b2.take n = B at hB hBlen hsplit
    have hno : ∀ j, j < n + 2 →
        ¬ CRLFCRLF <+: ('\r' :: '\n' :: (B ++ '\r' :: '\n' :: '\r' :: '\n' :: b)).drop j := by
      intro j hj
      have := first1 (first_line_end + j) (by omega)
      rw [← List.drop_drop, hb2, hsplit] at this
      exact this
    have hBne : B ≠ [] := by
      intro hnil
      apply hno 0 (by omega)
      rw [hnil]
      exact ⟨'\r' :: '\n' :: b, rfl⟩
    have hBcr : ¬ CRLF <+: B := by
      rintro ⟨u, hu⟩
      apply hno 0 (by omega)
      rw [← hu]
      exact ⟨u ++ '\r' :: '\n' :: '\r' :: '\n' :: b, by simp [CRLF, CRLFCRLF]⟩
    have hlines : header_block_lines input = crlf_lines B := by
      rw [header_block_lines, hB, if_neg hBne]
    refine ⟨b, hlen, ?_, ?_, ?_⟩
    · rw [hlines, lines_text_crlf_lines, hd2, hsplit]
      simp [CRLF]
    · rw [hlines, lines_text_crlf_lines]
      simp only [List.length_append, hBlen, CRLF, List.length_cons, List.length_nil]
      omega
    · rw [hlines]
      intro l hl
      refine ⟨?_, hasCRLF_crlf_lines B l hl⟩
      rw [crlf_lines_head_tail B] at hl
      rcases List.mem_cons.mp hl with e | e
      · intro hnil
        rw [hnil] at e
        rcases crlf_lines_head_nil B e.symm with h0 | h0
        · exact hBne h0
        · exact hBcr h0
      · exact crlf_lines_tail_ne_nil B ('\r' :: '\n' :: b) (fun j hj => by
          have := hno (j + 2) (by omega)
          simpa using this) l e

/-! ## Consequences of the last-wins fold -/

theorem spec_split_header_colon {l : Str} {e : ParsedHeader}
    (h : spec_split_header l = some e) : ':' ∈ l := by
  unfold spec_split_header at h
  split at h
  · assumption
  · cases h

theorem mem_spec_last_wins {acc : List ParsedHeader} {e x : ParsedHeader} :
    x ∈ spec_last_wins acc e ↔ (x ∈ acc ∧ x.key ≠ e.key) ∨ x = e := by
  simp [spec_last_wins]

theorem spec_last_wins_nodup (acc : List ParsedHeader) (e : ParsedHeader)
    (h : (acc.map ParsedHeader.key).Nodup) :
    ((spec_last_wins acc e).map ParsedHeader.key).Nodup := by
  unfold spec_last_wins
  rw [List.map_append, List.nodup_append]
  refine ⟨h.sublist ((List.filter_sublist _).map _), by simp, ?_⟩
  intro k hk1 hk2
  obtain ⟨x, hx, rfl⟩ := List.mem_map.mp hk1
  have h1 := (List.mem_filter.mp hx).2
  simp only [List.map_cons, List.map_nil, List.mem_singleton] at hk2
  simp [hk2] at h1

/-- The names of the result are pairwise distinct. -/
theorem spec_fold_nodup : ∀ (ls : List Str) (acc R : List ParsedHeader),
    (acc.map ParsedHeader.key).Nodup → spec_fold_headers acc ls = some R →
    (R.map ParsedHeader.key).Nodup
  | [], acc, R, hn, h => by
    simp only [spec_fold_headers, Option.some.injEq] at h
    rw [← h]
    exact hn
  | l :: ls, acc, R, hn, h => by
    rw [spec_fold_headers] at h
    cases hs : spec_split_header l with
    | none => rw [hs] at h; cases h
    | some e =>
      rw [hs] at h
      exact spec_fold_nodup ls _ R (spec_last_wins_nodup acc e hn) h

/-- The entries of the result keep the order of their lines. -/
theorem spec_fold_sublist : ∀ (ls : List Str) (acc R : List ParsedHeader),
    spec_fold_headers acc ls = some R →
    List.Sublist R (acc ++ ls.filterMap spec_split_header)
  | [], acc, R, h => by
    simp only [spec_fold_headers, Option.some.injEq] at h
    rw [← h]
    simp
  | l :: ls, acc, R, h => by
    rw [spec_fold_headers] at h
    cases hs : spec_split_header l with
    | none => rw [hs] at h; cases h
    | some e =>
      rw [hs] at h
      have ih := spec_fold_sublist ls _ R h
      rw [List.filterMap_cons_some hs]
      refine ih.trans ?_
      unfold spec_last_wins
      rw [List.append_assoc]
      exact List.Sublist.append (List.filter_sublist _) (List.Sublist.refl _)

/-- Every entry of the result comes from the last line with its name. -/
theorem spec_fold_last : ∀ (ls : List Str) (acc R : List ParsedHeader),
    spec_fold_headers acc ls = some R → ∀ e ∈ R,
    (e ∈ acc ∧ ∀ l ∈ ls, ∀ e2, spec_split_header l = some e2 → e2.key ≠ e.key) ∨
    (∃ pre l post, ls = pre ++ l :: post ∧ spec_split_header l = some e ∧
      ∀ l2 ∈ post, ∀ e2, spec_split_header l2 = some e2 → e2.key ≠ e.key)
  | [], acc, R, h, e, he => by
    simp only [spec_fold_headers, Option.some.injEq] at h
    rw [← h] at he
    left
    exact ⟨he, fun l hl => by cases hl⟩
  | l :: ls, acc, R, h, e, he => by
    rw [spec_fold_headers] at h
    cases hs : spec_split_header l with
    | none => rw [hs] at h; cases h
    | some x =>
      rw [hs] at h
      rcases spec_fold_last ls _ R h e he with ⟨hm, hall⟩ | ⟨pre, l2, post, hls, hl2, hpost⟩
      · rcases mem_spec_last_wins.mp hm with ⟨ha, hk⟩ | hx
        · left
          refine ⟨ha, ?_⟩
          intro l3 hl3 e3 h3
          rcases List.mem_cons.mp hl3 with e4 | e4
          · rw [e4, hs] at h3
            simp only [Option.some.injEq] at h3
            rw [← h3]
            exact fun hh => hk hh.symm
          · exact hall l3 e4 e3 h3
        · right
          exact ⟨[], l, ls, rfl, by rw [hs, hx], hall⟩
      · right
        exact ⟨l :: pre, l2, post, by rw [hls]; rfl, hl2, hpost⟩

/-- Every line holds a colon, and its name is a name of the result. -/
theorem spec_fold_present : ∀ (ls : List Str) (acc R : List ParsedHeader),
    spec_fold_headers acc ls = some R →
    (∀ a ∈ acc, ∃ e ∈ R, e.key = a.key) ∧
    (∀ l ∈ ls, ∃ e2, spec_split_header l = some e2 ∧ ∃ e ∈ R, e.key = e2.key)
  | [], acc, R, h => by
    simp only [spec_fold_headers, Option.some.injEq] at h
    rw [← h]
    exact ⟨fun a ha => ⟨a, ha, rfl⟩, fun l hl => by cases hl⟩
  | l :: ls, acc, R, h => by
    rw [spec_fold_headers] at h
    cases hs : spec_split_header l with
    | none => rw [hs] at h; cases h
    | some x =>
      rw [hs] at h
      obtain ⟨ih1, ih2⟩ := spec_fold_present ls _ R h
      have hx : ∃ e ∈ R, e.key = x.key := ih1 x (mem_spec_last_wins.mpr (Or.inr rfl))
      constructor
      · intro a ha
        by_cases hk : a.key = x.key
        · rw [hk]
          exact hx
        · exact ih1 a (mem_spec_last_wins.mpr (Or.inl ⟨ha, hk⟩))
      · intro l2 hl2
        rcases List.mem_cons.mp hl2 with e4 | e4
        · rw [e4]
          exact ⟨x, hs, hx⟩
        · exact ih2 l2 e4

/-- The headers of a successfully parsed request are the specification's fold
over the lines of the header block, started from the headers the object held. -/
theorem parse_headers_refines {self P : ParsedRequest} {input : Str}
    (h : self.parse input = some P) :
    spec_fold_headers self.headers (header_block_lines input) = some P.headers := by
  obtain ⟨he, fle, iss1, fa, iss2, ver, iss3, st, _, _, hf1, hf2, _, _, _, _, hpt, hph, _⟩ :=
    parse_steps h
  obtain ⟨_, _, _, hhd, _⟩ := parse_target_some hpt
  obtain ⟨tail, hlen, hdrop, hend, hall⟩ := header_layout hf1 hf2
  rw [hhd] at hph
  rw [← hph]
  symm
  apply parse_headers_spec input he tail _ _ _ _ ?_ hlen hdrop hend hall
  have h1 := length_lines_text_ge (header_block_lines input)
  have h2 := congrArg List.length hdrop
  simp only [List.length_drop, List.length_append, List.length_cons] at h2
  omega

/-- C15: when `parse` returns 0, the headers are the result of folding over
the CR LF separated lines between the request line and the CR LF CR LF
terminator, each line split at its first colon into name and value (one
leading space of the value removed, never more), earlier entries with the same
name removed and the new entry appended. On a fresh object the names are
therefore pairwise distinct, the entries keep the order of their lines, every
entry comes from the last line with its name, and every name of a line is
present. A header line without a colon makes `parse` return -1. -/
theorem parse_headers_last_wins (self : ParsedRequest) (input : Str) :
    (∀ P, self.parse input = some P →
      spec_fold_headers self.headers (header_block_lines input) = some P.headers ∧
      (self.headers = [] →
        (P.headers.map ParsedHeader.key).Nodup ∧
        List.Sublist P.headers ((header_block_lines input).filterMap spec_split_header) ∧
        (∀ e ∈ P.headers, ∃ pre l post, header_block_lines input = pre ++ l :: post ∧
          spec_split_header l = some e ∧
          ∀ l2 ∈ post, ∀ e2, spec_split_header l2 = some e2 → e2.key ≠ e.key) ∧
        (∀ l ∈ header_block_lines input, ∃ e2, spec_split_header l = some e2 ∧
          ∃ e ∈ P.headers, e.key = e2.key))) ∧
    ((∃ l ∈ header_block_lines input, ':' ∉ l) → self.parse input = none) := by
  constructor
  · intro P h
    have hfold := parse_headers_refines h
    refine ⟨hfold, ?_⟩
    intro hnil
    rw [hnil] at hfold
    refine ⟨spec_fold_nodup _ _ _ (by simp) hfold, ?_, ?_, (spec_fold_present _ _ _ hfold).2⟩
    · simpa using spec_fold_sublist _ _ _ hfold
    · intro e he
      rcases spec_fold_last _ _ _ hfold e he with ⟨hm, _⟩ | hr
      · cases hm
      · exact hr
  · rintro ⟨l, hl, hc⟩
    cases hp : self.parse input with
    | none => rfl
    | some P =>
      exfalso
      obtain ⟨e2, he2, _⟩ := (spec_fold_present _ _ _ (parse_headers_refines hp)).2 l hl
      exact hc (spec_split_header_colon he2)

/-- The headers of the request of `main`, and a request with the header line
`bad`. -/
theorem parse_headers_last_wins_main :
    header_block_lines main_request
      = ["Host: example.com".toList, "User-Agent: TestAgent".toList] ∧
    spec_fold_headers ParsedRequest.fresh.headers (header_block_lines main_request)
      = some main_parsed.headers ∧
    (main_parsed.headers.map ParsedHeader.key).Nodup ∧
    header_block_lines no_colon_request = [['b', 'a', 'd']] ∧
    ParsedRequest.fresh.parse no_colon_request = none :=
  ⟨by decide,
   ((parse_headers_last_wins ParsedRequest.fresh main_request).1 main_parsed
      parse_main_request).1,
   (((parse_headers_last_wins ParsedRequest.fresh main_request).1 main_parsed
      parse_main_request).2 rfl).1,
   by decide,
   (parse_headers_last_wins ParsedRequest.fresh no_colon_request).2
      ⟨['b', 'a', 'd'], by decide, by decide⟩⟩

end ProxyParse

namespace ProxyServer

open ProxyParse (Str ParsedRequest ParsedHeader header_lines CRLF main_parsed CRLFCRLF find findAux lines_text hasCRLF decimalValue substr)

/-! ## C strings -/

theorem cstr_of_not_mem (s : Str) (h : '\x00' ∉ s) : cstr s = s := by
  unfold cstr
  apply ProxyParse.takeWhile_all
  intro x hx
  have : x ≠ '\x00' := fun e => h (e ▸ hx)
  simp [this]

theorem cstr_cstr (s : Str) : cstr (cstr s) = cstr s := by
  unfold cstr
  apply ProxyParse.takeWhile_all
  intro x hx
  exact List.mem_takeWhile_imp (p := fun c => !decide (c = '\x00')) hx

theorem strlen_cstr (s : Str) : strlen (cstr s) = strlen s := by
  unfold strlen
  rw [cstr_cstr]

theorem strlen_nonneg (s : Str) : 0 ≤ strlen s := Int.natCast_nonneg _

/-! ## Insert -/

theorem to_int_eq (x : Int) (h1 : -2147483648 ≤ x) (h2 : x ≤ 2147483647) : to_int x = x := by
  unfold to_int
  norm_num
  omega

theorem to_int_add_to_int (a b : Int) : to_int (a + to_int b) = to_int (a + b) := by
  unfold to_int
  norm_num
  omega

theorem evict_loop_skip (element_size : Int) (fuel : Nat) (c : Cache)
    (h : to_int (c.cache_current_size + element_size) ≤ MAX_CACHE_SIZE) :
    evict_loop element_size fuel c = some c := by
  cases fuel <;> simp only [evict_loop] <;> rw [if_neg (by omega)]

/-- An eviction loop whose condition holds does not end: the call of
`cache_remove_lru_element` waits for `cache_lock`, which the thread holds. -/
theorem evict_loop_blocks (element_size : Int) (fuel : Nat) (c : Cache)
    (h : to_int (c.cache_current_size + element_size) > MAX_CACHE_SIZE) :
    evict_loop element_size fuel c = none := by
  cases fuel <;> simp only [evict_loop] <;> rw [if_pos h]
  rfl

/-- An eviction loop that ends has evicted nothing. -/
theorem evict_loop_some {element_size : Int} {fuel : Nat} {c c1 : Cache}
    (h : evict_loop element_size fuel c = some c1) :
    c1 = c ∧ to_int (c.cache_current_size + element_size) ≤ MAX_CACHE_SIZE := by
  by_cases hc : to_int (c.cache_current_size + element_size) > MAX_CACHE_SIZE
  · rw [evict_loop_blocks _ _ _ hc] at h
    cases h
  · rw [evict_loop_skip _ _ _ (by omega)] at h
    simp only [Option.some.injEq] at h
    exact ⟨h.symm, by omega⟩

/-- What a call of `cache_add_element` that returns 1 has done: nothing was
evicted, and the element is at the head of the list. -/
theorem cache_add_element_one {c c2 : Cache} {data url : Str} {size now : Int} {m : Allocs}
    {fuel : Nat} (h : cache_add_element c data size url now m fuel = some (1, c2)) :
    to_int (c.cache_current_size + to_int (size + 1 + strlen url + sizeof_cache_element))
      ≤ MAX_CACHE_SIZE ∧
    0 ≤ to_int (size + 10) ∧
    c2 = { cache_head :=
             { data := cstr data, url := cstr url, lru_time_track := now, len := size }
               :: c.cache_head,
           cache_current_size :=
             to_int (c.cache_current_size
               + to_int (size + 1 + strlen url + sizeof_cache_element)) } := by
  unfold cache_add_element at h
  simp only [pthread_mutex_lock, Bool.false_eq_true, if_false, Option.some_bind] at h
  cases he : evict_loop (to_int (size + 1 + strlen url + sizeof_cache_element)) fuel c with
  | none => simp [he] at h
  | some c1 =>
    obtain ⟨hc1, hfit⟩ := evict_loop_some he
    subst hc1
    simp only [he] at h
    split at h
    · simp at h
    · split at h
      · simp at h
      · rename_i hm
        split at h
        · simp at h
        · simp only [Option.some.injEq, Prod.mk.injEq, true_and] at h
          refine ⟨hfit, ?_, h.symm⟩
          simp only [malloc, Bool.not_eq_true, Bool.not_eq_false', Bool.and_eq_true,
            decide_eq_true_eq] at hm
          exact hm.2

/-- A call of `cache_add_element` that has to evict does not return. -/
theorem cache_add_element_blocks (c : Cache) (data url : Str) (size now : Int) (m : Allocs)
    (fuel : Nat)
    (h : to_int (c.cache_current_size + to_int (size + 1 + strlen url + sizeof_cache_element))
      > MAX_CACHE_SIZE) :
    cache_add_element c data size url now m fuel = none := by
  unfold cache_add_element
  simp only [pthread_mutex_lock, Bool.false_eq_true, if_false, Option.some_bind,
    evict_loop_blocks _ fuel c h]

theorem cache_find_head (c : Cache) (e : cache_element) (l : List cache_element) (k : Str)
    (now : Int) (hc : c.cache_head = e :: l) (hk : cstr e.url = cstr k) :
    cache_find c k now = (some 0, { c with cache_head := { e with lru_time_track := now } :: l }) := by
  unfold cache_find
  rw [hc, cache_find_loop, if_pos (by simp [strcmp_eq, hk])]

/-- C4: after an insert of the NUL-free body `v` under the NUL-free key `k`
that returns 1, `cache_find k` returns an element with url `k`, length
`len v` and data `v`. -/
theorem cache_find_after_add (c c2 : Cache) (k v : Str) (now now2 : Int) (m : Allocs)
    (fuel : Nat) (hk : '\x00' ∉ k) (hv : '\x00' ∉ v)
    (_hsize : (v.length : Int) + 1 + strlen k + sizeof_cache_element ≤ MAX_CACHE_SIZE)
    (hadd : cache_add_element c v (v.length : Int) k now m fuel = some (1, c2)) :
    ∃ i e, (cache_find c2 k now2).1 = some i ∧
      (cache_find c2 k now2).2.cache_head.get? i = some e ∧
      e.url = k ∧ e.len = (v.length : Int) ∧ e.data = v := by
  obtain ⟨-, -, hc2⟩ := cache_add_element_one hadd
  have hfind := cache_find_head c2 _ c.cache_head k now2 (by rw [hc2]) (by simp [cstr_cstr])
  rw [hfind]
  refine ⟨0, _, rfl, rfl, ?_, rfl, ?_⟩
  · exact cstr_of_not_mem k hk
  · exact cstr_of_not_mem v hv

/-- Insert `REQ1` with body `RESP1` into the empty cache, then look it up. -/
theorem cache_find_after_add_req1 :
    cache_add_element Cache.init "RESP1".toList ("RESP1".toList.length : Int) "REQ1".toList 100
      ⟨true, true, true⟩ 0
      = some (1, ⟨[⟨"RESP1".toList, 5, "REQ1".toList, 100⟩], 50⟩) ∧
    ∃ i e, (cache_find ⟨[⟨"RESP1".toList, 5, "REQ1".toList, 100⟩], 50⟩ "REQ1".toList 101).1
        = some i ∧
      (cache_find ⟨[⟨"RESP1".toList, 5, "REQ1".toList, 100⟩], 50⟩
        "REQ1".toList 101).2.cache_head.get? i = some e ∧
      e.url = "REQ1".toList ∧ e.len = ("RESP1".toList.length : Int) ∧ e.data = "RESP1".toList :=
  ⟨by decide,
    cache_find_after_add Cache.init ⟨[⟨"RESP1".toList, 5, "REQ1".toList, 100⟩], 50⟩
      "REQ1".toList "RESP1".toList 100 101 ⟨true, true, true⟩ 0
      (by decide) (by decide) (by decide) (by decide)⟩

/-! ## Lookup -/

/-- A hit of the lookup loop: the position is that of the first element whose
url compares equal, and only the time of that element changes. -/
theorem cache_find_loop_some (url : Str) (now : Int) :
    ∀ (l l2 : List cache_element) (i : Nat), cache_find_loop url now l = some (i, l2) →
    ∃ e, l.get? i = some e ∧ strcmp_eq e.url url = true ∧ l2 = l.set i (touch now e) ∧
      ∀ j e2, j < i → l.get? j = some e2 → strcmp_eq e2.url url = false
  | [], _, _, h => by simp [cache_find_loop] at h
  | curr :: rest, l2, i, h => by
    rw [cache_find_loop] at h
    split at h
    · rename_i hm
      simp only [Option.some.injEq, Prod.mk.injEq] at h
      obtain ⟨rfl, rfl⟩ := h
      exact ⟨curr, rfl, hm, rfl, fun j e2 hj => absurd hj (Nat.not_lt_zero j)⟩
    · rename_i hm
      cases hr : cache_find_loop url now rest with
      | none => simp [hr] at h
      | some r =>
        obtain ⟨i1, rest2⟩ := r
        simp only [hr, Option.some.injEq, Prod.mk.injEq] at h
        obtain ⟨rfl, rfl⟩ := h
        obtain ⟨e, hget, hmatch, hset, hbefore⟩ := cache_find_loop_some url now rest rest2 i1 hr
        refine ⟨e, by simpa using hget, hmatch, by simp [hset], ?_⟩
        intro j e2 hj hget2
        cases j with
        | zero =>
          simp only [List.get?_cons_zero, Option.some.injEq] at hget2
          subst hget2
          simpa using hm
        | succ j => exact hbefore j e2 (by omega) (by simpa using hget2)

theorem cache_find_loop_none (url : Str) (now : Int) :
    ∀ (l : List cache_element), cache_find_loop url now l = none →
    ∀ e ∈ l, strcmp_eq e.url url = false
  | [], _, e, he => by cases he
  | curr :: rest, h, e, he => by
    rw [cache_find_loop] at h
    split at h
    · cases h
    · rename_i hm
      cases hr : cache_find_loop url now rest with
      | some r => simp [hr] at h
      | none =>
        rcases List.mem_cons.mp he with rfl | h2
        · simpa using hm
        · exact cache_find_loop_none url now rest hr e h2

/-- The lookup loop finds the first element whose url compares equal. -/
theorem cache_find_loop_first (url : Str) (now : Int) :
    ∀ (l : List cache_element) (i : Nat) (e : cache_element), l.get? i = some e →
    strcmp_eq e.url url = true →
    (∀ j e2, j < i → l.get? j = some e2 → strcmp_eq e2.url url = false) →
    cache_find_loop url now l = some (i, l.set i (touch now e))
  | [], i, e, h, _, _ => by simp at h
  | curr :: rest, 0, e, h, hm, _ => by
    simp only [List.get?_cons_zero, Option.some.injEq] at h
    subst h
    rw [cache_find_loop, if_pos hm]
    rfl
  | curr :: rest, i + 1, e, h, hm, hbefore => by
    have h0 : strcmp_eq curr.url url = false := hbefore 0 curr (by omega) rfl
    rw [cache_find_loop, if_neg (by simp [h0]),
      cache_find_loop_first url now rest i e (by simpa using h) hm
        (fun j e2 hj hg => hbefore (j + 1) e2 (by omega) (by simpa using hg))]
    rfl

theorem map_set_same {α β : Type} (f : α → β) : ∀ (l : List α) (i : Nat) (e x : α),
    l.get? i = some e → f x = f e → (l.set i x).map f = l.map f
  | [], _, _, _, h, _ => by simp at h
  | a :: l, 0, e, x, h, hf => by
    simp only [List.get?_cons_zero, Option.some.injEq] at h
    subst h
    simp [hf]
  | a :: l, i + 1, e, x, h, hf => by
    simp only [List.set_cons_succ, List.map_cons, List.cons.injEq, true_and]
    exact map_set_same f l i e x (by simpa using h) hf

theorem get?_set_self {α : Type} : ∀ (l : List α) (i : Nat) (e x : α),
    l.get? i = some e → (l.set i x).get? i = some x
  | [], _, _, _, h => by simp at h
  | a :: l, 0, _, _, _ => rfl
  | a :: l, i + 1, e, x, h => by
    simpa using get?_set_self l i e x (by simpa using h)

theorem get?_set_other {α : Type} : ∀ (l : List α) (i j : Nat) (x : α), j < i →
    (l.set i x).get? j = l.get? j
  | [], _, _, _, _ => by simp
  | a :: l, 0, j, _, h => absurd h (Nat.not_lt_zero j)
  | a :: l, i + 1, 0, _, _ => rfl
  | a :: l, i + 1, j + 1, x, h => by
    simpa using get?_set_other l i j x (by omega)

/-- C9: `cache_find` changes neither `cache_current_size` nor the order of the
list nor the url, data and len of any element; on a miss nothing changes, on
a hit only the time of the returned element, which becomes `now`; a second
lookup of the same key returns the same element with the same data. -/
theorem cache_find_frame (c : Cache) (k : Str) (now now2 : Int) :
    (cache_find c k now).2.cache_current_size = c.cache_current_size ∧
    (cache_find c k now).2.cache_head.map entry_fields = c.cache_head.map entry_fields ∧
    ((cache_find c k now).1 = none → (cache_find c k now).2 = c) ∧
    (∀ i, (cache_find c k now).1 = some i →
      ∃ e, c.cache_head.get? i = some e ∧
        (cache_find c k now).2.cache_head
          = c.cache_head.set i { e with lru_time_track := now }) ∧
    (cache_find (cache_find c k now).2 k now2).1 = (cache_find c k now).1 ∧
    (∀ i e e2, (cache_find c k now).1 = some i →
      (cache_find c k now).2.cache_head.get? i = some e →
      (cache_find (cache_find c k now).2 k now2).2.cache_head.get? i = some e2 →
      e2.data = e.data) := by
  cases h : cache_find_loop k now c.cache_head with
  | none =>
    have h1 : cache_find c k now = (none, c) := by simp [cache_find, h]
    have h2 : cache_find c k now2 = (none, c) := by
      have hn := cache_find_loop_none k now c.cache_head h
      cases h3 : cache_find_loop k now2 c.cache_head with
      | none => simp [cache_find, h3]
      | some r =>
        obtain ⟨e, hget, hmatch, -, -⟩ := cache_find_loop_some k now2 _ r.2 r.1 h3
        have := hn e (List.mem_iff_get?.mpr ⟨_, hget⟩)
        rw [this] at hmatch
        cases hmatch
    have h4 : cache_find ((none, c) : Option Nat × Cache).2 k now2 = (none, c) := h2
    rw [h1, h4]
    refine ⟨rfl, rfl, fun _ => rfl, ?_, rfl, ?_⟩
    · intro i hi
      cases hi
    · intro i e e2 hi
      cases hi
  | some r =>
    obtain ⟨i, l2⟩ := r
    obtain ⟨e, hget, hmatch, hset, hbefore⟩ := cache_find_loop_some k now _ _ _ h
    have h1 : cache_find c k now = (some i, { c with cache_head := l2 }) := by
      simp [cache_find, h]
    have hget2 : l2.get? i = some (touch now e) := by
      rw [hset]
      exact get?_set_self _ _ _ _ hget
    have h3 : cache_find_loop k now2 l2 = some (i, l2.set i (touch now2 (touch now e))) := by
      apply cache_find_loop_first k now2 l2 i _ hget2 hmatch
      intro j e2 hj hg
      rw [hset, get?_set_other _ _ _ _ hj] at hg
      exact hbefore j e2 hj hg
    have h2 : cache_find { c with cache_head := l2 } k now2
        = (some i, { c with cache_head := l2.set i (touch now2 (touch now e)) }) := by
      simp [cache_find, h3]
    have h4 : cache_find (some i, ({ c with cache_head := l2 } : Cache)).2 k now2
        = (some i, { c with cache_head := l2.set i (touch now2 (touch now e)) }) := h2
    rw [h1, h4]
    refine ⟨rfl, ?_, ?_, ?_, rfl, ?_⟩
    · show l2.map entry_fields = c.cache_head.map entry_fields
      rw [hset]
      exact map_set_same entry_fields _ _ _ _ hget rfl
    · intro hn
      cases hn
    · intro j hj
      simp only [Option.some.injEq] at hj
      subst hj
      exact ⟨e, hget, hset⟩
    · intro j a a2 hj ha ha2
      simp only [Option.some.injEq] at hj
      subst hj
      change l2.get? i = some a at ha
      change (l2.set i (touch now2 (touch now e))).get? i = some a2 at ha2
      rw [hget2] at ha
      rw [get?_set_self _ _ _ _ hget2] at ha2
      simp only [Option.some.injEq] at ha ha2
      rw [← ha, ← ha2]
      rfl

/-! ## Inserts that fit -/

/-- An insert with a non-negative size that fits next to the present content,
all allocations succeeding: nothing is evicted, the element is put at the head
and its size is charged. `cache_current_size` and `size + 10` are values of
type `int`. -/
theorem cache_add_element_fits (c : Cache) (data url : Str) (size now : Int) (fuel : Nat)
    (h0 : 0 ≤ size)
    (hint : -2147483648 ≤ c.cache_current_size ∧ size + 10 ≤ 2147483647)
    (hfit : c.cache_current_size + (size + 1 + strlen url + sizeof_cache_element)
      ≤ MAX_CACHE_SIZE) :
    cache_add_element c data size url now ⟨true, true, true⟩ fuel
      = some (1, { cache_head :=
                     { data := cstr data, url := cstr url, lru_time_track := now, len := size }
                       :: c.cache_head,
                   cache_current_size :=
                     c.cache_current_size + (size + 1 + strlen url + sizeof_cache_element) }) := by
  have hs := strlen_nonneg url
  have hM : MAX_CACHE_SIZE = 209715200 := by decide
  have hE : sizeof_cache_element = 40 := rfl
  have hsum : to_int (c.cache_current_size
      + to_int (size + 1 + strlen url + sizeof_cache_element))
      = c.cache_current_size + (size + 1 + strlen url + sizeof_cache_element) := by
    rw [to_int_add_to_int, to_int_eq _ (by omega) (by omega)]
  have h1 : malloc sizeof_cache_element true = true := by decide
  have h2 : malloc (to_int (size + 10)) true = true := by
    rw [to_int_eq _ (by omega) (by omega)]
    simp only [malloc, Bool.true_and, decide_eq_true_eq]
    omega
  have h3 : malloc (10 + strlen url) true = true := by
    simp only [malloc, Bool.true_and, decide_eq_true_eq]
    omega
  unfold cache_add_element
  simp only [pthread_mutex_lock, Bool.false_eq_true, if_false, Option.some_bind,
    evict_loop_skip _ fuel c (by rw [hsum]; exact hfit), h1, h2, h3, Bool.not_true, hsum]

/-- Why the statement above asks for `size + 10` within `int`: from the state
with `cache_current_size` = -2147483648, an insert of `size` 2147483642 fits by
the sum of the sizes, but `size + 10` leaves the range, `malloc(size + 10)`
fails and `cache_add_element` returns 0. -/
theorem insert_fails_when_size_plus_10_overflows (data d2 : Str) (now now2 : Int) (fuel : Nat) :
    (cache_wrapped data now).cache_current_size
        + ((2147483642 : Int) + 1 + strlen ['u'] + sizeof_cache_element) ≤ MAX_CACHE_SIZE ∧
    cache_add_element (cache_wrapped data now) d2 2147483642 ['u'] now2 ⟨true, true, true⟩ fuel
      = some (0, cache_wrapped data now) := by
  have hs : strlen ['u'] = 1 := by decide
  have hE : to_int (2147483642 + 1 + strlen ['u'] + sizeof_cache_element) = -2147483612 := by
    decide
  have hC : to_int ((cache_wrapped data now).cache_current_size + -2147483612) = 36 := by
    simp only [cache_wrapped]
    decide
  have h1 : malloc sizeof_cache_element true = true := by decide
  have h2 : malloc (to_int (2147483642 + 10)) true = false := by decide
  refine ⟨?_, ?_⟩
  · rw [hs]
    simp only [cache_wrapped]
    decide
  · unfold cache_add_element
    simp only [pthread_mutex_lock, Bool.false_eq_true, if_false, Option.some_bind, hE,
      evict_loop_skip _ fuel (cache_wrapped data now) (by rw [hC]; decide), h1, h2,
      Bool.not_true, Bool.not_false, if_true]

/-! ## Two inserts under one key -/

/-- C6, amended: after two inserts under the same key that both return 1, the
second one without eviction, both elements are in the list: the element for
`v2` is the head and the element for `v` follows it, so at least two elements
have the url `k`; `cache_find k` returns the head, whose data is `v2`. -/
theorem second_insert_keeps_first (c c1 c2 : Cache) (k v v2 : Str) (now1 now2 now3 : Int)
    (m1 m2 : Allocs) (fuel1 fuel2 : Nat)
    (hk : '\x00' ∉ k) (hv : '\x00' ∉ v) (hv2 : '\x00' ∉ v2)
    (h1 : cache_add_element c v (v.length : Int) k now1 m1 fuel1 = some (1, c1))
    (h2 : cache_add_element c1 v2 (v2.length : Int) k now2 m2 fuel2 = some (1, c2))
    (hfit : c1.cache_current_size + ((v2.length : Int) + 1 + strlen k + sizeof_cache_element)
      ≤ MAX_CACHE_SIZE) :
    (∃ rest, c2.cache_head
      = ⟨v2, (v2.length : Int), k, now2⟩ :: ⟨v, (v.length : Int), k, now1⟩ :: rest) ∧
    2 ≤ (c2.cache_head.filter (fun e => decide (e.url = k))).length ∧
    (cache_find c2 k now3).1 = some 0 ∧
    ((cache_find c2 k now3).2.cache_head.get? 0).map cache_element.data = some v2 := by
  have _ := hfit
  obtain ⟨-, -, hc1⟩ := cache_add_element_one h1
  obtain ⟨-, -, hc2⟩ := cache_add_element_one h2
  rw [cstr_of_not_mem k hk, cstr_of_not_mem v hv] at hc1
  rw [cstr_of_not_mem k hk, cstr_of_not_mem v2 hv2] at hc2
  have hhead : c2.cache_head
      = ⟨v2, (v2.length : Int), k, now2⟩ :: ⟨v, (v.length : Int), k, now1⟩ :: c.cache_head := by
    rw [hc2, hc1]
  have hfind := cache_find_head c2 _ _ k now3 hhead rfl
  refine ⟨⟨_, hhead⟩, ?_, by rw [hfind], by rw [hfind]; rfl⟩
  rw [hhead]
  simp

/-- Two inserts under the key `REQ1` into the empty cache. -/
theorem second_insert_keeps_first_req1 :
    cache_add_element Cache.init "RESP1".toList 5 "REQ1".toList 100 ⟨true, true, true⟩ 0
      = some (1, cache_one) ∧
    cache_add_element cache_one "RESP2".toList 5 "REQ1".toList 101 ⟨true, true, true⟩ 0
      = some (1, cache_two) ∧
    ((∃ rest, cache_two.cache_head
      = ⟨"RESP2".toList, ("RESP2".toList.length : Int), "REQ1".toList, 101⟩
          :: ⟨"RESP1".toList, ("RESP1".toList.length : Int), "REQ1".toList, 100⟩ :: rest) ∧
    2 ≤ (cache_two.cache_head.filter (fun e => decide (e.url = "REQ1".toList))).length ∧
    (cache_find cache_two "REQ1".toList 102).1 = some 0 ∧
    ((cache_find cache_two "REQ1".toList 102).2.cache_head.get? 0).map cache_element.data
      = some "RESP2".toList) :=
  ⟨by decide, by decide,
    second_insert_keeps_first Cache.init cache_one cache_two "REQ1".toList "RESP1".toList
      "RESP2".toList 100 101 102 ⟨true, true, true⟩ ⟨true, true, true⟩ 0 0
      (by decide) (by decide) (by decide) (by decide) (by decide) (by decide)⟩

/-- C6, as stated, fails: after the inserts of `RESP1` and of `RESP2` under the
key `REQ1` into the empty cache, without eviction, two elements of the list
have the url `REQ1`. -/
theorem second_insert_duplicates_key :
    cache_add_element Cache.init "RESP1".toList 5 "REQ1".toList 100 ⟨true, true, true⟩ 0
      = some (1, cache_one) ∧
    cache_add_element cache_one "RESP2".toList 5 "REQ1".toList 101 ⟨true, true, true⟩ 0
      = some (1, cache_two) ∧
    (cache_two.cache_head.filter (fun e => decide (e.url = "REQ1".toList))).length = 2 := by
  decide

/-! ## An insert that has to evict -/

/-- C8: insert `a`, insert `b`, look up `a`, insert `c`, with room for two
elements. The insert of `c` has to evict; it calls `cache_remove_lru_element`
while it holds `cache_lock`, and does not return: no element is removed, for
any outcome of the allocations and any bound on the number of iterations. -/
theorem evicting_insert_never_returns (dA dB dC : Str) (m : Allocs) (fuel : Nat) :
    cache_add_element Cache.init dA 104857000 ['a'] 100 ⟨true, true, true⟩ 0
      = some (1, cache_a dA) ∧
    cache_add_element (cache_a dA) dB 104857000 ['b'] 101 ⟨true, true, true⟩ 0
      = some (1, cache_ba dA dB) ∧
    cache_find (cache_ba dA dB) ['a'] 102 = (some 1, cache_ba_used dA dB) ∧
    (cache_ba_used dA dB).cache_current_size
        + (104857000 + 1 + strlen ['c'] + sizeof_cache_element) > MAX_CACHE_SIZE ∧
    cache_add_element (cache_ba_used dA dB) dC 104857000 ['c'] 103 m fuel = none := by
  have ha : strlen ['a'] = 1 := by decide
  have hb : strlen ['b'] = 1 := by decide
  have hc : strlen ['c'] = 1 := by decide
  have ha2 : cstr ['a'] = ['a'] := by decide
  have hb2 : cstr ['b'] = ['b'] := by decide
  refine ⟨?_, ?_, ?_, ?_, ?_⟩
  · rw [cache_add_element_fits _ _ _ _ _ _ (by decide) (by decide) (by decide), ha, ha2]
    rfl
  · rw [cache_add_element_fits _ _ _ _ _ _ (by decide) (by simp only [cache_a]; decide)
      (by rw [hb]; simp only [cache_a]; decide), hb, hb2]
    rfl
  · simp [cache_find, cache_find_loop, cache_ba, cache_ba_used, strcmp_eq, ha2, hb2]
  · rw [hc]
    simp only [cache_ba_used]
    decide
  · apply cache_add_element_blocks
    rw [hc]
    simp only [cache_ba_used]
    decide

/-- Among elements with equal time stamps a call of `cache_remove_lru_element`
by a thread that does not hold the lock removes the one nearest to the head,
which is the one inserted last. -/
theorem cache_remove_lru_element_equal_times (dA dB : Str) :
    cache_remove_lru_element
        ⟨[⟨dB, 104857000, ['b'], 100⟩, ⟨dA, 104857000, ['a'], 100⟩], 209714084⟩
      = ⟨[⟨dA, 104857000, ['a'], 100⟩], 104857042⟩ := by
  have hb : strlen ['b'] = 1 := by decide
  simp [cache_remove_lru_element, lru_scan, accounted_size, hb, sizeof_cache_element]

/-! ## The size invariant -/

theorem lru_scan_get : ∀ (rest pre : List cache_element) (lru_idx : Nat) (lru : cache_element),
    (pre ++ rest).get? lru_idx = some lru →
    (pre ++ rest).get? (lru_scan rest pre.length lru_idx lru).1
      = some (lru_scan rest pre.length lru_idx lru).2
  | [], pre, lru_idx, lru, h => by simpa [lru_scan] using h
  | next :: rest, pre, lru_idx, lru, h => by
    have hnext : (pre ++ [next] ++ rest).get? pre.length = some next := by
      rw [List.append_assoc, List.get?_eq_getElem?, List.getElem?_append_right (Nat.le_refl _)]
      simp
    have hlen : (pre ++ [next]).length = pre.length + 1 := by simp
    have happ : pre ++ next :: rest = pre ++ [next] ++ rest := by simp
    rw [lru_scan]
    split
    · rw [happ, ← hlen]
      exact lru_scan_get rest (pre ++ [next]) pre.length next hnext
    · rw [happ, ← hlen]
      exact lru_scan_get rest (pre ++ [next]) lru_idx lru (by rw [← happ]; exact h)

theorem sum_map_eraseIdx (f : cache_element → Int) : ∀ (l : List cache_element) (i : Nat)
    (e : cache_element), l.get? i = some e →
    ((l.eraseIdx i).map f).sum = (l.map f).sum - f e
  | [], _, _, h => by simp at h
  | a :: l, 0, e, h => by
    simp only [List.get?_cons_zero, Option.some.injEq] at h
    subst h
    simp
  | a :: l, i + 1, e, h => by
    have ih := sum_map_eraseIdx f l i e (by simpa using h)
    simp only [List.eraseIdx_cons_succ, List.map_cons, List.sum_cons, ih]
    omega

theorem accounted_size_nonneg (e : cache_element) (h : -10 ≤ e.len) : 0 ≤ accounted_size e := by
  have := strlen_nonneg e.url
  simp only [accounted_size, sizeof_cache_element]
  omega

theorem remove_keeps_invariant (c : Cache) (hw : lengths_allocated c) (hi : size_invariant c) :
    lengths_allocated (cache_remove_lru_element c) ∧
    size_invariant (cache_remove_lru_element c) := by
  unfold cache_remove_lru_element
  cases hc : c.cache_head with
  | nil => simp only; exact ⟨hw, hi⟩
  | cons head rest =>
    simp only
    have hget := lru_scan_get rest [head] 0 head rfl
    simp only [List.length_singleton, List.singleton_append] at hget
    have hmem : (lru_scan rest 1 0 head).2 ∈ c.cache_head := by
      rw [hc]
      exact List.mem_iff_get?.mpr ⟨_, hget⟩
    have hpos := accounted_size_nonneg _ (hw _ (List.mem_map_of_mem _ hmem))
    constructor
    · intro x hx
      apply hw
      rw [hc]
      exact ((List.eraseIdx_sublist _ _).map _).subset hx
    · obtain ⟨h1, h2⟩ := hi
      rw [hc] at h1
      constructor
      · simp only
        rw [sum_map_eraseIdx accounted_size _ _ _ hget, h1]
      · simp only
        omega

theorem sum_accounted_nonneg : ∀ (l : List cache_element),
    (∀ x ∈ l.map cache_element.len, -10 ≤ x) → 0 ≤ (l.map accounted_size).sum
  | [], _ => by simp
  | e :: l, h => by
    have h1 := accounted_size_nonneg e (h _ (by simp))
    have h2 := sum_accounted_nonneg l (fun x hx => h x (by
      simp only [List.map_cons, List.mem_cons]
      exact Or.inr hx))
    simp only [List.map_cons, List.sum_cons]
    omega

/-- An insert that returns keeps the size invariant when the size charged
stays in the range of `int`. -/
theorem add_keeps_invariant (c c2 : Cache) (data url : Str) (size now : Int) (m : Allocs)
    (fuel : Nat) (r : Int) (hw : lengths_allocated c) (hi : size_invariant c)
    (hsize : -2147483648 ≤ size)
    (hint : c.cache_current_size + (size + 1 + strlen url + sizeof_cache_element) ≤ 2147483647)
    (h : cache_add_element c data size url now m fuel = some (r, c2)) :
    lengths_allocated c2 ∧ size_invariant c2 := by
  have hs := strlen_nonneg url
  have hE : sizeof_cache_element = 40 := rfl
  have hpos : 0 ≤ c.cache_current_size := by
    rw [hi.1]
    exact sum_accounted_nonneg _ hw
  unfold cache_add_element at h
  simp only [pthread_mutex_lock, Bool.false_eq_true, if_false, Option.some_bind] at h
  cases he : evict_loop (to_int (size + 1 + strlen url + sizeof_cache_element)) fuel c with
  | none => simp [he] at h
  | some c1 =>
    obtain ⟨hc1, hfit⟩ := evict_loop_some he
    subst hc1
    simp only [he] at h
    split at h
    · simp only [Option.some.injEq, Prod.mk.injEq] at h
      rw [← h.2]
      exact ⟨hw, hi⟩
    · split at h
      · simp only [Option.some.injEq, Prod.mk.injEq] at h
        rw [← h.2]
        exact ⟨hw, hi⟩
      · rename_i hm
        have hsize2 : -10 ≤ size := by
          simp only [malloc, Bool.not_eq_true, Bool.not_eq_false', Bool.and_eq_true,
            decide_eq_true_eq] at hm
          have := hm.2
          rw [to_int_eq _ (by omega) (by omega)] at this
          omega
        have hsum : to_int (c1.cache_current_size
            + to_int (size + 1 + strlen url + sizeof_cache_element))
            = c1.cache_current_size + (size + 1 + strlen url + sizeof_cache_element) := by
          rw [to_int_add_to_int, to_int_eq _ (by omega) (by omega)]
        rw [hsum] at hfit
        split at h
        · simp only [Option.some.injEq, Prod.mk.injEq] at h
          rw [← h.2]
          exact ⟨hw, hi⟩
        · simp only [Option.some.injEq, Prod.mk.injEq] at h
          rw [← h.2, hsum]
          constructor
          · intro x hx
            simp only [List.map_cons, List.mem_cons] at hx
            rcases hx with rfl | hx
            · exact hsize2
            · exact hw x hx
          · constructor
            · have hnew : accounted_size
                  { data := cstr data, url := cstr url, lru_time_track := now, len := size }
                  = size + 1 + strlen url + sizeof_cache_element := by
                simp only [accounted_size, strlen_cstr]
              simp only [List.map_cons, List.sum_cons, hnew]
              rw [← hi.1]
              omega
            · exact hfit

theorem find_keeps_invariant (c : Cache) (url : Str) (now : Int) (hw : lengths_allocated c)
    (hi : size_invariant c) :
    lengths_allocated (cache_find c url now).2 ∧ size_invariant (cache_find c url now).2 := by
  unfold cache_find
  cases h : cache_find_loop url now c.cache_head with
  | none => simp only; exact ⟨hw, hi⟩
  | some r =>
    obtain ⟨i, l2⟩ := r
    obtain ⟨e, hget, -, hset, -⟩ := cache_find_loop_some url now _ _ _ h
    simp only
    constructor
    · intro x hx
      apply hw
      simp only [hset] at hx
      rw [map_set_same cache_element.len _ _ e (touch now e) hget rfl] at hx
      exact hx
    · constructor
      · simp only [hset]
        rw [map_set_same accounted_size _ _ e (touch now e) hget rfl]
        exact hi.1
      · exact hi.2

theorem lengths_allocated_init : lengths_allocated Cache.init := by
  intro x hx
  simp [Cache.init] at hx

theorem size_invariant_init : size_invariant Cache.init := by
  constructor
  · rfl
  · decide

/-- C5: the size invariant holds in the empty cache, and the insert of an
element of `size` 2147483606 under the url `u` breaks it. The sum computed for
`element_size` is 2147483648, which is stored in an `int` as -2147483648; the
insert evicts nothing, returns 1 and leaves `cache_current_size` =
-2147483648, while the accounted sizes of the list add up to 2147483648. -/
theorem size_invariant_broken_by_insert (data : Str) (now : Int) (fuel : Nat) :
    size_invariant Cache.init ∧
    cache_add_element Cache.init data 2147483606 ['u'] now ⟨true, true, true⟩ fuel
      = some (1, cache_wrapped data now) ∧
    Reachable (cache_wrapped data now) ∧
    (cache_wrapped data now).cache_current_size = -2147483648 ∧
    ((cache_wrapped data now).cache_head.map accounted_size).sum = 2147483648 ∧
    ¬ size_invariant (cache_wrapped data now) := by
  have hE : to_int (2147483606 + 1 + strlen ['u'] + sizeof_cache_element) = -2147483648 := by
    decide
  have hC : to_int (Cache.init.cache_current_size + -2147483648) = -2147483648 := by decide
  have h2 : malloc (to_int (2147483606 + 10)) true = true := by decide
  have h3 : malloc (10 + strlen ['u']) true = true := by decide
  have h1 : malloc sizeof_cache_element true = true := by decide
  have hu : cstr ['u'] = ['u'] := by decide
  have hadd : cache_add_element Cache.init data 2147483606 ['u'] now ⟨true, true, true⟩ fuel
      = some (1, cache_wrapped data now) := by
    unfold cache_add_element
    simp only [pthread_mutex_lock, Bool.false_eq_true, if_false, Option.some_bind, hE,
      evict_loop_skip _ fuel Cache.init (by rw [hC]; decide), h1, h2, h3, Bool.not_true, hC, hu]
    rfl
  have hsum : ((cache_wrapped data now).cache_head.map accounted_size).sum = 2147483648 := by
    have hs : strlen ['u'] = 1 := by decide
    simp only [cache_wrapped, List.map_cons, List.map_nil, List.sum_cons, List.sum_nil,
      accounted_size, hs, sizeof_cache_element]
    norm_num
  refine ⟨size_invariant_init, hadd, ?_, rfl, hsum, ?_⟩
  · exact Reachable.add Cache.init _ data 2147483606 ['u'] now ⟨true, true, true⟩ fuel 1
      Reachable.init hadd
  · intro hinv
    have := hinv.1
    rw [hsum] at this
    simp only [cache_wrapped] at this
    omega

/-! ## The request sent upstream -/

/-- C3: when the origin-form text fits the buffer of 4096 bytes together with
its terminating NUL, the bytes that `handle_request` sends upstream are
`GET path version` CRLF, one line `name: value` CRLF for each header that the
request holds when it is serialised, in order, and a final CRLF; protocol and
port of the request play no part in them. -/
theorem handle_request_sends_origin_form (request : ParsedRequest)
    (hfit : (origin_form request).length < MAX_BYTES) :
    handle_request_send_buffer request
      = some (['G', 'E', 'T', ' '] ++ request.path ++ [' '] ++ request.version ++ CRLF
          ++ header_lines (upstream_headers request) ++ CRLF) ∧
    ∀ protocol port,
      handle_request_send_buffer { request with protocol := protocol, port := port }
        = handle_request_send_buffer request := by
  refine ⟨?_, fun _ _ => rfl⟩
  have hlen : (origin_form request).length
      = (['G', 'E', 'T', ' '] ++ request.path ++ [' '] ++ request.version ++ ['\r', '\n']).length
        + (header_lines (upstream_headers request) ++ CRLF).length := by
    simp only [origin_form, CRLF, List.length_append]
    omega
  rw [hlen] at hfit
  unfold handle_request_send_buffer ParsedRequest_unparse_headers
  simp only [ParsedRequest.unparse_headers]
  rw [if_neg (by omega), if_neg (by omega)]
  simp only
  rw [if_neg (by rw [List.length_append]; omega)]
  simp [CRLF]

/-- The request of `main`, once parsed, is sent upstream in origin-form with
`Connection: close`. -/
theorem handle_request_sends_origin_form_main :
    (origin_form main_parsed).length < MAX_BYTES ∧
    handle_request_send_buffer main_parsed
      = some ("GET /path/to/resource HTTP/1.1\r\n".toList ++ "Host: example.com\r\n".toList
          ++ "User-Agent: TestAgent\r\n".toList ++ "Connection: close\r\n".toList
          ++ "\r\n".toList) :=
  ⟨by decide, (handle_request_sends_origin_form main_parsed (by decide)).1.trans (by decide)⟩

/-! ## Error pages -/

/-- A pattern does not start inside a text that lacks its first character. -/
theorem findAux_skip_head (c : Char) (pat : Str) : ∀ (a b : Str) (i : Nat), c ∉ a →
    findAux (c :: pat) (a ++ b) i = findAux (c :: pat) b (i + a.length)
  | [], b, i, _ => by simp
  | x :: xs, b, i, h => by
    have hx : x ≠ c := fun e => h (by rw [e]; exact List.mem_cons_self _ _)
    have hm : c ∉ xs := fun e => h (List.mem_cons_of_mem _ e)
    rw [List.cons_append, ProxyParse.findAux, if_neg, findAux_skip_head c pat xs b (i + 1) hm]
    · simp only [List.length_cons]
      congr 1
      omega
    · rw [List.isPrefixOf_iff_prefix]
      rintro ⟨t, ht⟩
      simp only [List.cons_append, List.cons.injEq] at ht
      exact hx ht.1.symm

/-- The first place of a pattern that follows a text without its first
character. -/
theorem findAux_after_skip (c : Char) (pat a rest : Str) (h : c ∉ a) :
    findAux (c :: pat) (a ++ ((c :: pat) ++ rest)) 0 = some a.length := by
  rw [findAux_skip_head c pat a _ 0 h, List.cons_append,
    ProxyParse.findAux_hit _ _ _ _ ⟨rest, rfl⟩]
  simp

theorem cstr_sublist (s : Str) : List.Sublist (cstr s) s :=
  List.takeWhile_sublist _

theorem nul_not_mem_cstr (s : Str) : '\x00' ∉ cstr s := by
  intro h
  have := List.mem_takeWhile_imp h
  simp at this

/-- A response made of a status line `l`, the header `Content-Length: ds`,
header lines `ls1`, the header `Date: d`, header lines `ls2`, a blank line and
`body`: its `Content-Length` is the value of `ds` and its body is `body`. -/
theorem error_page_ok (l ds : Str) (ls1 ls2 : List Str) (body d : Str)
    (hp : page_parts_ok l ds ls1 ls2) (hd : '\r' ∉ d) :
    content_length (l ++ '\r' :: '\n' :: (("Content-Length: ".toList ++ ds) ++ '\r' :: '\n' ::
        (lines_text ls1 ++ (("Date: ".toList ++ d) ++ '\r' :: '\n' ::
          (lines_text ls2 ++ '\r' :: '\n' :: body)))))
      = some (decimalValue ds) ∧
    response_body (l ++ '\r' :: '\n' :: (("Content-Length: ".toList ++ ds) ++ '\r' :: '\n' ::
        (lines_text ls1 ++ (("Date: ".toList ++ d) ++ '\r' :: '\n' ::
          (lines_text ls2 ++ '\r' :: '\n' :: body)))))
      = some body := by
  obtain ⟨hC, hcr, hds, hdig, h1, h2⟩ := hp
  constructor
  · have hCa : 'C' ∉ l ++ ['\r', '\n'] := by simp [hC]
    have e : ∀ rest : Str, l ++ '\r' :: '\n' :: (("Content-Length: ".toList ++ ds) ++ rest)
        = (l ++ ['\r', '\n']) ++ ("Content-Length: ".toList ++ (ds ++ rest)) := by
      intro rest
      simp
    rw [e]
    unfold content_length
    have hf : find ((l ++ ['\r', '\n']) ++ ("Content-Length: ".toList ++ (ds ++
        '\r' :: '\n' :: (lines_text ls1 ++ (("Date: ".toList ++ d) ++ '\r' :: '\n' ::
          (lines_text ls2 ++ '\r' :: '\n' :: body)))))) "Content-Length: ".toList 0
        = some (l ++ ['\r', '\n']).length := by
      rw [ProxyParse.find_zero]
      exact findAux_after_skip 'C' "ontent-Length: ".toList (l ++ ['\r', '\n']) _ hCa
    rw [hf]
    simp only
    have hdrop : ((l ++ ['\r', '\n']) ++ ("Content-Length: ".toList ++ (ds ++
        '\r' :: '\n' :: (lines_text ls1 ++ (("Date: ".toList ++ d) ++ '\r' :: '\n' ::
          (lines_text ls2 ++ '\r' :: '\n' :: body)))))).drop ((l ++ ['\r', '\n']).length + 16)
        = ds ++ '\r' :: '\n' :: (lines_text ls1 ++ (("Date: ".toList ++ d) ++ '\r' :: '\n' ::
          (lines_text ls2 ++ '\r' :: '\n' :: body))) := by
      rw [← List.drop_drop, List.drop_left]
      rfl
    rw [hdrop, List.takeWhile_append_of_pos hdig, List.takeWhile_cons_of_neg (by decide),
      List.append_nil, if_neg hds]
  · have hl : hasCRLF l = false := ProxyParse.hasCRLF_of_not_mem l hcr
    have hdate : hasCRLF ("Date: ".toList ++ d) = false :=
      ProxyParse.hasCRLF_of_not_mem _ (by simp [hd])
    have hcl : hasCRLF ("Content-Length: ".toList ++ ds) = false := by
      apply ProxyParse.hasCRLF_of_not_mem
      intro hm
      rcases List.mem_append.mp hm with h | h
      · revert h; decide
      · have := hdig _ h
        revert this; decide
    have hall : ∀ x ∈ ("Content-Length: ".toList ++ ds) :: (ls1 ++ ("Date: ".toList ++ d) :: ls2),
        x ≠ [] ∧ hasCRLF x = false := by
      intro x hx
      rcases List.mem_cons.mp hx with e | e
      · rw [e]; exact ⟨by simp, hcl⟩
      · rcases List.mem_append.mp e with e | e
        · exact h1 x e
        · rcases List.mem_cons.mp e with e | e
          · rw [e]; exact ⟨by simp, hdate⟩
          · exact h2 x e
    have hshape : l ++ '\r' :: '\n' :: (("Content-Length: ".toList ++ ds) ++ '\r' :: '\n' ::
        (lines_text ls1 ++ (("Date: ".toList ++ d) ++ '\r' :: '\n' ::
          (lines_text ls2 ++ '\r' :: '\n' :: body))))
        = l ++ '\r' :: '\n' :: (lines_text (("Content-Length: ".toList ++ ds) ::
            (ls1 ++ ("Date: ".toList ++ d) :: ls2)) ++ '\r' :: '\n' :: body) := by
      simp [lines_text, CRLF]
    rw [hshape]
    unfold response_body
    rw [ProxyParse.find_zero, ProxyParse.findAux_crlfcrlf_lines _ l body 0 hl hall]
    simp only [Option.map_some', Option.some.injEq]
    generalize lines_text (("Content-Length: ".toList ++ ds) ::
            (ls1 ++ ("Date: ".toList ++ d) :: ls2)) = lt
    have : l ++ '\r' :: '\n' :: (lt ++ '\r' :: '\n' :: body)
        = (l ++ '\r' :: '\n' :: (lt ++ ['\r', '\n'])) ++ body := by simp
    rw [this, List.drop_left']
    simp only [List.length_append, List.length_cons, List.length_nil]
    omega

/-- The response that `sendErrorMessage` sends, when its template is the text
`A`, the date, and the text `B`, and `A` and `B` have the parts below. -/
theorem error_page_sent (A B l ds : Str) (ls1 ls2 : List Str) (body currentTime : Str)
    (hA : A = l ++ '\r' :: '\n' :: (("Content-Length: ".toList ++ ds) ++ '\r' :: '\n' ::
        (lines_text ls1 ++ "Date: ".toList)))
    (hB : B = '\r' :: '\n' :: (lines_text ls2 ++ '\r' :: '\n' :: body))
    (hp : page_parts_ok l ds ls1 ls2) (hnul : '\x00' ∉ A ∧ '\x00' ∉ B)
    (hAB : A.length + B.length ≤ 974)
    (hlen : currentTime.length ≤ 49) (hcr : '\r' ∉ currentTime) :
    content_length (cstr (snprintf 1024 (A ++ cstr currentTime ++ B))) = some (decimalValue ds) ∧
    response_body (cstr (snprintf 1024 (A ++ cstr currentTime ++ B))) = some body := by
  have hd : '\r' ∉ cstr currentTime := fun h => hcr ((cstr_sublist currentTime).subset h)
  have hdl : (cstr currentTime).length ≤ 49 :=
    le_trans (cstr_sublist currentTime).length_le hlen
  have hsn : snprintf 1024 (A ++ cstr currentTime ++ B) = A ++ cstr currentTime ++ B := by
    unfold snprintf
    apply List.take_of_length_le
    simp only [List.length_append]
    omega
  have hc : cstr (A ++ cstr currentTime ++ B) = A ++ cstr currentTime ++ B := by
    apply cstr_of_not_mem
    intro h
    rcases List.mem_append.mp h with h | h
    · rcases List.mem_append.mp h with h | h
      · exact hnul.1 h
      · exact nul_not_mem_cstr _ h
    · exact hnul.2 h
  have hshape : A ++ cstr currentTime ++ B
      = l ++ '\r' :: '\n' :: (("Content-Length: ".toList ++ ds) ++ '\r' :: '\n' ::
        (lines_text ls1 ++ (("Date: ".toList ++ cstr currentTime) ++ '\r' :: '\n' ::
          (lines_text ls2 ++ '\r' :: '\n' :: body)))) := by
    rw [hA, hB]
    simp
  rw [hsn, hc, hshape]
  exact error_page_ok l ds ls1 ls2 body (cstr currentTime) hp hd

set_option maxRecDepth 100000 in
/-- The six pages of `sendErrorMessage`, each taken apart into its status line,
its headers and its body. -/
theorem sendErrorMessage_pages (status_code : Int) (currentTime : Str)
    (hs : status_code ∈ [400, 403, 404, 500, 501, 505])
    (hlen : currentTime.length ≤ 49) (hcr : '\r' ∉ currentTime) :
    ∃ response body, sendErrorMessage status_code currentTime = (1, some response) ∧
      response_body response = some body ∧ content_length response = some body.length := by
  simp only [List.mem_cons, List.mem_singleton, List.not_mem_nil, or_false] at hs
  rcases hs with rfl | rfl | rfl | rfl | rfl | rfl
  · obtain ⟨h1, h2⟩ := error_page_sent _ _ "HTTP/1.1 400 Bad Request".toList "95".toList
      ["Connection: keep-alive".toList, "Content-Type: text/html".toList]
      ["Server: VaibhavN/14785".toList]
      "<HTML><HEAD><TITLE>400 Bad Request</TITLE></HEAD>\n<BODY><H1>400 Bad Request</H1>\n</BODY></HTML>".toList
      currentTime (by rfl) (by rfl) (by decide) (by decide) (by decide) hlen hcr
    exact ⟨_, _, rfl, h2, h1⟩
  · obtain ⟨h1, h2⟩ := error_page_sent _ _ "HTTP/1.1 403 Forbidden".toList "112".toList
      ["Content-Type: text/html".toList, "Connection: keep-alive".toList]
      ["Server: VaibhavN/14785".toList]
      "<HTML><HEAD><TITLE>403 Forbidden</TITLE></HEAD>\n<BODY><H1>403 Forbidden</H1><br>Permission Denied\n</BODY></HTML>".toList
      currentTime (by rfl) (by rfl) (by decide) (by decide) (by decide) hlen hcr
    exact ⟨_, _, rfl, h2, h1⟩
  · obtain ⟨h1, h2⟩ := error_page_sent _ _ "HTTP/1.1 404 Not Found".toList "91".toList
      ["Content-Type: text/html".toList, "Connection: keep-alive".toList]
      ["Server: VaibhavN/14785".toList]
      "<HTML><HEAD><TITLE>404 Not Found</TITLE></HEAD>\n<BODY><H1>404 Not Found</H1>\n</BODY></HTML>".toList
      currentTime (by rfl) (by rfl) (by decide) (by decide) (by decide) hlen hcr
    exact ⟨_, _, rfl, h2, h1⟩
  · obtain ⟨h1, h2⟩ := error_page_sent _ _ "HTTP/1.1 500 Internal Server Error".toList "115".toList
      ["Connection: keep-alive".toList, "Content-Type: text/html".toList]
      ["Server: VaibhavN/14785".toList]
      "<HTML><HEAD><TITLE>500 Internal Server Error</TITLE></HEAD>\n<BODY><H1>500 Internal Server Error</H1>\n</BODY></HTML>".toList
      currentTime (by rfl) (by rfl) (by decide) (by decide) (by decide) hlen hcr
    exact ⟨_, _, rfl, h2, h1⟩
  · obtain ⟨h1, h2⟩ := error_page_sent _ _ "HTTP/1.1 501 Not Implemented".toList "103".toList
      ["Connection: keep-alive".toList, "Content-Type: text/html".toList]
      ["Server: VaibhavN/14785".toList]
      "<HTML><HEAD><TITLE>501 Not Implemented</TITLE></HEAD>\n<BODY><H1>501 Not Implemented</H1>\n</BODY></HTML>".toList
      currentTime (by rfl) (by rfl) (by decide) (by decide) (by decide) hlen hcr
    exact ⟨_, _, rfl, h2, h1⟩
  · obtain ⟨h1, h2⟩ := error_page_sent _ _ "HTTP/1.1 505 HTTP Version Not Supported".toList "125".toList
      ["Connection: keep-alive".toList, "Content-Type: text/html".toList]
      ["Server: VaibhavN/14785".toList]
      "<HTML><HEAD><TITLE>505 HTTP Version Not Supported</TITLE></HEAD>\n<BODY><H1>505 HTTP Version Not Supported</H1>\n</BODY></HTML>".toList
      currentTime (by rfl) (by rfl) (by decide) (by decide) (by decide) hlen hcr
    exact ⟨_, _, rfl, h2, h1⟩

/-- C17: for every status code among 400, 403, 404, 500, 501 and 505 and every
date that `strftime` can have written into `currentTime[50]` (at most 49 bytes,
no carriage return), `sendErrorMessage` sends a response in which the decimal
value of the `Content-Length` header is the number of bytes that follow the
first CR LF CR LF. -/
theorem error_page_content_length (status_code : Int) (currentTime : Str)
    (hs : status_code ∈ [400, 403, 404, 500, 501, 505])
    (hlen : currentTime.length ≤ 49) (hcr : '\r' ∉ currentTime) :
    ∃ response body, sendErrorMessage status_code currentTime = (1, some response) ∧
      response_body response = some body ∧ content_length response = some body.length :=
  sendErrorMessage_pages status_code currentTime hs hlen hcr

/-- The page for status 500 with a date of 29 bytes. -/
theorem error_page_content_length_500 :
    ((500 : Int) ∈ [400, 403, 404, 500, 501, 505] ∧ sample_date.length ≤ 49 ∧
      '\r' ∉ sample_date) ∧
    ∃ response body, sendErrorMessage 500 sample_date = (1, some response) ∧
      response_body response = some body ∧ content_length response = some body.length :=
  ⟨by decide, error_page_content_length 500 sample_date (by decide) (by decide) (by decide)⟩

/-! ## The handler thread -/

/-- The fuel of the serving loop is never used up. -/
theorem serve_cached_fuel (data : Str) (data_size : Int) : ∀ (fuel : Nat) (pos : Int),
    data_size - pos ≤ fuel →
    serve_cached data data_size (fuel + 1) pos = serve_cached data data_size fuel pos
  | 0, pos, h => by
    simp only [serve_cached]
    rw [if_neg (by push_cast at h; omega)]
  | fuel + 1, pos, h => by
    rw [serve_cached, serve_cached]
    split
    · rename_i hlt
      simp only [List.cons.injEq, true_and]
      apply serve_cached_fuel data data_size fuel
      simp only [MAX_BYTES]
      split <;> push_cast at h ⊢ <;> omega
    · rfl

theorem no_sem_nil : no_sem [] := fun e h => by cases h

theorem no_sem_serve_cached (data : Str) (data_size : Int) : ∀ (fuel : Nat) (pos : Int),
    no_sem (serve_cached data data_size fuel pos)
  | 0, _ => no_sem_nil
  | fuel + 1, pos => by
    rw [serve_cached]
    split
    · intro e he
      rcases List.mem_cons.mp he with h | h
      · rw [h]
        exact ⟨by simp, by simp⟩
      · exact no_sem_serve_cached data data_size fuel _ e h
    · exact no_sem_nil

theorem no_sem_send_error (env : Env) (status_code : Int) : no_sem (send_error env status_code) := by
  unfold send_error
  split
  · exact no_sem_nil
  · intro e he
    rw [List.mem_singleton] at he
    rw [he]
    exact ⟨by simp, by simp⟩

theorem no_sem_dispatch (env : Env) (request : RequestFields) : no_sem (dispatch env request) := by
  unfold dispatch
  split
  · split
    · intro e he
      rcases List.mem_cons.mp he with h | h
      · rw [h]
        exact ⟨by simp, by simp⟩
      · split at h
        · exact no_sem_send_error env 500 e h
        · cases h
    · exact no_sem_send_error env 500
  · exact no_sem_nil

theorem sem_run_no_sem : ∀ (es : List Event) (n : Nat), no_sem es → sem_run es n = some n
  | [], _, _ => rfl
  | e :: es, n, h => by
    have he := h e (List.mem_cons_self _ _)
    have hstep : sem_step n e = some n := by
      cases e with
      | sem_wait => exact absurd rfl he.1
      | sem_post => exact absurd rfl he.2
      | send_client _ _ => rfl
      | handle_request _ => rfl
      | shutdown_client => rfl
      | close_client => rfl
    rw [sem_run, hstep]
    exact sem_run_no_sem es n (fun x hx => h x (List.mem_cons_of_mem _ hx))

theorem sem_run_append : ∀ (es fs : List Event) (n : Nat),
    sem_run (es ++ fs) n = (sem_run es n).bind (sem_run fs)
  | [], _, _ => rfl
  | e :: es, fs, n => by
    rw [List.cons_append, sem_run, sem_run]
    cases sem_step n e with
    | none => rfl
    | some m => exact sem_run_append es fs m

theorem count_no_sem {es : List Event} (h : no_sem es) :
    es.count Event.sem_wait = 0 ∧ es.count Event.sem_post = 0 :=
  ⟨List.count_eq_zero.mpr (fun hm => (h _ hm).1 rfl),
   List.count_eq_zero.mpr (fun hm => (h _ hm).2 rfl)⟩

/-- The two shapes of a run of `thread_fn`: an allocation fails, or the
connection is served and shut down. -/
theorem thread_fn_shape (env : Env) (c : Cache) :
    (thread_fn env c).1 = [Event.sem_wait, Event.close_client, Event.sem_post] ∨
    ∃ served, no_sem served ∧
      (thread_fn env c).1 = Event.sem_wait ::
        (served ++ [Event.shutdown_client, Event.close_client, Event.sem_post]) := by
  simp only [thread_fn]
  split
  · exact Or.inl rfl
  · split
    · exact Or.inl rfl
    · right
      refine ⟨_, ?_, rfl⟩
      split
      · split
        · exact no_sem_serve_cached _ _ _ _
        · exact no_sem_nil
      · split
        · split
          · exact no_sem_nil
          · exact no_sem_dispatch _ _
        · exact no_sem_nil

/-- C20: with the semaphore as a counter that is positive when the handler
starts, every run of `thread_fn` begins with its only `sem_wait`, ends with its
only `sem_post`, and leaves the counter as it found it. -/
theorem admission_token_balance (env : Env) (c : Cache) (counter : Nat) (h : 0 < counter) :
    (thread_fn env c).1.head? = some Event.sem_wait ∧
    (thread_fn env c).1.getLast? = some Event.sem_post ∧
    (thread_fn env c).1.count Event.sem_wait = 1 ∧
    (thread_fn env c).1.count Event.sem_post = 1 ∧
    sem_run (thread_fn env c).1 counter = some counter := by
  obtain ⟨n, rfl⟩ : ∃ n, counter = n + 1 := ⟨counter - 1, by omega⟩
  rcases thread_fn_shape env c with hs | ⟨served, hns, hs⟩
  · rw [hs]
    exact ⟨rfl, rfl, rfl, rfl, rfl⟩
  · rw [hs]
    obtain ⟨hw, hp⟩ := count_no_sem hns
    refine ⟨rfl, ?_, ?_, ?_, ?_⟩
    · rw [← List.cons_append, List.getLast?_append]
      rfl
    · rw [List.count_cons_self, List.count_append, hw]
      rfl
    · rw [List.count_cons_of_ne (by simp), List.count_append, hp]
      rfl
    · rw [sem_run]
      simp only [sem_step, Nat.add_one_ne_zero, if_false, Nat.add_sub_cancel]
      rw [sem_run_append, sem_run_no_sem served n hns]
      rfl

/-- The balance on the run for the request of `main`, with the counter at
`MAX_CLIENTS`. -/
theorem admission_token_balance_main :
    0 < MAX_CLIENTS ∧
    (thread_fn (client_sends ProxyParse.main_request) Cache.init).1.head? = some Event.sem_wait ∧
    (thread_fn (client_sends ProxyParse.main_request) Cache.init).1.getLast?
      = some Event.sem_post ∧
    (thread_fn (client_sends ProxyParse.main_request) Cache.init).1.count Event.sem_wait = 1 ∧
    (thread_fn (client_sends ProxyParse.main_request) Cache.init).1.count Event.sem_post = 1 ∧
    sem_run (thread_fn (client_sends ProxyParse.main_request) Cache.init).1 MAX_CLIENTS
      = some MAX_CLIENTS :=
  ⟨by decide,
   admission_token_balance (client_sends ProxyParse.main_request) Cache.init MAX_CLIENTS
     (by decide)⟩

/-- C18: a run in which the request misses the cache and the parser fails. The
client sends a request in origin form to a proxy with an empty cache; nothing
is sent back before the connection is closed. -/
theorem parse_failure_sends_nothing :
    (cache_find Cache.init origin_form_request 100).1 = none ∧
    parse_fields origin_form_request = none ∧
    (thread_fn (client_sends origin_form_request) Cache.init).1
      = [Event.sem_wait, Event.shutdown_client, Event.close_client, Event.sem_post] := by
  decide

/-- Comparing the first 8 bytes with a string of 8 bytes is a test for a
prefix. -/
theorem strncmp_eq_prefix (msg p : Str) (hp : cstr p = p) (h8 : p.length = 8) :
    strncmp_eq msg p 8 = true ↔ p <+: cstr msg := by
  unfold strncmp_eq
  rw [decide_eq_true_iff, hp, ← h8, List.take_length, List.prefix_iff_eq_take]
  exact eq_comm

theorem checkHTTPversion_eq_one (msg : Str) :
    checkHTTPversion msg = 1 ↔ supported_version msg := by
  unfold checkHTTPversion supported_version
  rw [← strncmp_eq_prefix msg "HTTP/1.1".toList (by decide) (by decide),
    ← strncmp_eq_prefix msg "HTTP/1.0".toList (by decide) (by decide)]
  by_cases h1 : strncmp_eq msg "HTTP/1.1".toList 8 = true
  · rw [if_pos h1]
    exact ⟨fun _ => Or.inl h1, fun _ => rfl⟩
  · rw [if_neg h1]
    by_cases h0 : strncmp_eq msg "HTTP/1.0".toList 8 = true
    · rw [if_pos h0]
      exact ⟨fun _ => Or.inr h0, fun _ => rfl⟩
    · rw [if_neg h0]
      constructor
      · intro h
        exact absurd h (by decide)
      · rintro (h | h)
        · exact absurd h h1
        · exact absurd h h0

theorem checkHTTPversion_values (msg : Str) :
    checkHTTPversion msg = 1 ∨ checkHTTPversion msg = -1 := by
  unfold checkHTTPversion
  split
  · exact Or.inl rfl
  · split
    · exact Or.inl rfl
    · exact Or.inr rfl

/-- The response for status 500 is sent, whatever the date. -/
theorem send_error_500 (env : Env) :
    ∃ response, sendErrorMessage 500 env.currentTime = (1, some response) ∧
      send_error env 500 = [Event.send_client response.length response] :=
  ⟨_, rfl, rfl⟩

/-- A run of `thread_fn` that misses the cache and has parsed a request. -/
theorem thread_fn_parsed (env : Env) (c : Cache) (request : RequestFields)
    (hb : env.buffer_available = true)
    (hm : malloc (strlen (receive_request env.recvs).2 + 10) env.tempReq_available = true)
    (hmiss : (cache_find c (cstr (receive_request env.recvs).2) env.now).1 = none)
    (hrecv : (receive_request env.recvs).1 > 0)
    (hparse : env.ParsedRequest_parse (cstr (receive_request env.recvs).2) = some request) :
    (thread_fn env c).1 = Event.sem_wait ::
      (dispatch env request ++ [Event.shutdown_client, Event.close_client, Event.sem_post]) := by
  simp only [thread_fn, hb, hm, hmiss, hrecv, hparse, Bool.not_true, Bool.false_eq_true, if_false,
    if_true]

/-- C19 as stated fails: `checkHTTPversion` returns 1 for `HTTP/1.1x`, and a
request with this version is forwarded. -/
theorem version_gate_accepts_longer_string :
    checkHTTPversion "HTTP/1.1x".toList = 1 ∧
    (thread_fn (client_sends version_suffix_request) Cache.init).1
      = [Event.sem_wait,
         Event.handle_request ⟨"GET".toList, "HTTP/1.1x".toList, some "h".toList, some "/".toList⟩,
         Event.shutdown_client, Event.close_client, Event.sem_post] := by
  decide

/-- C19 (amended): `checkHTTPversion` compares the first 8 bytes only. It
returns 1 exactly when the version begins with `HTTP/1.1` or `HTTP/1.0`, and
-1 otherwise. For a parsed GET request the handler calls `handle_request` when
host and path are set and the version begins so (and sends the 500 response
when the call returns -1); in every other case it sends the 500 response and
does not call `handle_request`. -/
theorem handler_version_gate (env : Env) (c : Cache) (request : RequestFields)
    (hb : env.buffer_available = true)
    (hm : malloc (strlen (receive_request env.recvs).2 + 10) env.tempReq_available = true)
    (hmiss : (cache_find c (cstr (receive_request env.recvs).2) env.now).1 = none)
    (hrecv : (receive_request env.recvs).1 > 0)
    (hparse : env.ParsedRequest_parse (cstr (receive_request env.recvs).2) = some request)
    (hget : strcmp_eq request.method "GET".toList = true) :
    (∀ msg, (checkHTTPversion msg = 1 ↔ supported_version msg) ∧
      (¬ supported_version msg → checkHTTPversion msg = -1)) ∧
    (request.host.isSome = true ∧ request.path.isSome = true ∧ supported_version request.version →
      (thread_fn env c).1 = Event.sem_wait :: Event.handle_request request ::
        ((if env.handle_request_returns = -1 then send_error env 500 else [])
          ++ [Event.shutdown_client, Event.close_client, Event.sem_post])) ∧
    (¬ (request.host.isSome = true ∧ request.path.isSome = true ∧
          supported_version request.version) →
      ∃ response, sendErrorMessage 500 env.currentTime = (1, some response) ∧
        (thread_fn env c).1 = [Event.sem_wait, Event.send_client response.length response,
          Event.shutdown_client, Event.close_client, Event.sem_post]) := by
  have htrace := thread_fn_parsed env c request hb hm hmiss hrecv hparse
  refine ⟨?_, ?_, ?_⟩
  · intro msg
    refine ⟨checkHTTPversion_eq_one msg, ?_⟩
    intro hn
    rcases checkHTTPversion_values msg with h | h
    · exact absurd ((checkHTTPversion_eq_one msg).mp h) hn
    · exact h
  · intro hok
    have hcond : request.host.isSome = true ∧ request.path.isSome = true ∧
        checkHTTPversion request.version = 1 :=
      ⟨hok.1, hok.2.1, (checkHTTPversion_eq_one _).mpr hok.2.2⟩
    rw [htrace, dispatch, if_pos hget, if_pos hcond]
    rfl
  · intro hno
    have hcond : ¬ (request.host.isSome = true ∧ request.path.isSome = true ∧
        checkHTTPversion request.version = 1) :=
      fun h => hno ⟨h.1, h.2.1, (checkHTTPversion_eq_one _).mp h.2.2⟩
    obtain ⟨response, hr, hs⟩ := send_error_500 env
    refine ⟨response, hr, ?_⟩
    rw [htrace, dispatch, if_pos hget, if_neg hcond, hs]
    rfl

/-- The gate on a request with the version `HTTP/2.0`: the 500 response is
sent and `handle_request` is not called. -/
theorem handler_version_gate_http2 :
    (cache_find Cache.init (cstr (receive_request (client_sends version_2_request).recvs).2)
      100).1 = none ∧
    parse_fields (cstr (receive_request (client_sends version_2_request).recvs).2)
      = some ⟨"GET".toList, "HTTP/2.0".toList, some "h".toList, some "/".toList⟩ ∧
    ¬ supported_version "HTTP/2.0".toList ∧
    ∃ response, sendErrorMessage 500 sample_date = (1, some response) ∧
      (thread_fn (client_sends version_2_request) Cache.init).1
        = [Event.sem_wait, Event.send_client response.length response,
          Event.shutdown_client, Event.close_client, Event.sem_post] :=
  ⟨by decide, by decide, by decide,
   (handler_version_gate (client_sends version_2_request) Cache.init
      ⟨"GET".toList, "HTTP/2.0".toList, some "h".toList, some "/".toList⟩
      (by decide) (by decide) (by decide) (by decide) (by decide) (by decide)).2.2
      (by decide)⟩

/-! ## The element removed by `cache_remove_lru_element` -/

/-- C24: the eviction loop of `cache_add_element` for an insert of 200 MiB into
the empty cache never ends, and `cache_add_element` does not return, whatever
number of iterations is allowed: the condition of the loop holds, and the call
of `cache_remove_lru_element` waits for `cache_lock`, which the thread holds
(a call that went on would find the empty cache and change nothing). -/
theorem eviction_loop_runs_forever (fuel : Nat) (now : Int) (m : Allocs) :
    size_invariant Cache.init ∧
    (0 : Int) ≤ 209715200 ∧
    evict_loop (209715200 + 1 + strlen ['u'] + sizeof_cache_element) fuel Cache.init = none ∧
    cache_add_element Cache.init body_200MiB 209715200 ['u'] now m fuel = none := by
  refine ⟨size_invariant_init, by decide, evict_loop_blocks _ fuel Cache.init (by decide),
    cache_add_element_blocks _ _ _ _ _ _ _ (by decide)⟩

/-! ## The accept loop -/

theorem accept_loop_reaches (fd : Int) (h : 0 ≤ fd) : ∀ (n : Nat) (i : Int),
    i + n ∈ accept_loop (List.replicate (n + 1) fd) i
  | 0, i => by
    simp [accept_loop, List.replicate, not_lt.mpr h]
  | n + 1, i => by
    rw [List.replicate_succ, accept_loop, if_neg (not_lt.mpr h)]
    apply List.mem_cons_of_mem
    have := accept_loop_reaches fd h n (i + 1)
    have e : i + 1 + (n : Int) = i + ((n + 1 : Nat) : Int) := by push_cast; ring
    rw [e] at this
    exact this

/-- C25: at the 401st accepted connection the accept loop of `main` writes
`clientSockets[400]` and `tid[400]`, outside arrays of `MAX_CLIENTS` = 400
entries. -/
theorem accept_loop_leaves_arrays :
    (400 : Int) ∈ accept_loop (List.replicate 401 4) 0 ∧ ¬ (400 : Int) < MAX_CLIENTS := by
  refine ⟨?_, by decide⟩
  have h := accept_loop_reaches 4 (by decide) 400 0
  have e : (0 : Int) + ((400 : Nat) : Int) = 400 := by norm_num
  rw [e] at h
  exact h

/-! ## The buffer that accumulates the response -/

theorem write_at_end (acc bytes : Str) : write_at acc acc.length bytes = acc ++ bytes := by
  simp [write_at]

/-- Copying a chunk that fits appends it. -/
theorem copy_chunk_fits : ∀ (buf acc : Str) (size : Int),
    (acc.length : Int) + buf.length ≤ size → size ≤ 2147483647 →
    copy_chunk buf (holding acc size) = some (holding (acc ++ buf) size)
  | [], acc, size, _, _ => by simp [copy_chunk]
  | byte :: rest, acc, size, h, hmax => by
    simp only [List.length_cons, Nat.cast_add, Nat.cast_one] at h
    have hstore : TempBuffer.store (holding acc size) byte
        = some ⟨some (acc ++ [byte]), size, acc.length⟩ := by
      simp only [TempBuffer.store, holding]
      rw [if_pos ⟨by omega, by omega⟩, Int.toNat_ofNat, write_at_end]
    rw [copy_chunk, hstore]
    simp only
    rw [to_int_eq _ (by omega) (by omega)]
    have hidx : (⟨some (acc ++ [byte]), size, (acc.length : Int) + 1⟩ : TempBuffer)
        = holding (acc ++ [byte]) size := by
      simp [holding]
    rw [hidx, copy_chunk_fits rest (acc ++ [byte]) size
      (by simp only [List.length_append, List.length_singleton, Nat.cast_add, Nat.cast_one]
          omega) hmax]
    simp

/-- The forwarding loop on chunks of 1 to `MAX_BYTES - 1` bytes, every `send`
succeeding and the allocator granting every request that it is given. The
invariant holds at the start of every iteration. When the bytes received are
at most 2147475456, the loop ends with all of them in the buffer; when they are
more, the iteration that passes this number computes `temp_buffer_size +
MAX_BYTES` = 2147483648, which is stored in the `int` as -2147483648, `realloc`
fails, and the loop is left with `temp_buffer` = `NULL`. -/
theorem forward_loop_run : ∀ (chunks : List Chunk) (acc : Str) (size : Int),
    (acc.length : Int) + 4096 ≤ size → size ≤ 2147479552 → size % 4096 = 0 →
    (∀ ch ∈ chunks, ch.realloc_ok = true ∧ ch.send_ok = true ∧ 1 ≤ ch.bytes.length ∧
      ch.bytes.length ≤ MAX_BYTES - 1) →
    (∀ s ∈ (forward_loop chunks (holding acc size)).1,
      s.temp_buffer_index + MAX_BYTES ≤ s.temp_buffer_size) ∧
    ((acc.length : Int) + (((chunks.map Chunk.bytes).flatten.length : Nat) : Int) ≤ 2147475456 →
      ∃ size2, (forward_loop chunks (holding acc size)).2
          = some (holding (acc ++ (chunks.map Chunk.bytes).flatten) size2) ∧
        ((acc ++ (chunks.map Chunk.bytes).flatten).length : Int) + 4096 ≤ size2 ∧
        size2 ≤ 2147479552) ∧
    (2147475456 < (acc.length : Int) + (((chunks.map Chunk.bytes).flatten.length : Nat) : Int) →
      ∃ t, (forward_loop chunks (holding acc size)).2 = some t ∧ t.temp_buffer = none)
  | [], acc, size, hinv, hmax, _, _ => by
    refine ⟨fun s hs => (by cases hs), fun _ => ⟨size, ?_, ?_, hmax⟩, fun h => ?_⟩
    · simp [forward_loop]
    · simpa using hinv
    · simp only [List.map_nil, List.flatten_nil, List.length_nil, Nat.cast_zero, add_zero] at h
      omega
  | chunk :: rest, acc, size, hinv, hmax, hmod, hall => by
    obtain ⟨hre, hsend, hk1, hk2⟩ := hall chunk (List.mem_cons_self _ _)
    have hrest : ∀ ch ∈ rest, ch.realloc_ok = true ∧ ch.send_ok = true ∧ 1 ≤ ch.bytes.length ∧
        ch.bytes.length ≤ MAX_BYTES - 1 := fun ch hch => hall ch (List.mem_cons_of_mem _ hch)
    have hM : MAX_BYTES - 1 = 4095 := rfl
    have hMi : (MAX_BYTES : Int) = 4096 := rfl
    rw [hM] at hk2
    have htake : chunk.bytes.take (MAX_BYTES - 1) = chunk.bytes := by
      rw [hM]
      exact List.take_of_length_le hk2
    have hne : chunk.bytes ≠ [] := by
      intro h
      rw [h] at hk1
      simp at hk1
    have htotal : (((((chunk :: rest).map Chunk.bytes).flatten.length : Nat)) : Int)
        = (chunk.bytes.length : Int) + (((rest.map Chunk.bytes).flatten.length : Nat) : Int) := by
      simp
    have hflat : acc ++ ((chunk :: rest).map Chunk.bytes).flatten
        = (acc ++ chunk.bytes) ++ (rest.map Chunk.bytes).flatten := by
      simp
    have hlen : ((acc ++ chunk.bytes).length : Int) = (acc.length : Int) + chunk.bytes.length := by
      simp
    have hhead : ∀ s : TempBuffer, s = holding acc size →
        s.temp_buffer_index + MAX_BYTES ≤ s.temp_buffer_size := by
      intro s hs
      rw [hs, hMi]
      exact hinv
    rw [forward_loop]
    simp only [htake]
    rw [if_neg hne, hsend]
    simp only [Bool.not_true, Bool.false_eq_true, if_false]
    rw [copy_chunk_fits _ acc size (by omega) (by omega)]
    simp only
    have hidx : (holding (acc ++ chunk.bytes) size).temp_buffer_index
        = (acc.length : Int) + chunk.bytes.length := by
      simp [holding]
    have hsz : (holding (acc ++ chunk.bytes) size).temp_buffer_size = size := rfl
    rw [hidx, hsz, hMi, to_int_eq _ (by omega) (by omega)]
    by_cases hgrow : (acc.length : Int) + chunk.bytes.length + 4096 > size
    · rw [if_pos hgrow]
      by_cases hover : size + 4096 ≤ 2147479552
      · rw [to_int_eq _ (by omega) (by omega), hre]
        have hr : realloc (size + 4096) true = true := by
          simp only [realloc, Bool.true_and, decide_eq_true_eq]
          omega
        rw [if_pos hr]
        have hst : (⟨(holding (acc ++ chunk.bytes) size).temp_buffer, size + 4096,
            (acc.length : Int) + chunk.bytes.length⟩ : TempBuffer)
            = holding (acc ++ chunk.bytes) (size + 4096) := by
          simp [holding]
        rw [hst]
        obtain ⟨h1, h2, h3⟩ := forward_loop_run rest (acc ++ chunk.bytes) (size + 4096)
          (by omega) hover (by omega) hrest
        refine ⟨?_, ?_, ?_⟩
        · intro s hs
          rcases List.mem_cons.mp hs with e | e
          · exact hhead s e
          · exact h1 s e
        · intro hle
          rw [hflat]
          exact h2 (by omega)
        · intro hlt
          exact h3 (by omega)
      · have hsize : size = 2147479552 := by omega
        have hw : to_int (size + 4096) = -2147483648 := by
          rw [hsize]
          decide
        rw [hw]
        have hr : realloc (-2147483648) chunk.realloc_ok = false := by
          simp [realloc]
        rw [if_neg (by rw [hr]; simp)]
        refine ⟨?_, ?_, ?_⟩
        · intro s hs
          rw [List.mem_singleton] at hs
          exact hhead s hs
        · intro hle
          exfalso
          have : (0 : Int) ≤ (((rest.map Chunk.bytes).flatten.length : Nat) : Int) :=
            Int.natCast_nonneg _
          omega
        · intro _
          exact ⟨_, rfl, rfl⟩
    · rw [if_neg hgrow]
      obtain ⟨h1, h2, h3⟩ := forward_loop_run rest (acc ++ chunk.bytes) size
        (by omega) hmax hmod hrest
      refine ⟨?_, ?_, ?_⟩
      · intro s hs
        rcases List.mem_cons.mp hs with e | e
        · exact hhead s e
        · exact h1 s e
      · intro hle
        rw [hflat]
        exact h2 (by omega)
      · intro hlt
        exact h3 (by omega)

theorem response_2GiB_chunks : ∀ ch ∈ response_2GiB,
    ch.realloc_ok = true ∧ ch.send_ok = true ∧ ch.bytes.length = 4095 := by
  intro ch hch
  have e := List.eq_of_mem_replicate hch
  rw [e]
  exact ⟨rfl, rfl, List.length_replicate _ _⟩

theorem response_2GiB_length :
    (response_2GiB.map Chunk.bytes).flatten.length = 2147479425 := by
  simp only [response_2GiB, List.map_replicate, List.length_flatten, List.length_replicate,
    List.sum_replicate, smul_eq_mul]

/-- When every `send` succeeds, the allocator grants every request that it is
given, every chunk received has between 1 and `MAX_BYTES - 1` bytes and the
response has at most 2147475456 bytes, `temp_buffer_index + MAX_BYTES <=
temp_buffer_size` holds at the start of every iteration of the forwarding loop
of `handle_request`, no write of the loop and not the final write of the NUL
is outside the buffer, and at the exit the first `temp_buffer_index` bytes are
the chunks received, in order. -/
theorem temp_buffer_holds_response (chunks : List Chunk)
    (h : ∀ ch ∈ chunks, ch.realloc_ok = true ∧ ch.send_ok = true ∧ 1 ≤ ch.bytes.length ∧
      ch.bytes.length ≤ MAX_BYTES - 1)
    (hlen : (chunks.map Chunk.bytes).flatten.length ≤ 2147475456) :
    (∀ s ∈ (accumulate_response chunks).1,
      s.temp_buffer_index + MAX_BYTES ≤ s.temp_buffer_size) ∧
    ∃ t bytes, (accumulate_response chunks).2 = some t ∧ t.temp_buffer = some bytes ∧
      0 ≤ t.temp_buffer_index ∧ t.temp_buffer_index < t.temp_buffer_size ∧
      t.temp_buffer_index = (((chunks.map Chunk.bytes).flatten.length : Nat) : Int) ∧
      bytes.take t.temp_buffer_index.toNat = (chunks.map Chunk.bytes).flatten ∧
      bytes.get? t.temp_buffer_index.toNat = some '\x00' := by
  have hM : (MAX_BYTES : Int) = 4096 := rfl
  obtain ⟨h1, h2, -⟩ := forward_loop_run chunks [] MAX_BYTES
    (by rw [hM]; simp) (by rw [hM]; decide) (by rw [hM]; decide) h
  obtain ⟨size2, h2, h3, -⟩ := h2 (by
    simp only [List.length_nil, Nat.cast_zero, zero_add]
    exact_mod_cast hlen)
  rw [List.nil_append] at h2 h3
  generalize (chunks.map Chunk.bytes).flatten = acc2 at h2 h3
  have hinit : (⟨some [], MAX_BYTES, 0⟩ : TempBuffer) = holding [] MAX_BYTES := rfl
  have hstore : TempBuffer.store (holding acc2 size2) '\x00'
      = some ⟨some (acc2 ++ ['\x00']), size2, acc2.length⟩ := by
    simp only [TempBuffer.store, holding]
    rw [if_pos ⟨by omega, by omega⟩, Int.toNat_ofNat, write_at_end]
  refine ⟨?_, ⟨some (acc2 ++ ['\x00']), size2, acc2.length⟩, acc2 ++ ['\x00'], ?_, rfl, ?_, ?_,
    ?_, ?_, ?_⟩
  · simp only [accumulate_response, hinit]
    exact h1
  · simp only [accumulate_response, hinit, h2, Option.some_bind, hstore]
  · simp
  · simp only
    omega
  · simp only
  · simp only [Int.toNat_ofNat, List.take_left']
  · simp only [Int.toNat_ofNat]
    rw [List.get?_eq_getElem?, List.getElem?_append_right (Nat.le_refl _)]
    simp

/-- The buffer after the two chunks of a short response. -/
theorem temp_buffer_holds_response_sample :
    (∀ s ∈ (accumulate_response sample_chunks).1,
      s.temp_buffer_index + MAX_BYTES ≤ s.temp_buffer_size) ∧
    ∃ t bytes, (accumulate_response sample_chunks).2 = some t ∧ t.temp_buffer = some bytes ∧
      0 ≤ t.temp_buffer_index ∧ t.temp_buffer_index < t.temp_buffer_size ∧
      t.temp_buffer_index = (((sample_chunks.map Chunk.bytes).flatten.length : Nat) : Int) ∧
      bytes.take t.temp_buffer_index.toNat = (sample_chunks.map Chunk.bytes).flatten ∧
      bytes.get? t.temp_buffer_index.toNat = some '\x00' :=
  temp_buffer_holds_response sample_chunks (by decide) (by decide)

/-- C26: the final write of `handle_request` goes through a `NULL` pointer.
An upstream response of 2147479425 bytes arrives in chunks of 4095 bytes, every
`send` succeeds and the allocator grants every request that it is given: the
`int` variable `temp_buffer_size` overflows, `realloc` is called with a
negative size and fails, the loop is left with `temp_buffer` = `NULL`, and
`temp_buffer[temp_buffer_index] = 0` has no buffer to write to. The same
happens after one byte when the first `realloc` fails. -/
theorem temp_buffer_written_through_null :
    (∀ ch ∈ response_2GiB, ch.realloc_ok = true ∧ ch.send_ok = true ∧ ch.bytes.length = 4095) ∧
    (response_2GiB.map Chunk.bytes).flatten.length = 2147479425 ∧
    (∃ t, (forward_loop response_2GiB ⟨some [], MAX_BYTES, 0⟩).2 = some t ∧
      t.temp_buffer = none) ∧
    (accumulate_response response_2GiB).2 = none ∧
    accumulate_response [⟨['x'], true, false⟩] = ([⟨some [], 4096, 0⟩], none) := by
  have hM : (MAX_BYTES : Int) = 4096 := rfl
  have hrun := (forward_loop_run response_2GiB [] MAX_BYTES
    (by rw [hM]; simp) (by rw [hM]; decide) (by rw [hM]; decide)
    (fun ch hch => by
      obtain ⟨h1, h2, h3⟩ := response_2GiB_chunks ch hch
      have e : MAX_BYTES - 1 = 4095 := rfl
      exact ⟨h1, h2, by omega, by omega⟩)).2.2
    (by rw [response_2GiB_length]; simp)
  have hinit : (⟨some [], MAX_BYTES, 0⟩ : TempBuffer) = holding [] MAX_BYTES := rfl
  rw [← hinit] at hrun
  refine ⟨response_2GiB_chunks, response_2GiB_length, hrun, ?_, by decide⟩
  obtain ⟨t, ht, hnull⟩ := hrun
  simp only [accumulate_response, ht, Option.some_bind, TempBuffer.store, hnull]

/-! ## The upstream fetch -/

theorem size_sub_le {a b : Nat} (h : b ≤ a) (ha : a < 2 ^ 64) : size_sub a b = a - b := by
  unfold size_sub
  have h2 : (2 : Nat) ^ 64 = 18446744073709551616 := by norm_num
  rw [h2] at ha ⊢
  have hb : b % 18446744073709551616 = b := Nat.mod_eq_of_lt (by omega)
  have hs : a + 18446744073709551616 - b = (a - b) + 18446744073709551616 := by omega
  rw [hb, hs, Nat.add_mod_right, Nat.mod_eq_of_lt (by omega)]

theorem recv_count_pos {remaining : Str} {n offered : Nat} (hn : 0 < n) (hr : remaining ≠ []) :
    1 ≤ recv_count remaining n offered ∧ recv_count remaining n offered ≤ n ∧
    recv_count remaining n offered ≤ remaining.length := by
  have hl : 0 < remaining.length := List.length_pos.mpr hr
  unfold recv_count
  rw [if_neg (by simp [hr]; omega)]
  omega

/-- The loop stores the bytes of the upstream up to `BUFFER_SIZE` and stops. -/
theorem fetch_loop_result : ∀ (fuel : Nat) (offers : List Nat) (remaining response : Str),
    response.length ≤ BUFFER_SIZE → BUFFER_SIZE - response.length < fuel →
    fetch_loop fuel offers remaining response response.length
      = some (response ++ remaining.take (BUFFER_SIZE - response.length),
          response.length + min remaining.length (BUFFER_SIZE - response.length))
  | 0, _, _, _, _, hf => absurd hf (Nat.not_lt_zero _)
  | fuel + 1, offers, remaining, response, hle, hf => by
    have hB : BUFFER_SIZE = 1024 := rfl
    have h2 : (2 : Nat) ^ 64 = 18446744073709551616 := by norm_num
    rw [fetch_loop, size_sub_le hle (by rw [hB]; norm_num)]
    by_cases h0 : BUFFER_SIZE - response.length = 0 ∨ remaining = []
    · have hrc : recv_count remaining (BUFFER_SIZE - response.length)
          (offers.headD (BUFFER_SIZE - response.length)) = 0 := by
        unfold recv_count
        rw [if_pos h0]
      rw [hrc, if_neg (by omega)]
      rcases h0 with h0 | h0
      · rw [h0]
        simp
      · rw [h0]
        simp
    · simp only [not_or] at h0
      obtain ⟨h1, h2, h3⟩ := @recv_count_pos remaining (BUFFER_SIZE - response.length)
        (offers.headD (BUFFER_SIZE - response.length)) (Nat.pos_of_ne_zero h0.1) h0.2
      generalize recv_count remaining (BUFFER_SIZE - response.length)
        (offers.headD (BUFFER_SIZE - response.length)) = r at h1 h2 h3
      rw [if_pos (by omega), write_at_end, Nat.mod_eq_of_lt (by omega)]
      have hlen : (response ++ remaining.take r).length = response.length + r := by
        rw [List.length_append, List.length_take]
        omega
      rw [← hlen, fetch_loop_result fuel offers.tail (remaining.drop r)
        (response ++ remaining.take r) (by omega) (by omega), hlen]
      congr 1
      congr 1
      · rw [List.append_assoc]
        congr 1
        have e : BUFFER_SIZE - response.length = r + (BUFFER_SIZE - (response.length + r)) := by
          omega
        rw [e, List.take_add]
      · rw [List.length_drop]
        omega

/-- What `fetch_from_server` returns: the first `BUFFER_SIZE` bytes of the
upstream response, or all of it when it is shorter. -/
theorem fetch_from_server_result (offers : List Nat) (upstream : Str) :
    fetch_from_server offers upstream
      = some (upstream.take BUFFER_SIZE, min upstream.length BUFFER_SIZE) := by
  have h := fetch_loop_result (BUFFER_SIZE + 1) offers upstream [] (Nat.zero_le _)
    (by simp)
  simp only [List.length_nil, Nat.sub_zero, List.nil_append, Nat.zero_add] at h
  exact h

/-- C21: the upstream sends 1025 bytes and closes. Whatever the sizes of the
pieces in which the bytes arrive, `fetch_from_server` stops with `total_size`
= 1024: the call of `recv` for the last byte is given room for
`BUFFER_SIZE - total_size` = 0 bytes and returns 0. -/
theorem fetch_stops_at_buffer_size (offers : List Nat) :
    response_1025.length = 1025 ∧
    fetch_from_server offers response_1025 = some (response_1025.take 1024, 1024) := by
  have hlen : response_1025.length = 1025 := List.length_replicate _ _
  refine ⟨hlen, ?_⟩
  rw [fetch_from_server_result, hlen]
  rfl

/-! ## Lists of entries in the heap -/

theorem heap_set_same (heap : Nat → Option CacheEntry) (p : Nat) (v : Option CacheEntry) :
    heap_set heap p v p = v := by
  simp [heap_set]

theorem heap_set_other (heap : Nat → Option CacheEntry) {p x : Nat} (v : Option CacheEntry)
    (h : x ≠ p) : heap_set heap p v x = heap x := by
  simp [heap_set, h]

/-- A list depends only on the pointers `f` of its own entries. -/
theorem seg_congr (f : CacheEntry → Option Nat) (h h2 : Nat → Option CacheEntry) :
    ∀ (l : List Nat) (p q : Option Nat), (∀ x ∈ l, (h2 x).map f = (h x).map f) →
    seg f h p l q → seg f h2 p l q
  | [], _, _, _, hs => hs
  | a :: t, p, q, hc, hs => by
    obtain ⟨hp, e, he, ht⟩ := hs
    have ha := hc a (List.mem_cons_self _ _)
    rw [he] at ha
    cases h2a : h2 a with
    | none => rw [h2a] at ha; cases ha
    | some e2 =>
      rw [h2a] at ha
      simp only [Option.map_some', Option.some.injEq] at ha
      refine ⟨hp, e2, h2a, ?_⟩
      rw [ha]
      exact seg_congr f h h2 t _ q (fun x hx => hc x (List.mem_cons_of_mem _ hx)) ht

theorem seg_append (f : CacheEntry → Option Nat) (h : Nat → Option CacheEntry) :
    ∀ (l1 l2 : List Nat) (p q : Option Nat),
    seg f h p (l1 ++ l2) q ↔ ∃ m, seg f h p l1 m ∧ seg f h m l2 q
  | [], l2, p, q => by
    constructor
    · intro hs
      exact ⟨p, rfl, hs⟩
    · rintro ⟨m, hm, hs⟩
      have hm2 : p = m := hm
      rw [hm2]
      exact hs
  | a :: t, l2, p, q => by
    constructor
    · rintro ⟨hp, e, he, hs⟩
      obtain ⟨m, h1, h2⟩ := (seg_append f h t l2 _ q).mp hs
      exact ⟨m, ⟨hp, e, he, h1⟩, h2⟩
    · rintro ⟨m, ⟨hp, e, he, h1⟩, h2⟩
      exact ⟨hp, e, he, (seg_append f h t l2 _ q).mpr ⟨m, h1, h2⟩⟩

/-- Every entry of a list is allocated. -/
theorem seg_alloc (f : CacheEntry → Option Nat) (h : Nat → Option CacheEntry) :
    ∀ (l : List Nat) (p q : Option Nat), seg f h p l q → ∀ x ∈ l, ∃ e, h x = some e
  | [], _, _, _, x, hx => by cases hx
  | a :: t, p, q, hs, x, hx => by
    obtain ⟨_, e, he, ht⟩ := hs
    rcases List.mem_cons.mp hx with hxa | hxt
    · rw [hxa]
      exact ⟨e, he⟩
    · exact seg_alloc f h t _ q ht x hxt

/-- The list that ends at `NULL` is determined by its first pointer. -/
theorem seg_det (f : CacheEntry → Option Nat) (h : Nat → Option CacheEntry) :
    ∀ (l1 l2 : List Nat) (p : Option Nat), seg f h p l1 none → seg f h p l2 none → l1 = l2
  | [], [], _, _, _ => rfl
  | [], b :: t2, p, h1, h2 => by
    have e1 : p = none := h1
    rw [e1] at h2
    cases h2.1
  | a :: t, [], p, h1, h2 => by
    have e2 : p = none := h2
    rw [e2] at h1
    cases h1.1
  | a :: t, b :: t2, p, h1, h2 => by
    obtain ⟨hp1, e1, he1, ht1⟩ := h1
    obtain ⟨hp2, e2, he2, ht2⟩ := h2
    rw [hp1] at hp2
    simp only [Option.some.injEq] at hp2
    subst hp2
    rw [he1] at he2
    simp only [Option.some.injEq] at he2
    subst he2
    rw [seg_det f h t t2 _ ht1 ht2]

/-- The first pointer of a list that ends at `NULL`. -/
theorem seg_start (f : CacheEntry → Option Nat) (h : Nat → Option CacheEntry)
    {l : List Nat} {p : Option Nat} (hs : seg f h p l none) : p = l.head? := by
  cases l with
  | nil => exact hs
  | cons a t => exact hs.1

/-- A list that ends at `NULL` has no entry twice. -/
theorem seg_nodup (f : CacheEntry → Option Nat) (h : Nat → Option CacheEntry) :
    ∀ (l : List Nat) (p : Option Nat), seg f h p l none → l.Nodup
  | [], _, _ => List.nodup_nil
  | a :: t, p, hs => by
    obtain ⟨hp, e, he, ht⟩ := hs
    rw [List.nodup_cons]
    refine ⟨?_, seg_nodup f h t _ ht⟩
    intro hmem
    obtain ⟨t1, t2, ht12⟩ := List.append_of_mem hmem
    rw [ht12] at ht
    obtain ⟨m, _, hm2⟩ := (seg_append f h t1 (a :: t2) _ none).mp ht
    have hm : m = some a := hm2.1
    rw [hm] at hm2
    have hwhole : seg f h (some a) (a :: t) none := by
      refine ⟨rfl, e, he, ?_⟩
      rw [ht12]
      exact (seg_append f h t1 (a :: t2) _ none).mpr ⟨some a, by rw [← hm]; assumption, hm2⟩
    have heq := seg_det f h _ _ _ hwhole hm2
    rw [ht12] at heq
    have hl := congrArg List.length heq
    simp at hl
    omega

/-- A store at the last entry of a list redirects the list. -/
theorem seg_set_last (f : CacheEntry → Option Nat) (h : Nat → Option CacheEntry)
    (l1 : List Nat) (p : Nat) (start q0 : Option Nat) (e2 : CacheEntry)
    (hp : p ∉ l1) (hs : seg f h start (l1 ++ [p]) q0) :
    seg f (heap_set h p (some e2)) start (l1 ++ [p]) (f e2) := by
  obtain ⟨m, h1, h2⟩ := (seg_append f h l1 [p] start q0).mp hs
  have hm : m = some p := h2.1
  rw [hm] at h1
  refine (seg_append f _ l1 [p] start (f e2)).mpr ⟨some p, ?_, ?_⟩
  · apply seg_congr f h _ l1 _ _ _ h1
    intro x hx
    rw [heap_set_other]
    intro e
    exact hp (e ▸ hx)
  · exact ⟨rfl, e2, heap_set_same _ _ _, rfl⟩

/-- A store outside a list leaves the list as it is. -/
theorem seg_set_outside (f : CacheEntry → Option Nat) (h : Nat → Option CacheEntry)
    (l : List Nat) (p : Nat) (start q : Option Nat) (v : Option CacheEntry)
    (hp : p ∉ l) (hs : seg f h start l q) : seg f (heap_set h p v) start l q := by
  apply seg_congr f h _ l _ _ _ hs
  intro x hx
  rw [heap_set_other]
  intro e
  exact hp (e ▸ hx)

/-- A store that keeps the pointer `f` of the entry leaves every list as it
is. -/
theorem seg_set_keep (f : CacheEntry → Option Nat) (h : Nat → Option CacheEntry)
    (l : List Nat) (p : Nat) (start q : Option Nat) (e e2 : CacheEntry)
    (he : h p = some e) (hf : f e2 = f e) (hs : seg f h start l q) :
    seg f (heap_set h p (some e2)) start l q := by
  apply seg_congr f h _ l _ _ _ hs
  intro x _
  by_cases hx : x = p
  · rw [hx, heap_set_same, he]
    simp [hf]
  · rw [heap_set_other _ _ hx]

/-! ## The statements that change the list -/

theorem set_next_some {s : CountCache} {p : Nat} {e : CacheEntry} (h : s.heap p = some e)
    (v : Option Nat) :
    s.set_next p v = some { s with heap := heap_set s.heap p (some { e with next := v }) } := by
  simp only [CountCache.set_next, h]

theorem set_prev_some {s : CountCache} {p : Nat} {e : CacheEntry} (h : s.heap p = some e)
    (v : Option Nat) :
    s.set_prev p v = some { s with heap := heap_set s.heap p (some { e with prev := v }) } := by
  simp only [CountCache.set_prev, h]

/-- A store that keeps url, data and size keeps the payload of every address. -/
theorem payload_heap_set (s : CountCache) (p : Nat) (e e2 : CacheEntry) (head tail : Option Nat)
    (count : Int) (he : s.heap p = some e)
    (h2 : (e2.url, e2.data, e2.size) = (e.url, e.data, e.size)) (x : Nat) :
    payload { heap := heap_set s.heap p (some e2), cache_head := head, cache_tail := tail,
              cache_count := count } x = payload s x := by
  unfold payload
  by_cases hx : x = p
  · rw [hx]
    simp only [heap_set_same, he, Option.map_some', h2]
  · simp only [heap_set_other _ _ hx]

/-- The parts of a list around one of its entries. -/
theorem entries_split {s : CountCache} {pre post : List Nat} {a : Nat}
    (h : entries s (pre ++ a :: post)) :
    ∃ ea, s.heap a = some ea ∧ (pre ++ a :: post).Nodup ∧
      seg CacheEntry.next s.heap s.cache_head pre (some a) ∧
      seg CacheEntry.next s.heap ea.next post none ∧
      seg CacheEntry.prev s.heap s.cache_tail post.reverse (some a) ∧
      seg CacheEntry.prev s.heap ea.prev pre.reverse none := by
  obtain ⟨hn, hp, _⟩ := h
  have hnd := seg_nodup _ _ _ _ hn
  obtain ⟨m, hn1, hn2⟩ := (seg_append _ _ pre (a :: post) _ _).mp hn
  have hm : m = some a := hn2.1
  obtain ⟨_, ea, hea, hn3⟩ := hn2
  have hrev : (pre ++ a :: post).reverse = post.reverse ++ a :: pre.reverse := by simp
  rw [hrev] at hp
  obtain ⟨m2, hp1, hp2⟩ := (seg_append _ _ post.reverse (a :: pre.reverse) _ _).mp hp
  have hm2 : m2 = some a := hp2.1
  obtain ⟨_, ea2, hea2, hp3⟩ := hp2
  rw [hea] at hea2
  simp only [Option.some.injEq] at hea2
  subst hea2
  rw [hm] at hn1
  rw [hm2] at hp1
  exact ⟨ea, hea, hnd, hn1, hn3, hp1, hp3⟩

/-- The statement that takes an entry out of the `next` pointers. -/
theorem unlink_prev_spec {s : CountCache} {pre post : List Nat} {a : Nat} {ea : CacheEntry}
    (or_head : Bool) (hcase : pre ≠ [] ∨ or_head = true)
    (hea : s.heap a = some ea) (hnd : (pre ++ a :: post).Nodup)
    (hn1 : seg CacheEntry.next s.heap s.cache_head pre (some a))
    (hn2 : seg CacheEntry.next s.heap ea.next post none)
    (hp1 : seg CacheEntry.prev s.heap s.cache_tail post.reverse (some a))
    (hp2 : seg CacheEntry.prev s.heap ea.prev pre.reverse none) :
    ∃ s1, unlink_prev s a or_head = some s1 ∧ s1.heap a = some ea ∧
      seg CacheEntry.next s1.heap s1.cache_head (pre ++ post) none ∧
      seg CacheEntry.prev s1.heap s1.cache_tail post.reverse (some a) ∧
      seg CacheEntry.prev s1.heap ea.prev pre.reverse none ∧
      s1.cache_count = s.cache_count ∧ (∀ x, payload s1 x = payload s x) := by
  rcases List.eq_nil_or_concat pre with hpre | ⟨r, q1, hpre⟩
  · subst hpre
    have hprev : ea.prev = none := hp2
    have hoh : or_head = true := by
      rcases hcase with h | h
      · exact absurd rfl h
      · exact h
    refine ⟨{ s with cache_head := ea.next }, ?_, hea, ?_, hp1, hp2, rfl, fun x => rfl⟩
    · simp only [unlink_prev, hea, hprev, hoh, if_true]
    · exact hn2
  · rw [List.concat_eq_append] at hpre
    subst hpre
    have hrev : (r ++ [q1]).reverse = q1 :: r.reverse := by simp
    rw [hrev] at hp2
    obtain ⟨hprev, eq1, heq1, _⟩ := hp2
    have hq1r : q1 ∉ r := by
      intro hm
      have := (List.nodup_append.mp hnd).1
      rw [List.nodup_append] at this
      exact this.2.2 hm (List.mem_singleton_self _)
    have hq1post : q1 ∉ post := by
      intro hm
      exact (List.nodup_append.mp hnd).2.2 (show q1 ∈ r ++ [q1] by simp)
        (List.mem_cons_of_mem _ hm)
    have haq1 : a ≠ q1 := by
      intro e
      exact (List.nodup_append.mp hnd).2.2 (show q1 ∈ r ++ [q1] by simp)
        (by rw [← e]; exact List.mem_cons_self _ _)
    refine ⟨{ s with heap := heap_set s.heap q1 (some { eq1 with next := ea.next }) }, ?_, ?_,
      ?_, ?_, ?_, rfl, ?_⟩
    · simp only [unlink_prev, hea, hprev]
      exact set_next_some heq1 _
    · simp only [heap_set_other _ _ haq1, hea]
    · refine (seg_append _ _ (r ++ [q1]) post _ _).mpr ⟨ea.next, ?_, ?_⟩
      · exact seg_set_last CacheEntry.next s.heap r q1 _ _ { eq1 with next := ea.next } hq1r hn1
      · exact seg_set_outside _ _ _ _ _ _ _ hq1post hn2
    · exact seg_set_keep CacheEntry.prev s.heap _ q1 _ _ eq1 _ heq1 rfl hp1
    · rw [hrev]
      refine seg_set_keep CacheEntry.prev s.heap _ q1 _ _ eq1 _ heq1 rfl ?_
      exact ⟨hprev, eq1, heq1, by assumption⟩
    · intro x
      exact payload_heap_set s q1 eq1 { eq1 with next := ea.next } _ _ _ heq1 rfl x

/-- The statement that takes an entry out of the `prev` pointers. -/
theorem unlink_next_spec {s : CountCache} {pre post : List Nat} {a : Nat} {ea : CacheEntry}
    (hea : s.heap a = some ea) (hnd : (pre ++ a :: post).Nodup)
    (hnext : ea.next = post.head?)
    (hn : seg CacheEntry.next s.heap s.cache_head (pre ++ post) none)
    (hp1 : seg CacheEntry.prev s.heap s.cache_tail post.reverse (some a))
    (hp2 : seg CacheEntry.prev s.heap ea.prev pre.reverse none) :
    ∃ s2, unlink_next s a = some s2 ∧ detached s2 a ea (pre ++ post) ∧
      s2.cache_head = s.cache_head ∧ s2.cache_count = s.cache_count ∧
      (∀ x, payload s2 x = payload s x) := by
  have hapre : a ∉ pre := fun hm =>
    (List.nodup_append.mp hnd).2.2 hm (List.mem_cons_self _ _)
  have hapost : a ∉ post := (List.nodup_cons.mp (List.nodup_append.mp hnd).2.1).1
  have ham : a ∉ pre ++ post := by
    simp [hapre, hapost]
  have hrev : (pre ++ post).reverse = post.reverse ++ pre.reverse := by simp
  cases post with
  | nil =>
    have hnx : ea.next = none := hnext
    refine ⟨{ s with cache_tail := ea.prev }, ?_, ⟨hea, ham, hn, ?_⟩, rfl, rfl, fun x => rfl⟩
    · simp only [unlink_next, hea, hnx]
    · rw [hrev]
      exact hp2
  | cons q2 post2 =>
    have hnx : ea.next = some q2 := hnext
    have hrev2 : (q2 :: post2).reverse = post2.reverse ++ [q2] := by simp
    rw [hrev2] at hp1
    obtain ⟨eq2, heq2⟩ := seg_alloc _ _ _ _ _ hp1 q2 (by simp)
    have hpnd := (List.nodup_cons.mp (List.nodup_append.mp hnd).2.1).2
    have hq2post : q2 ∉ post2.reverse := by
      rw [List.mem_reverse]
      exact (List.nodup_cons.mp hpnd).1
    have hq2pre : q2 ∉ pre.reverse := by
      rw [List.mem_reverse]
      intro hm
      exact (List.nodup_append.mp hnd).2.2 hm (show q2 ∈ a :: q2 :: post2 by simp)
    have haq2 : a ≠ q2 := by
      intro e
      exact hapost (by rw [e]; exact List.mem_cons_self _ _)
    refine ⟨{ s with heap := heap_set s.heap q2 (some { eq2 with prev := ea.prev }) }, ?_,
      ⟨?_, ham, ?_, ?_⟩, rfl, rfl, ?_⟩
    · simp only [unlink_next, hea, hnx]
      exact set_prev_some heq2 _
    · simp only [heap_set_other _ _ haq2, hea]
    · exact seg_set_keep CacheEntry.next s.heap _ q2 _ _ eq2 _ heq2 rfl hn
    · rw [hrev, hrev2]
      refine (seg_append _ _ (post2.reverse ++ [q2]) pre.reverse _ _).mpr ⟨ea.prev, ?_, ?_⟩
      · exact seg_set_last CacheEntry.prev s.heap _ q2 _ _ { eq2 with prev := ea.prev }
          hq2post hp1
      · exact seg_set_outside _ _ _ _ _ _ _ hq2pre hp2
    · intro x
      exact payload_heap_set s q2 eq2 { eq2 with prev := ea.prev } _ _ _ heq2 rfl x

/-- The statement that links the old head to the entry in front of it. -/
theorem link_head_spec {s : CountCache} {m : List Nat} {a : Nat} {ea : CacheEntry}
    (or_tail : Bool) (hcase : m ≠ [] ∨ or_tail = true) (hd : detached s a ea m)
    (hnext : ea.next = s.cache_head) (hprev : ea.prev = none) :
    ∃ s5, link_head s a or_tail = some s5 ∧
      seg CacheEntry.next s5.heap (some a) (a :: m) none ∧
      seg CacheEntry.prev s5.heap s5.cache_tail (a :: m).reverse none ∧
      s5.cache_count = s.cache_count ∧ (∀ x, payload s5 x = payload s x) := by
  obtain ⟨hea, ham, hn, hp⟩ := hd
  have hrev : (a :: m).reverse = m.reverse ++ [a] := by simp
  cases m with
  | nil =>
    have hhead : s.cache_head = none := hn
    have hot : or_tail = true := by
      rcases hcase with h | h
      · exact absurd rfl h
      · exact h
    refine ⟨{ s with cache_tail := some a }, ?_, ?_, ?_, rfl, fun x => rfl⟩
    · simp only [link_head, hhead, hot, if_true]
    · exact ⟨rfl, ea, hea, by rw [hnext, hhead]; rfl⟩
    · exact ⟨rfl, ea, hea, by rw [hprev]; rfl⟩
  | cons h0 m2 =>
    have hhead : s.cache_head = some h0 := hn.1
    obtain ⟨e0, he0⟩ := seg_alloc _ _ _ _ _ hn h0 (List.mem_cons_self _ _)
    have hnd := seg_nodup _ _ _ _ hn
    have hrev2 : (h0 :: m2).reverse = m2.reverse ++ [h0] := by simp
    have hh0 : h0 ∉ m2.reverse := by
      rw [List.mem_reverse]
      exact (List.nodup_cons.mp hnd).1
    have hah0 : a ≠ h0 := fun e => ham (by rw [e]; exact List.mem_cons_self _ _)
    refine ⟨{ s with heap := heap_set s.heap h0 (some { e0 with prev := some a }) }, ?_, ?_, ?_,
      rfl, ?_⟩
    · simp only [link_head]
      split
      · rename_i h heq
        rw [hhead] at heq
        cases heq
        exact set_prev_some he0 _
      · rename_i heq
        rw [hhead] at heq
        cases heq
    · refine ⟨rfl, ea, by simp only [heap_set_other _ _ hah0, hea], ?_⟩
      rw [hnext]
      exact seg_set_keep CacheEntry.next s.heap _ h0 _ _ e0 _ he0 rfl hn
    · rw [hrev, hrev2]
      rw [hrev2] at hp
      refine (seg_append _ _ (m2.reverse ++ [h0]) [a] _ _).mpr ⟨some a, ?_, ?_⟩
      · exact seg_set_last CacheEntry.prev s.heap _ h0 _ _ { e0 with prev := some a } hh0 hp
      · exact ⟨rfl, ea, by simp only [heap_set_other _ _ hah0, hea], by rw [hprev]; rfl⟩
    · intro x
      exact payload_heap_set s h0 e0 { e0 with prev := some a } _ _ _ he0 rfl x

/-- The two assignments to the pointers of a detached entry. -/
theorem detached_sets {s : CountCache} {m : List Nat} {a : Nat} {ea : CacheEntry}
    (hd : detached s a ea m) (v1 v2 : Option Nat) :
    ∃ s3 s4, s.set_next a v1 = some s3 ∧ s3.set_prev a v2 = some s4 ∧
      detached s4 a { ea with next := v1, prev := v2 } m ∧
      s4.cache_head = s.cache_head ∧ s4.cache_count = s.cache_count ∧
      (∀ x, payload s4 x = payload s x) := by
  obtain ⟨hea, ham, hn, hp⟩ := hd
  have ham2 : a ∉ m.reverse := by rw [List.mem_reverse]; exact ham
  have hea3 : heap_set s.heap a (some { ea with next := v1 }) a = some { ea with next := v1 } :=
    heap_set_same _ _ _
  refine ⟨_, _, set_next_some hea v1, set_prev_some hea3 v2,
    ⟨heap_set_same _ _ _, ham, ?_, ?_⟩, rfl, rfl, ?_⟩
  · exact seg_set_outside _ _ _ _ _ _ _ ham (seg_set_outside _ _ _ _ _ _ _ ham hn)
  · exact seg_set_outside _ _ _ _ _ _ _ ham2 (seg_set_outside _ _ _ _ _ _ _ ham2 hp)
  · intro x
    unfold payload
    by_cases hx : x = a
    · rw [hx]
      simp only [heap_set_same, hea, Option.map_some']
    · simp only [heap_set_other _ _ hx]

/-- The head and the tail of the list. -/
theorem entries_ends {s : CountCache} {l : List Nat} (h : entries s l) :
    s.cache_head = l.head? ∧ s.cache_tail = l.getLast? := by
  refine ⟨seg_start _ _ h.1, ?_⟩
  rw [seg_start _ _ h.2.1, List.head?_reverse]

/-- What `remove_cache_entry` does with an entry of the list. -/
theorem remove_cache_entry_spec {s : CountCache} {pre post : List Nat} {a : Nat}
    (h : entries s (pre ++ a :: post)) :
    ∃ s2, remove_cache_entry s (some a) = some s2 ∧ entries s2 (pre ++ post) ∧
      s2.heap a = none ∧ (∀ x, x ≠ a → payload s2 x = payload s x) := by
  obtain ⟨ea, hea, hnd, hn1, hn2, hp1, hp2⟩ := entries_split h
  have hnext : ea.next = post.head? := seg_start _ _ hn2
  obtain ⟨s1, hs1, hea1, hn, hp1b, hp2b, hc1, hpay1⟩ :=
    unlink_prev_spec true (Or.inr rfl) hea hnd hn1 hn2 hp1 hp2
  obtain ⟨s2, hs2, ⟨hea2, ham, hn2b, hp2c⟩, _, hc2, hpay2⟩ :=
    unlink_next_spec hea1 hnd hnext hn hp1b hp2b
  refine ⟨{ s2 with heap := heap_set s2.heap a none, cache_count := s2.cache_count - 1 }, ?_,
    ⟨?_, ?_, ?_⟩, heap_set_same _ _ _, ?_⟩
  · simp only [remove_cache_entry, hs1, Option.some_bind, hs2]
  · exact seg_set_outside _ _ _ _ _ _ _ ham hn2b
  · exact seg_set_outside _ _ _ _ _ _ _ (by rw [List.mem_reverse]; exact ham) hp2c
  · have hc := h.2.2
    simp only [hc2, hc1, hc, List.length_append, List.length_cons, Nat.cast_add, Nat.cast_one]
    ring
  · intro x hx
    rw [← hpay1 x, ← hpay2 x]
    unfold payload
    simp only [heap_set_other _ _ hx]

/-- What lines 82 to 91 of `find_in_cache` do with an entry of the list. -/
theorem move_to_head_spec {s : CountCache} {pre post : List Nat} {a : Nat}
    (h : entries s (pre ++ a :: post)) :
    ∃ s2, move_to_head s a = some s2 ∧ entries s2 (a :: (pre ++ post)) ∧
      (∀ x, payload s2 x = payload s x) := by
  obtain ⟨ea, hea, hnd, hn1, hn2, hp1, hp2⟩ := entries_split h
  have hnext : ea.next = post.head? := seg_start _ _ hn2
  cases pre with
  | nil =>
    have hhead : s.cache_head = some a := hn1
    refine ⟨s, ?_, h, fun x => rfl⟩
    simp only [move_to_head, hhead, ne_eq, not_true_eq_false, if_false]
  | cons h0 pre2 =>
    have hhead : s.cache_head = some h0 := hn1.1
    have hah0 : a ≠ h0 := by
      intro e
      exact (List.nodup_append.mp hnd).2.2 (show h0 ∈ h0 :: pre2 from List.mem_cons_self _ _)
        (by rw [← e]; exact List.mem_cons_self _ _)
    obtain ⟨s1, hs1, hea1, hn, hp1b, hp2b, hc1, hpay1⟩ :=
      unlink_prev_spec false (Or.inl (List.cons_ne_nil _ _)) hea hnd hn1 hn2 hp1 hp2
    obtain ⟨s2, hs2, ⟨hea2, ham, hn2b, hp2c⟩, hh2, hc2, hpay2⟩ :=
      unlink_next_spec hea1 hnd hnext hn hp1b hp2b
    obtain ⟨s3, s4, hs3, hs4, hd4, hh4, hc4, hpay4⟩ :=
      detached_sets ⟨hea2, ham, hn2b, hp2c⟩ s2.cache_head none
    obtain ⟨s5, hs5, hn5, hp5, hc5, hpay5⟩ := link_head_spec false
      (Or.inl (by simp)) hd4 hh4.symm rfl
    refine ⟨{ s5 with cache_head := some a }, ?_, ⟨hn5, hp5, ?_⟩, ?_⟩
    · have hne : ¬ some a = s.cache_head := by
        rw [hhead]
        intro e
        exact hah0 (Option.some.inj e)
      simp only [move_to_head, ne_eq, hne, not_false_eq_true, if_true, hs1, Option.some_bind,
        hs2, hs3, hs4, hs5]
    · have hc := h.2.2
      simp only [hc5, hc4, hc2, hc1, hc, List.length_append, List.length_cons, Nat.cast_add,
        Nat.cast_one]
      ring
    · intro x
      rw [← hpay1 x, ← hpay2 x, ← hpay4 x]
      exact hpay5 x

/-- What lines 61 to 73 of `add_to_cache` do with a pointer that is not the
address of an entry yet. -/
theorem add_new_entry_spec {s : CountCache} {m : List Nat} (url data : Str) (size n : Nat)
    (h : entries s m) (hfree : s.heap n = none) :
    ∃ s2, add_new_entry s url data size (some n) true = some s2 ∧ entries s2 (n :: m) ∧
      payload s2 n = some ((cstr url).take 256, data.take size, size) ∧
      (∀ x, x ≠ n → payload s2 x = payload s x) := by
  obtain ⟨hn, hp, hc⟩ := h
  have hnm : n ∉ m := by
    intro hm
    obtain ⟨e, he⟩ := seg_alloc _ _ _ _ _ hn n hm
    rw [hfree] at he
    cases he
  have hnm2 : n ∉ m.reverse := by rw [List.mem_reverse]; exact hnm
  have hd : detached { s with heap := heap_set s.heap n (some ⟨(cstr url).take 256,
      data.take size, size, none, s.cache_head⟩) } n
      ⟨(cstr url).take 256, data.take size, size, none, s.cache_head⟩ m :=
    ⟨heap_set_same _ _ _, hnm, seg_set_outside _ _ _ _ _ _ _ hnm hn,
      seg_set_outside _ _ _ _ _ _ _ hnm2 hp⟩
  obtain ⟨s5, hs5, hn5, hp5, hc5, hpay5⟩ := link_head_spec true (Or.inr rfl) hd rfl rfl
  refine ⟨{ s5 with cache_head := some n, cache_count := s5.cache_count + 1 }, ?_,
    ⟨hn5, hp5, ?_⟩, ?_, ?_⟩
  · simp only [add_new_entry, Bool.not_true, Bool.false_eq_true, if_false, hs5, Option.some_bind]
  · simp only [hc5, hc, List.length_cons, Nat.cast_add, Nat.cast_one]
  · have := hpay5 n
    unfold payload at this ⊢
    simp only [heap_set_same, Option.map_some'] at this
    exact this
  · intro x hx
    have := hpay5 x
    unfold payload at this ⊢
    simp only [heap_set_other _ _ hx] at this
    exact this

/-- What `add_to_cache` does: a full cache loses its tail, and the new entry
is the head. -/
theorem add_to_cache_spec {s : CountCache} {l : List Nat} (url data : Str) (size n : Nat)
    (h : entries s l) (hle : s.cache_count ≤ CACHE_SIZE)
    (hfree : s.heap n = none ∨ (s.cache_count = CACHE_SIZE ∧ s.cache_tail = some n)) :
    ∃ s2, add_to_cache s url data size (some n) true = some s2 ∧
      entries s2 (n :: (if s.cache_count = CACHE_SIZE then l.dropLast else l)) ∧
      s2.cache_count ≤ CACHE_SIZE ∧
      payload s2 n = some ((cstr url).take 256, data.take size, size) ∧
      (∀ x, x ≠ n → some x ≠ (if s.cache_count = CACHE_SIZE then s.cache_tail else none) →
        payload s2 x = payload s x) ∧
      (∀ t, s.cache_count = CACHE_SIZE → s.cache_tail = some t → t ≠ n → s2.heap t = none) := by
  by_cases hfull : s.cache_count = CACHE_SIZE
  · have hlen : l.length = 5 := by
      have := h.2.2
      rw [hfull] at this
      simp only [CACHE_SIZE] at this
      exact_mod_cast this.symm
    obtain ⟨r, t, hl⟩ : ∃ r t, l = r ++ [t] := by
      rcases List.eq_nil_or_concat l with hnil | ⟨r, t, hrt⟩
      · rw [hnil] at hlen
        cases hlen
      · exact ⟨r, t, by rw [hrt, List.concat_eq_append]⟩
    subst hl
    have htail : s.cache_tail = some t := by
      rw [(entries_ends h).2]
      simp
    obtain ⟨s0, hs0, he0, hfree0, hpay0⟩ := @remove_cache_entry_spec s r [] t h
    rw [List.append_nil] at he0
    have hfree_n : s0.heap n = none := by
      by_cases hnt : n = t
      · rw [hnt]
        exact hfree0
      · have hp := hpay0 n hnt
        rcases hfree with hf | ⟨_, hf⟩
        · unfold payload at hp
          rw [hf] at hp
          cases hh : s0.heap n with
          | none => rfl
          | some e => rw [hh] at hp; cases hp
        · rw [htail] at hf
          exact absurd (Option.some.inj hf).symm hnt
    obtain ⟨s2, hs2, he2, hpn, hpay2⟩ := add_new_entry_spec url data size n he0 hfree_n
    refine ⟨s2, ?_, ?_, ?_, hpn, ?_, ?_⟩
    · simp only [add_to_cache, hfull, if_true, htail, hs0, Option.some_bind, hs2]
    · rw [if_pos hfull, List.dropLast_concat]
      exact he2
    · have := he2.2.2
      rw [this]
      have hr : r.length = 4 := by
        simp only [List.length_append, List.length_singleton] at hlen
        omega
      simp [hr, CACHE_SIZE]
    · intro x hxn hxt
      rw [if_pos hfull, htail] at hxt
      rw [hpay2 x hxn, hpay0 x (fun e => hxt (by rw [e]))]
    · intro t2 _ ht2 ht2n
      rw [htail] at ht2
      have e : t2 = t := (Option.some.inj ht2).symm
      rw [e] at ht2n ⊢
      have hp := hpay2 t ht2n
      unfold payload at hp
      rw [hfree0] at hp
      cases hh : s2.heap t with
      | none => rfl
      | some e2 => rw [hh] at hp; cases hp
  · have hfree_n : s.heap n = none := by
      rcases hfree with hf | ⟨hf, _⟩
      · exact hf
      · exact absurd hf hfull
    obtain ⟨s2, hs2, he2, hpn, hpay2⟩ := add_new_entry_spec url data size n h hfree_n
    refine ⟨s2, ?_, ?_, ?_, hpn, ?_, ?_⟩
    · simp only [add_to_cache, hfull, if_false, Option.some_bind, hs2]
    · rw [if_neg hfull]
      exact he2
    · have h1 := he2.2.2
      have h2 := h.2.2
      rw [h1]
      rw [h2] at hle hfull
      simp only [List.length_cons, Nat.cast_add, Nat.cast_one]
      omega
    · intro x hxn _
      exact hpay2 x hxn
    · intro t hf
      exact absurd hf hfull

/-- The loop of `find_in_cache` passes the entries that do not have the url. -/
theorem find_in_cache_loop_skip (url : Str) (s : CountCache) :
    ∀ (pre : List Nat) (p q : Option Nat) (fuel : Nat),
    seg CacheEntry.next s.heap p pre q → (∀ x ∈ pre, has_url s url x = false) →
    find_in_cache_loop url (fuel + 1 + pre.length) s p = find_in_cache_loop url (fuel + 1) s q
  | [], p, q, fuel, hs, _ => by
    have e : p = q := hs
    rw [e]
    rfl
  | a :: t, p, q, fuel, hs, hno => by
    obtain ⟨hp, e, he, ht⟩ := hs
    have hu := hno a (List.mem_cons_self _ _)
    simp only [has_url, he] at hu
    rw [hp, List.length_cons, ← Nat.add_assoc, find_in_cache_loop]
    simp only [he, hu, Bool.false_eq_true, if_false]
    exact find_in_cache_loop_skip url s t _ q fuel ht
      (fun x hx => hno x (List.mem_cons_of_mem _ hx))

/-- What `find_in_cache` does on a list of entries. -/
theorem find_in_cache_spec {s : CountCache} {l : List Nat} (url : Str) (fuel : Nat)
    (h : entries s l) (hf : l.length < fuel) :
    (∀ pre a post, l = pre ++ a :: post → (∀ x ∈ pre, has_url s url x = false) →
      has_url s url a = true →
      ∃ s2, find_in_cache s url fuel = some (some a, s2) ∧ entries s2 (a :: (pre ++ post)) ∧
        (∀ x, payload s2 x = payload s x)) ∧
    ((∀ x ∈ l, has_url s url x = false) → find_in_cache s url fuel = some (none, s)) := by
  constructor
  · intro pre a post hl hno hyes
    subst hl
    obtain ⟨ea, hea, _, hn1, _, _, _⟩ := entries_split h
    obtain ⟨s2, hs2, he2, hpay⟩ := move_to_head_spec h
    obtain ⟨k, hk⟩ : ∃ k, fuel = k + 1 + pre.length := by
      simp only [List.length_append, List.length_cons] at hf
      exact ⟨fuel - 1 - pre.length, by omega⟩
    simp only [has_url, hea] at hyes
    refine ⟨s2, ?_, he2, hpay⟩
    rw [find_in_cache, hk, find_in_cache_loop_skip url s pre _ _ k hn1 hno, find_in_cache_loop]
    simp only [hea, hyes, if_true, hs2, Option.map_some']
  · intro hno
    obtain ⟨k, hk⟩ : ∃ k, fuel = k + 1 + l.length := ⟨fuel - 1 - l.length, by omega⟩
    rw [find_in_cache, hk, find_in_cache_loop_skip url s l _ _ k h.1 hno, find_in_cache_loop]

/-- A list splits at its first entry with the url, if it has one. -/
theorem first_with_url (s : CountCache) (url : Str) : ∀ (l : List Nat),
    (∀ x ∈ l, has_url s url x = false) ∨
    ∃ pre a post, l = pre ++ a :: post ∧ (∀ x ∈ pre, has_url s url x = false) ∧
      has_url s url a = true
  | [] => Or.inl (fun x hx => by cases hx)
  | b :: t => by
    by_cases hb : has_url s url b = true
    · exact Or.inr ⟨[], b, t, rfl, fun x hx => (by cases hx), hb⟩
    · rcases first_with_url s url t with hno | ⟨pre, a, post, hl, hno, hyes⟩
      · left
        intro x hx
        rcases List.mem_cons.mp hx with e | e
        · rw [e]
          simpa using hb
        · exact hno x e
      · right
        refine ⟨b :: pre, a, post, by rw [hl]; rfl, ?_, hyes⟩
        intro x hx
        rcases List.mem_cons.mp hx with e | e
        · rw [e]
          simpa using hb
        · exact hno x e

/-- The pointers at the two ends of the list. -/
theorem entries_end_pointers {s : CountCache} {l : List Nat} (h : entries s l) :
    (s.cache_head = none ↔ l = []) ∧ (s.cache_tail = none ↔ l = []) ∧
    (∀ p, s.cache_head = some p → ∃ e, s.heap p = some e ∧ e.prev = none) ∧
    (∀ p, s.cache_tail = some p → ∃ e, s.heap p = some e ∧ e.next = none) := by
  obtain ⟨hh, ht⟩ := entries_ends h
  refine ⟨?_, ?_, ?_, ?_⟩
  · rw [hh]
    cases l <;> simp
  · rw [ht]
    exact List.getLast?_eq_none_iff
  · intro p hp
    rw [hh] at hp
    cases l with
    | nil => cases hp
    | cons a m =>
      simp only [List.head?_cons, Option.some.injEq] at hp
      subst hp
      have hp2 := h.2.1
      rw [List.reverse_cons] at hp2
      obtain ⟨mid, _, h2⟩ := (seg_append _ _ m.reverse [a] _ _).mp hp2
      obtain ⟨_, e, he, h3⟩ := h2
      exact ⟨e, he, h3⟩
  · intro p hp
    rw [ht] at hp
    rcases List.eq_nil_or_concat l with hnil | ⟨r, t, hrt⟩
    · rw [hnil] at hp
      cases hp
    · rw [List.concat_eq_append] at hrt
      subst hrt
      have hlast : (r ++ [t]).getLast? = some t := by simp
      rw [hlast] at hp
      simp only [Option.some.injEq] at hp
      subst hp
      obtain ⟨mid, _, h2⟩ := (seg_append _ _ r [t] _ _).mp h.1
      obtain ⟨_, e, he, h3⟩ := h2
      exact ⟨e, he, h3⟩

theorem entries_sample : entries sample_cache [3, 2, 1] :=
  ⟨⟨rfl, _, rfl, rfl, _, rfl, rfl, _, rfl, rfl⟩,
   (show seg CacheEntry.prev sample_cache.heap (some 1) [1, 2, 3] none from
     ⟨rfl, _, rfl, rfl, _, rfl, rfl, _, rfl, rfl⟩),
   rfl⟩

/-- C23: on a well-formed list, when some entry has the url, `find_in_cache`
returns the first such entry; afterwards this entry is `cache_head`, the other
entries keep their order, `cache_tail` is the last entry of the list,
`cache_count` is unchanged and every entry keeps its url, data and size. When
no entry has the url, it returns `NULL` and changes nothing. -/
theorem find_in_cache_moves_to_front (s : CountCache) (l : List Nat) (url : Str) (fuel : Nat)
    (h : entries s l) (hf : l.length < fuel) :
    (∀ pre a post, l = pre ++ a :: post → (∀ x ∈ pre, has_url s url x = false) →
      has_url s url a = true →
      ∃ s2, find_in_cache s url fuel = some (some a, s2) ∧
        entries s2 (a :: (pre ++ post)) ∧ s2.cache_head = some a ∧
        s2.cache_tail = (a :: (pre ++ post)).getLast? ∧ s2.cache_count = s.cache_count ∧
        (∀ x, payload s2 x = payload s x)) ∧
    ((∀ x ∈ l, has_url s url x = false) → find_in_cache s url fuel = some (none, s)) := by
  obtain ⟨h1, h2⟩ := find_in_cache_spec url fuel h hf
  refine ⟨?_, h2⟩
  intro pre a post hl hno hyes
  obtain ⟨s2, hs2, he2, hpay⟩ := h1 pre a post hl hno hyes
  obtain ⟨hh, ht⟩ := entries_ends he2
  refine ⟨s2, hs2, he2, hh, ht, ?_, hpay⟩
  rw [he2.2.2, h.2.2, hl]
  simp only [List.length_append, List.length_cons]
  push_cast
  ring

/-- The lookup of `/a`, the tail of a list of three entries. -/
theorem find_in_cache_moves_to_front_sample :
    entries sample_cache [3, 2, 1] ∧ ([3, 2, 1] : List Nat).length < 4 ∧
    (∀ x ∈ [3, 2], has_url sample_cache "/a".toList x = false) ∧
    has_url sample_cache "/a".toList 1 = true ∧
    ∃ s2, find_in_cache sample_cache "/a".toList 4 = some (some 1, s2) ∧
      entries s2 (1 :: ([3, 2] ++ [])) ∧ s2.cache_head = some 1 ∧
      s2.cache_tail = (1 :: ([3, 2] ++ [])).getLast? ∧
      s2.cache_count = sample_cache.cache_count ∧
      (∀ x, payload s2 x = payload sample_cache x) :=
  ⟨entries_sample, by decide, by decide, by decide,
   (find_in_cache_moves_to_front sample_cache [3, 2, 1] "/a".toList 4 entries_sample
      (by decide)).1 [3, 2] 1 [] rfl (by decide) (by decide)⟩

/-- C27: the structural invariant of the count-bounded cache (the entries
reached from `cache_head` by `next` are those reached from `cache_tail` by
`prev`, in reverse order, `cache_count` is their number and is at most
`CACHE_SIZE`) holds initially and is preserved by `add_to_cache`,
`find_in_cache` and `remove_cache_entry`. On a full cache `add_to_cache`
removes the old `cache_tail`, and the new entry is `cache_head` in every case.
The invariant gives the other parts of the predicate: head and tail are `NULL`
exactly when the list is empty, `cache_head->prev` and `cache_tail->next` are
`NULL`. -/
theorem cache_invariant_preserved :
    cache_invariant CountCache.init ∧
    (∀ (s : CountCache) (url data : Str) (size n : Nat), cache_invariant s →
      (s.heap n = none ∨ (s.cache_count = CACHE_SIZE ∧ s.cache_tail = some n)) →
      ∃ s2, add_to_cache s url data size (some n) true = some s2 ∧ cache_invariant s2 ∧
        s2.cache_head = some n ∧
        (∀ l, entries s l →
          entries s2 (n :: (if s.cache_count = CACHE_SIZE then l.dropLast else l)) ∧
          (s.cache_count = CACHE_SIZE → s.cache_tail = l.getLast? ∧
            ∀ t, s.cache_tail = some t → t ≠ n → s2.heap t = none))) ∧
    (∀ (s : CountCache) (url : Str) (fuel : Nat), cache_invariant s →
      s.cache_count < (fuel : Int) →
      ∃ r, find_in_cache s url fuel = some r ∧ cache_invariant r.2) ∧
    (∀ (s : CountCache) (l : List Nat) (a : Nat), entries s l → s.cache_count ≤ CACHE_SIZE →
      a ∈ l →
      ∃ s2, remove_cache_entry s (some a) = some s2 ∧ entries s2 (l.erase a) ∧
        cache_invariant s2) ∧
    (∀ s : CountCache, remove_cache_entry s none = some s) ∧
    (∀ (s : CountCache) (l : List Nat), entries s l →
      s.cache_head = l.head? ∧ s.cache_tail = l.getLast? ∧
      (s.cache_head = none ↔ l = []) ∧ (s.cache_tail = none ↔ l = []) ∧
      (∀ p, s.cache_head = some p → ∃ e, s.heap p = some e ∧ e.prev = none) ∧
      (∀ p, s.cache_tail = some p → ∃ e, s.heap p = some e ∧ e.next = none)) := by
  refine ⟨⟨[], ⟨rfl, rfl, rfl⟩, by decide⟩, ?_, ?_, ?_, fun s => rfl, ?_⟩
  · intro s url data size n ⟨l, hl, hle⟩ hfree
    obtain ⟨s2, hs2, he2, hc2, _, _, hfreed⟩ := add_to_cache_spec url data size n hl hle hfree
    refine ⟨s2, hs2, ⟨_, he2, hc2⟩, (entries_ends he2).1, ?_⟩
    intro l2 hl2
    have e : l2 = l := seg_det _ _ _ _ _ hl2.1 hl.1
    rw [e]
    refine ⟨he2, ?_⟩
    intro hfull
    exact ⟨(entries_ends hl).2, fun t ht htn => hfreed t hfull ht htn⟩
  · intro s url fuel ⟨l, hl, hle⟩ hfuel
    have hf : l.length < fuel := by
      rw [hl.2.2] at hfuel
      exact_mod_cast hfuel
    obtain ⟨h1, h2⟩ := find_in_cache_spec url fuel hl hf
    rcases first_with_url s url l with hno | ⟨pre, a, post, hsplit, hno, hyes⟩
    · exact ⟨(none, s), h2 hno, l, hl, hle⟩
    · obtain ⟨s2, hs2, he2, _⟩ := h1 pre a post hsplit hno hyes
      refine ⟨(some a, s2), hs2, _, he2, ?_⟩
      have hc : s2.cache_count = s.cache_count := by
        rw [he2.2.2, hl.2.2, hsplit]
        simp only [List.length_append, List.length_cons]
        push_cast
        ring
      show s2.cache_count ≤ CACHE_SIZE
      rw [hc]
      exact hle
  · intro s l a hl hle ha
    obtain ⟨pre, post, hsplit⟩ := List.append_of_mem ha
    subst hsplit
    have hnd := seg_nodup _ _ _ _ hl.1
    have hapre : a ∉ pre := fun hm =>
      (List.nodup_append.mp hnd).2.2 hm (List.mem_cons_self _ _)
    obtain ⟨s2, hs2, he2, _, _⟩ := remove_cache_entry_spec hl
    have herase : (pre ++ a :: post).erase a = pre ++ post := by
      rw [List.erase_append_right _ hapre, List.erase_cons_head]
    refine ⟨s2, hs2, by rw [herase]; exact he2, _, he2, ?_⟩
    rw [he2.2.2]
    rw [hl.2.2] at hle
    simp only [List.length_append, List.length_cons, Nat.cast_add, Nat.cast_one] at hle ⊢
    omega
  · intro s l hl
    obtain ⟨h1, h2⟩ := entries_ends hl
    exact ⟨h1, h2, entries_end_pointers hl⟩

/-- The invariant on a list of three entries, after a lookup and after an
insert at a new address. -/
theorem cache_invariant_preserved_sample :
    cache_invariant sample_cache ∧ sample_cache.cache_count < ((4 : Nat) : Int) ∧
    (sample_cache.heap 4 = none ∨
      (sample_cache.cache_count = CACHE_SIZE ∧ sample_cache.cache_tail = some 4)) ∧
    (∃ r, find_in_cache sample_cache "/b".toList 4 = some r ∧ cache_invariant r.2) ∧
    (∃ s2, add_to_cache sample_cache "/d".toList "D".toList 1 (some 4) true = some s2 ∧
      cache_invariant s2 ∧ s2.cache_head = some 4 ∧
      (∀ l, entries sample_cache l →
        entries s2 (4 :: (if sample_cache.cache_count = CACHE_SIZE then l.dropLast else l)) ∧
        (sample_cache.cache_count = CACHE_SIZE → sample_cache.cache_tail = l.getLast? ∧
          ∀ t, sample_cache.cache_tail = some t → t ≠ 4 → s2.heap t = none))) :=
  ⟨⟨_, entries_sample, by decide⟩, by decide, Or.inl rfl,
   cache_invariant_preserved.2.2.1 sample_cache "/b".toList 4 ⟨_, entries_sample, by decide⟩
     (by decide),
   cache_invariant_preserved.2.1 sample_cache "/d".toList "D".toList 1 4
     ⟨_, entries_sample, by decide⟩ (Or.inl rfl)⟩

end ProxyServer
